import Mathlib

/-! libhyphenate-cfstring: a shallow embedding of the rule compiler, the pattern trie and the
hyphenation engine, and the properties checked on it.

The development follows the C++ sources:

* `HyphenationRule.cpp` / `HyphenationRule.h` : the rule compiler (the constructor of
  `HyphenationRule`) and the queries `hasPriority` / `priority`;
* `HyphenationTree.cpp` : the trie node (`find`, `insert`, `apply_patterns`) and the tree
  (`insert`, `applyPatterns`, `loadPatterns`);
* `Hyphenator.cpp` : `applyHyphenationRules`.

Conventions of the embedding.

* A `UniChar` (one UTF-16 code unit of a `CFString`) is a natural number, of type `Nat`; a
  string is a list of code units.  ASCII constants are written as numbers: `'.'` = 46,
  `'/'` = 47, `'0'` = 48, `'9'` = 57, `','` = 44, `'='` = 61, `'a'` = 97, `'z'` = 122.
* `int` is an integer wrapped to 32 bits two's complement (`wrapInt`), `uint` a natural number
  reduced modulo `2^32` (`wrapUInt`), a `char` stored in `std::vector<char>` a signed 8 bit value
  (`toChar`).  `%` on `int` is C's truncating remainder, `Int.tmod`.
* A read or write outside an array or vector, `back()` on an empty vector and a CoreFoundation
  call on `NULL` are undefined behaviour: the embedding returns `none` there.
* The CoreFoundation services the code calls (lower-casing, the predefined character sets) are
  a parameter, `CharOps`.
-/

set_option autoImplicit false

namespace Hyphenate

/-! ## Machine arithmetic -/

/-- Reduction of an integer to the range of a 32 bit `int`. -/
def wrapInt (x : Int) : Int := (x + 2147483648) % 4294967296 - 2147483648

/-- Reduction of an integer to the range of a 32 bit `uint`. -/
def wrapUInt (x : Int) : Nat := (x % 4294967296).toNat

/-- Conversion of an `int` to the (signed) `char` kept in `std::vector<char>`. -/
def toChar (x : Int) : Int := (x + 128) % 256 - 128

/-- The code units of an ASCII string literal (what `CFSTR("...")` holds). -/
def unichars (s : String) : List Nat := s.toList.map Char.toNat

/-! ## HyphenationRule -/

/-- The data members of `class HyphenationRule` (HyphenationRule.h, lines 38-40).  A `CFStringRef`
that may be `NULL` is an `Option`. -/
structure HyphenationRule where
  del_pre : Int
  skip_post : Int
  key : Option (List Nat)
  insert_pre : Option (List Nat)
  insert_post : Option (List Nat)
  priorities : List Int
deriving DecidableEq, Repr

/-- The first loop of the constructor (HyphenationRule.cpp, lines 45-52): it stops at the end of
the token or at the first `'/'` and returns the key built, the priorities pushed, the running
`priority` and the unread rest of the token (empty, or starting with the `'/'`). -/
def scanPattern : List Nat → List Nat → List Int → Int →
    List Nat × List Int × Int × List Nat
  | [], key_builder, priorities, priority => (key_builder, priorities, priority, [])
  | c :: cs, key_builder, priorities, priority =>
    if c = 47 then (key_builder, priorities, priority, c :: cs)
    else if 48 ≤ c ∧ c ≤ 57 then
      scanPattern cs key_builder priorities (wrapInt (10 * priority + (c : Int) - 48))
    else
      scanPattern cs (key_builder ++ [c]) (priorities ++ [toChar priority]) 0

/-- The loop `while (back() == 0) pop_back();` on the reversed vector: the head of the list is
`back()`.  On an empty vector `back()` is undefined behaviour. -/
def trimBack : List Int → Option (List Int)
  | [] => none
  | p :: ps => if p = 0 then trimBack ps else some (p :: ps)

/-- Line 56 of HyphenationRule.cpp: `while (priorities.back() == 0) priorities.pop_back();`. -/
def trimTrailingZeros (priorities : List Int) : Option (List Int) :=
  (trimBack priorities.reverse).map List.reverse

/-- The local variables of the suffix loop (HyphenationRule.cpp, lines 62-63 and the two
builders of lines 37-40). -/
structure SuffixState where
  field : Nat
  start : Nat
  cut : Nat
  insert_pre_builder : List Nat
  insert_post_builder : List Nat
deriving DecidableEq, Repr

/-- The start of the suffix loop (lines 62-63): `field = 1`, `start = 0`, `cut = 0`, with the
two builders empty. -/
def suffixStartState : SuffixState := ⟨1, 0, 0, [], []⟩

/-- The suffix loop (HyphenationRule.cpp, lines 64-79), run on the code units after the `'/'`. -/
def parseSuffix : List Nat → SuffixState → SuffixState
  | [], s => s
  | c :: cs, s =>
    if s.field = 1 ∧ c = 61 then parseSuffix cs { s with field := s.field + 1 }
    else if 2 ≤ s.field ∧ s.field ≤ 3 ∧ c = 44 then parseSuffix cs { s with field := s.field + 1 }
    else if s.field = 4 ∧ (c < 48 ∨ c > 57) then s
    else if s.field = 1 then
      parseSuffix cs { s with insert_pre_builder := s.insert_pre_builder ++ [c] }
    else if s.field = 2 then
      parseSuffix cs { s with insert_post_builder := s.insert_post_builder ++ [c] }
    else if s.field = 3 then
      parseSuffix cs { s with start := wrapUInt ((s.start : Int) * 10 + (c : Int) - 48) }
    else if s.field = 4 then
      parseSuffix cs { s with cut := wrapUInt ((s.cut : Int) * 10 + (c : Int) - 48) }
    else parseSuffix cs s

/-- The loop of HyphenationRule.cpp, lines 86-89,
`for (uint j = start; j < start+cut && j < priorities.size(); j++)`, where `bound` is the `uint`
value of `start+cut`.  The first argument bounds the number of iterations; `priorities.length`
is enough, as `j` grows by one per iteration and stays below `priorities.size()`.
The read `priorities[j-1]` has the `uint` index `j-1`. -/
def delPreLoop (priorities : List Int) (bound : Nat) : Nat → Nat → Int → Int → Option (Int × Int)
  | 0, _, del_pre, skip_post => some (del_pre, skip_post)
  | fuel + 1, j, del_pre, skip_post =>
    if j < bound ∧ j < priorities.length then
      match priorities[wrapUInt ((j : Int) - 1)]? with
      | none => none
      | some p =>
        if Int.tmod p 2 = 1 then some (del_pre, skip_post)
        else delPreLoop priorities bound fuel (j + 1) (wrapInt (del_pre + 1))
          (wrapInt (skip_post - 1))
    else some (del_pre, skip_post)

/-- Lines 80-81 of HyphenationRule.cpp: `if (field < 4) cut = key_builder_index - start;`, with
the `start` read from the token (the default of `start` is set after this line). -/
def resolvedCut (key_length : Nat) (s : SuffixState) : Nat :=
  if s.field < 4 then wrapUInt ((key_length : Int) - (s.start : Int)) else s.cut

/-- Lines 82-83 of HyphenationRule.cpp: `if (field < 3) start = 1;`. -/
def resolvedStart (s : SuffixState) : Nat :=
  if s.field < 3 then 1 else s.start

/-- Lines 80-89 of HyphenationRule.cpp: the defaults of `cut` and `start` (in this order), then
`skip_post = cut` and the `del_pre` loop.  Returns `(del_pre, skip_post)`. -/
def resolveSuffix (key_length : Nat) (priorities : List Int) (s : SuffixState) :
    Option (Int × Int) :=
  let cut := resolvedCut key_length s
  let start := resolvedStart s
  delPreLoop priorities (wrapUInt ((start : Int) + (cut : Int))) priorities.length start 0
    (wrapInt cut)

/-- A `CFStringRef` built from a builder: `NULL` when nothing was written to it
(HyphenationRule.cpp, lines 92-105). -/
def builderString (b : List Nat) : Option (List Nat) :=
  if b.length ≠ 0 then some b else none

/-- The constructor `HyphenationRule::HyphenationRule(CFStringRef)` (HyphenationRule.cpp,
lines 28-108); `new`, as the name of the structure is taken. -/
def HyphenationRule.new (dpattern : List Nat) : Option HyphenationRule :=
  match scanPattern dpattern [] [] 0 with
  | (key_builder, pushed, priority, rest) =>
    match trimTrailingZeros (pushed ++ [toChar priority]) with
    | none => none
    | some priorities =>
      match rest with
      | 47 :: suffix =>
        let s := parseSuffix suffix suffixStartState
        match resolveSuffix key_builder.length priorities s with
        | none => none
        | some (del_pre, skip_post) =>
          some { del_pre := del_pre, skip_post := skip_post, key := builderString key_builder,
                 insert_pre := builderString s.insert_pre_builder,
                 insert_post := builderString s.insert_post_builder, priorities := priorities }
      | _ =>
        some { del_pre := 0, skip_post := 0, key := builderString key_builder,
               insert_pre := none, insert_post := none, priorities := priorities }

/-- The query `hasPriority` (HyphenationRule.h, lines 79-80). -/
def HyphenationRule.hasPriority (r : HyphenationRule) (offset : Nat) : Bool :=
  decide (r.priorities.length > offset)

/-- The query `priority` (HyphenationRule.h, line 83): an unchecked read of the vector. -/
def HyphenationRule.priority (r : HyphenationRule) (offset : Nat) : Option Int :=
  r.priorities[offset]?

/-- The query `spaceNeededPreHyphen` (HyphenationRule.h, lines 91-92). -/
def HyphenationRule.spaceNeededPreHyphen (r : HyphenationRule) : Int :=
  (match r.insert_pre with
   | some s => (s.length : Int)
   | none => 0) - r.del_pre

/-- The query `isNonStandard` (HyphenationRule.h, lines 95-96). -/
def HyphenationRule.isNonStandard (r : HyphenationRule) : Bool :=
  r.del_pre != 0 || r.skip_post != 0 || r.insert_pre.isSome || r.insert_post.isSome

/-- The member `create_applied_string_first` (HyphenationRule.cpp, lines 130-149): a copy of
the word, `insert_pre` appended when there is one, then the hyphen appended. -/
def HyphenationRule.create_applied_string_first (r : HyphenationRule) (word hyph : List Nat) :
    List Nat :=
  match r.insert_pre with
  | some insert_pre => (word ++ insert_pre) ++ hyph
  | none => word ++ hyph

/-! ## CoreFoundation services -/

/-- What the code asks of CoreFoundation: `CFStringLowercase`, membership in the predefined sets
`kCFCharacterSetUppercaseLetter` and `kCFCharacterSetLowercaseLetter`, and the decoding of UTF-8
bytes by `CFStringCreateWithBytesNoCopy` (`none` is its `NULL`). -/
structure CharOps where
  lowercase : List Nat → List Nat
  isUppercaseLetter : Nat → Bool
  isLowercaseLetter : Nat → Bool
  fromUTF8 : List Nat → Option (List Nat)

/-- The services restricted to ASCII: `'A'..'Z'` are the upper-case letters, `'a'..'z'` the
lower-case ones. -/
def asciiOps : CharOps where
  lowercase := List.map (fun c => if 65 ≤ c ∧ c ≤ 90 then c + 32 else c)
  isUppercaseLetter := fun c => decide (65 ≤ c ∧ c ≤ 90)
  isLowercaseLetter := fun c => decide (97 ≤ c ∧ c ≤ 122)
  fromUTF8 := fun bytes => if bytes.all (fun b => decide (b < 128)) then some bytes else none

/-! ## HyphenationNode -/

/-- The lookup `std::map::find` on the entries of a map. -/
def mapFind {α : Type} : List (Nat × α) → Nat → Option α
  | [], _ => none
  | (k, v) :: m, c => if k = c then some v else mapFind m c

/-- The entry of `c` set to `v`: the entry is replaced when there is one, added otherwise. -/
def mapSet {α : Type} : List (Nat × α) → Nat → α → List (Nat × α)
  | [], c, v => [(c, v)]
  | (k, w) :: m, c, v => if k = c then (k, v) :: m else (k, w) :: mapSet m c v

/-- The data members of `class HyphenationNode` (HyphenationTree.cpp, lines 43-46): the array
`jump_table[26]`, the map `jump_map` (possibly `NULL`) and the owned rule (possibly `NULL`). -/
inductive HyphenationNode where
  | mk (jump_table : Fin 26 → Option HyphenationNode)
       (jump_map : Option (List (Nat × HyphenationNode)))
       (hyphenation_pattern : Option HyphenationRule)

namespace HyphenationNode

/-- The member `jump_table`. -/
def jump_table : HyphenationNode → Fin 26 → Option HyphenationNode
  | mk t _ _ => t

/-- The member `jump_map`. -/
def jump_map : HyphenationNode → Option (List (Nat × HyphenationNode))
  | mk _ m _ => m

/-- The member `hyphenation_pattern`. -/
def hyphenation_pattern : HyphenationNode → Option HyphenationRule
  | mk _ _ p => p

/-- The constructor `HyphenationNode()` (lines 48-50): no child, no map, no rule. -/
def empty : HyphenationNode := mk (fun _ => none) none none

/-- The member `find` (lines 69-78 and 82-91). -/
def find (node : HyphenationNode) (arg : Nat) : Option HyphenationNode :=
  if h : 97 ≤ arg ∧ arg ≤ 122 then
    node.jump_table ⟨arg - 97, by omega⟩
  else
    match node.jump_map with
    | some m => mapFind m arg
    | none => none

/-- The child of `key` set to `p`: what lines 148-157 do for a new child (`jump_table[key - 'a']`
for a letter `'a'..'z'`, otherwise the map, created when it is `NULL`), and what the update of an
existing child through its pointer does. -/
def setChild (node : HyphenationNode) (key : Nat) (p : HyphenationNode) : HyphenationNode :=
  if h : 97 ≤ key ∧ key ≤ 122 then
    mk (Function.update node.jump_table ⟨key - 97, by omega⟩ (some p)) node.jump_map
      node.hyphenation_pattern
  else
    mk node.jump_table (some (mapSet (node.jump_map.getD []) key p)) node.hyphenation_pattern

/-- The member `insert` (lines 133-161).  `key_characters` is the array up to, and without, the
terminating 0 that `HyphenationTree::insert` writes; a code unit 0 inside it ends the walk as the
terminator does. -/
def insert : HyphenationNode → List Nat → HyphenationRule → HyphenationNode
  | node, [], pattern => mk node.jump_table node.jump_map (some pattern)
  | node, key :: rest, pattern =>
    if key = 0 then mk node.jump_table node.jump_map (some pattern)
    else
      let p := (node.find key).getD empty
      node.setChild key (insert p rest pattern)

/-- The buffers of a scan: `pri` and `rules` of `applyPatterns`. -/
abbrev Buffers := List Int × List (Option HyphenationRule)

/-- The loop of lines 183-187, `for (int i = 0; hyp_pat->hasPriority(i); i++)`, on the
priorities not yet visited: the head of the list is `priority(i)`.  `base` is the offset of
`priority_buffer` and `rule_buffer` in the arrays `pri` and `rules`. -/
def applyRule (hyp_pat : HyphenationRule) (base : Nat) : List Int → Nat → Buffers → Option Buffers
  | [], _, b => some b
  | p :: ps, i, (pri, rules) =>
    match pri[base + i]? with
    | none => none
    | some cur =>
      if cur < p then
        if base + i < rules.length then
          applyRule hyp_pat base ps (i + 1)
            (pri.set (base + i) p,
             rules.set (base + i) (if Int.tmod p 2 = 1 then some hyp_pat else none))
        else none
      else applyRule hyp_pat base ps (i + 1) (pri, rules)

/-- The loop of lines 183-187 as it is written, with the guard `hyp_pat->hasPriority(i)` and
the reads `hyp_pat->priority(i)`; a read outside the vector is undefined.  The first argument
bounds the number of iterations.  `applyRule` is this loop on the list of the priorities. -/
def applyRuleLoop (hyp_pat : HyphenationRule) (base : Nat) : Nat → Nat → Buffers → Option Buffers
  | 0, _, _ => none
  | fuel + 1, i, (pri, rules) =>
    if hyp_pat.hasPriority i = true then
      match hyp_pat.priority i with
      | none => none
      | some p =>
        match pri[base + i]? with
        | none => none
        | some cur =>
          if cur < p then
            if base + i < rules.length then
              applyRuleLoop hyp_pat base fuel (i + 1)
                (pri.set (base + i) p,
                 rules.set (base + i) (if Int.tmod p 2 = 1 then some hyp_pat else none))
            else none
          else applyRuleLoop hyp_pat base fuel (i + 1) (pri, rules)
    else some (pri, rules)

/-- Lines 181-187: the rule of this node, when there is one, is applied. -/
def applyHere (node : HyphenationNode) (base : Nat) (b : Buffers) : Option Buffers :=
  match node.hyphenation_pattern with
  | some hyp_pat => applyRule hyp_pat base hyp_pat.priorities 0 b
  | none => some b

/-- The member `apply_patterns` (lines 163-188).  `to_match` is the array from the current
position up to, and without, the terminating 0. -/
def apply_patterns : HyphenationNode → Nat → List Nat → Buffers → Option Buffers
  | node, base, [], b => node.applyHere base b
  | node, base, key :: rest, b =>
    if key ≠ 0 then
      match node.find key with
      | some next =>
        match apply_patterns next base rest b with
        | some b1 => node.applyHere base b1
        | none => none
      | none => node.applyHere base b
    else node.applyHere base b

end HyphenationNode

/-! ## HyphenationTree -/

/-- Modelled from the spec: the declaration of `class HyphenationTree` (HyphenationTree.h) is
not among the sources.  The specification (section 3) gives a dictionary as a trie root plus
the integers `start_safe` and `end_safe`; these are the members that the constructor
(HyphenationTree.cpp, lines 108-111) initialises.  The margins only ever hold the constructor's
1 or the `atoi` of a token made of digits, so they are natural numbers. -/
structure HyphenationTree where
  root : HyphenationNode
  start_safe : Nat
  end_safe : Nat

/-- The result of `applyPatterns`: one slot per code unit of the word, `none` for `NULL`. -/
abbrev HyphenationPoints := List (Option HyphenationRule)

namespace HyphenationTree

/-- The constructor `HyphenationTree()` (lines 108-111); `new`, as `mk` builds the structure. -/
def new : HyphenationTree := ⟨HyphenationNode.empty, 1, 1⟩

/-- The member `insert` (lines 118-131).  `CFStringGetLength` of a `NULL` key and
`CFStringGetCharacters` of a range longer than the lower-cased key are undefined. -/
def insert (ops : CharOps) (t : HyphenationTree) (pattern : HyphenationRule) :
    Option HyphenationTree :=
  match pattern.key with
  | none => none
  | some upperCaseKey =>
    let length := upperCaseKey.length
    let lowercaseKey := ops.lowercase upperCaseKey
    if lowercaseKey.length < length then none
    else some { t with root := t.root.insert (lowercaseKey.take length) pattern }

/-- The scan loop of lines 228-229, `for (i = 0; i < w_size-1 && i <= stop_at; i++)`.  The first
argument bounds the number of iterations; `w_size` is enough. -/
def scanLoop (root : HyphenationNode) (characters : List Nat) (w_size stop_at : Nat) :
    Nat → Nat → HyphenationNode.Buffers → Option HyphenationNode.Buffers
  | 0, _, _ => none
  | fuel + 1, i, b =>
    if i < w_size - 1 ∧ i ≤ stop_at then
      match root.apply_patterns i (characters.drop i) b with
      | some b1 => scanLoop root characters w_size stop_at fuel (i + 1) b1
      | none => none
    else some b

/-- The copy loop of lines 242-243, `for (uint i = ind_start; i <= ind_end; i++)
(*output_rules)[i - 1] = rules[i];`.  The first argument bounds the number of iterations: a
`uint` takes `2^32` values, so a loop that has not ended after `2^32` iterations never ends. -/
def copyLoop (rules : List (Option HyphenationRule)) (ind_end : Nat) :
    Nat → Nat → HyphenationPoints → Option HyphenationPoints
  | 0, _, _ => none
  | fuel + 1, i, output_rules =>
    if i ≤ ind_end then
      match rules[i]? with
      | none => none
      | some r =>
        if wrapUInt ((i : Int) - 1) < output_rules.length then
          copyLoop rules ind_end fuel (wrapUInt ((i : Int) + 1))
            (output_rules.set (wrapUInt ((i : Int) - 1)) r)
        else none
    else some output_rules

/-- The call `CFStringFindCharacterFromSet(word, non_lower_case_letter_characte_set,
searchRange, 0, &foundRange)`: the first position in the range whose code unit is not a
lower-case letter; the range found has length 1. -/
def findNonLower (ops : CharOps) (word : List Nat) (location length : Nat) : Option Nat :=
  (List.range' location length).find? (fun p =>
    match word[p]? with
    | some c => !ops.isLowercaseLetter c
    | none => false)

/-- The loop of lines 250-252, `for (; i < upTo; ++i) (*output_rules)[i] = NULL;`, with the
number of iterations `upTo - i` as first argument. -/
def clearLoop : Nat → Nat → HyphenationPoints → Option HyphenationPoints
  | 0, _, output_rules => some output_rules
  | n + 1, i, output_rules =>
    if i < output_rules.length then clearLoop n (i + 1) (output_rules.set i none) else none

/-- The loop of lines 247-259 on the search range `(location, length)`.  The first argument
bounds the number of iterations. -/
def maskLoop (ops : CharOps) (start_safe end_safe : Nat) (word : List Nat) (wordLength : Nat) :
    Nat → Nat → Nat → HyphenationPoints → Option HyphenationPoints
  | 0, _, _, _ => none
  | fuel + 1, location, length, output_rules =>
    match findNonLower ops word location length with
    | none => some output_rules
    | some found =>
      let i := (max (location : Int) ((found : Int) - (start_safe : Int))).toNat
      let upTo := min wordLength (found + 1 + end_safe)
      match clearLoop (upTo - i) i output_rules with
      | none => none
      | some cleared =>
        if upTo = wordLength then some cleared
        else maskLoop ops start_safe end_safe word wordLength fuel (location + length)
          (wordLength - (location + length)) cleared

/-- Lines 202-212: the word is lower-cased when it holds an upper-case letter. -/
def lowerCased (ops : CharOps) (word : List Nat) : List Nat :=
  if word.any ops.isUppercaseLetter then ops.lowercase word else word

/-- Lines 214-219: the array `characters` without its terminating 0, that is `'.'`, the first
`wordLength` code units of the lower-cased word and `'.'`. -/
def characters (ops : CharOps) (word : List Nat) : List Nat :=
  46 :: ((lowerCased ops word).take word.length ++ [46])

/-- Lines 214-229: the buffers `pri` and `rules` after the scan.  `CFStringGetCharacters` of a
range longer than the lower-cased word is undefined. -/
def scan (ops : CharOps) (t : HyphenationTree) (word : List Nat) (stop_at : Nat) :
    Option HyphenationNode.Buffers :=
  let wordLength := word.length
  if (lowerCased ops word).length < wordLength then none
  else
    let w_size := wordLength + 2
    let pri := List.replicate (w_size + 2) (0 : Int)
    let rules := List.replicate (w_size + 3) (none : Option HyphenationRule)
    scanLoop t.root (characters ops word) w_size stop_at w_size 0 (pri, rules)

/-- The member `applyPatterns(word, stop_at)` (lines 196-270). -/
def applyPatternsUpTo (ops : CharOps) (t : HyphenationTree) (word : List Nat) (stop_at : Nat) :
    Option HyphenationPoints :=
  let wordLength := word.length
  let w_size := wordLength + 2
  match scan ops t word stop_at with
  | none => none
  | some (_, rules) =>
    let ind_start := wrapUInt (1 + (t.start_safe : Int))
    let ind_end := wrapUInt ((w_size : Int) - 1 - (t.end_safe : Int))
    match copyLoop rules ind_end 4294967297 ind_start (List.replicate wordLength none) with
    | none => none
    | some output_rules =>
      maskLoop ops t.start_safe t.end_safe (lowerCased ops word) wordLength (wordLength + 2) 0
        wordLength output_rules

/-- The member `applyPatterns(word)` (lines 190-194): `stop_at` is `INT_MAX`. -/
def applyPatterns (ops : CharOps) (t : HyphenationTree) (word : List Nat) :
    Option HyphenationPoints :=
  applyPatternsUpTo ops t word 2147483647

/-- The call `atoi` on a token made of digits: its decimal value; a value above `INT_MAX` is
undefined. -/
def atoi (digits : List Nat) : Option Nat :=
  let v := digits.foldl (fun acc d => 10 * acc + (d - 48)) 0
  if v ≤ 2147483647 then some v else none

/-- Lines 288-291 and 307-310: the bytes of the token are decoded, compiled and inserted. -/
def insertToken (ops : CharOps) (t : HyphenationTree) (pattern : List Nat) :
    Option HyphenationTree :=
  match ops.fromUTF8 pattern with
  | none => none
  | some patternString =>
    match HyphenationRule.new patternString with
    | none => none
    | some rule => t.insert ops rule

/-- The local variables of `loadPatterns` (lines 273-280), with the tree being loaded. -/
structure LoadState where
  pattern : List Nat
  numeric : Bool
  num_field : Nat
  tree : HyphenationTree

/-- The loop of `loadPatterns` (lines 281-304) on the bytes of the stream. -/
def loadLoop (ops : CharOps) : List Nat → LoadState → Option LoadState
  | [], st => some st
  | ch :: rest, st =>
    if ch = 10 ∨ ch = 13 ∨ ch = 9 ∨ ch = 32 then
      if st.pattern.length ≠ 0 ∧ st.numeric = true ∧ st.num_field ≤ 1 then
        match atoi st.pattern with
        | none => none
        | some v =>
          loadLoop ops rest
            { pattern := [], numeric := true, num_field := st.num_field + 1,
              tree := if st.num_field = 0 then { st.tree with start_safe := v }
                      else { st.tree with end_safe := v } }
      else if st.pattern.length ≠ 0 then
        match insertToken ops st.tree st.pattern with
        | none => none
        | some t1 => loadLoop ops rest { st with pattern := [], numeric := true, tree := t1 }
      else loadLoop ops rest { st with pattern := [], numeric := true }
    else
      loadLoop ops rest
        { st with pattern := st.pattern ++ [ch],
                  numeric := if ch < 48 ∨ ch > 57 then false else st.numeric }

/-- The member `loadPatterns` (lines 272-312). -/
def loadPatterns (ops : CharOps) (t : HyphenationTree) (stream : List Nat) :
    Option HyphenationTree :=
  match loadLoop ops stream ⟨[], true, 0, t⟩ with
  | none => none
  | some st => if st.pattern.length ≠ 0 then insertToken ops st.tree st.pattern else some st.tree

end HyphenationTree

/-! ## Hyphenator -/

/-- The `ifstream` that line 45 of Hyphenator.cpp constructs on `filename`: either the file
could not be opened, and the stream is born with `failbit` set, or it was opened and `get`
delivers `bytes` before it first fails, at the end of the file or, when `readError` is set, on
a read error. -/
inductive FileStream where
  | notOpened
  | opened (bytes : List Nat) (readError : Bool)

/-- The characters that the calls `i.get(ch)` of `loadPatterns` deliver before the first call
that fails: `while ( i.get(ch) )` only sees that a call failed, not why. -/
def FileStream.delivered : FileStream → List Nat
  | FileStream.notOpened => []
  | FileStream.opened bytes _ => bytes

/-- The function `read_hyphenation_table` (Hyphenator.cpp, lines 44-50): the stream is handed to
`loadPatterns` of a fresh tree without being tested, and the tree is returned.  The function has
no `throw`; `none` is undefined behaviour inside `loadPatterns`. -/
def read_hyphenation_table (ops : CharOps) (i : FileStream) : Option HyphenationTree :=
  HyphenationTree.loadPatterns ops HyphenationTree.new i.delivered

/-- The constructor `Hyphenator::Hyphenator(const char *filename)` (Hyphenator.cpp, lines 82-84):
the member `dictionary` that it sets. -/
def Hyphenator.new (ops : CharOps) (file : FileStream) : Option HyphenationTree :=
  read_hyphenation_table ops file

/-- The member `Hyphenator::applyHyphenationRules` (Hyphenator.cpp, lines 88-92), on the
dictionary of the hyphenator. -/
def applyHyphenationRules (ops : CharOps) (dictionary : HyphenationTree) (word : List Nat) :
    Option HyphenationPoints :=
  dictionary.applyPatterns ops word

/-! ## Notions used in the statements -/

/-- The decimal value of a run of digits (0 for the empty run). -/
def decimal (ds : List Nat) : Nat :=
  ds.foldl (fun acc c => 10 * acc + (c - 48)) 0

/-- The pattern part `d_0 l_0 d_1 l_1 ... d_(n-1) l_(n-1) d_n` of a token, from the pairs
`(d_i, l_i)` and the last run `d_n`. -/
def patternPart : List (List Nat × Nat) → List Nat → List Nat
  | [], dn => dn
  | (d, l) :: segs, dn => d ++ l :: patternPart segs dn

/-- The priority at the 1-based position `pos` of a priority vector: `priorities[pos-1]`, and 0
for a position past the stored (trimmed) vector. -/
def priorityAtPosition (priorities : List Int) (pos : Nat) : Int :=
  priorities.getD (pos - 1) 0

/-- The number of consecutive even priorities met when visiting the `n` positions `pos`,
`pos+1`, ..., `pos+n-1` in order, stopping at the first odd priority or at the end of the
range. -/
def evenRun (priorities : List Int) : Nat → Nat → Nat
  | 0, _ => 0
  | n + 1, pos =>
    if priorityAtPosition priorities pos % 2 = 1 then 0 else 1 + evenRun priorities n (pos + 1)

namespace HyphenationNode

/-- The node reached from `node` by following `find` along the code units of `path`. -/
def walk : HyphenationNode → List Nat → Option HyphenationNode
  | node, [] => some node
  | node, c :: cs =>
    match node.find c with
    | some next => walk next cs
    | none => none

/-- The rule stored under `path`: the rule owned by the node reached along `path`. -/
def ruleAt (node : HyphenationNode) (path : List Nat) : Option HyphenationRule :=
  match node.walk path with
  | some n => n.hyphenation_pattern
  | none => none

end HyphenationNode

/-- The lower-cased key of a rule as `HyphenationTree::insert` hands it to the root (lines
120-129): the first `length` code units of the lower-cased key, read as the C string that
`HyphenationNode::insert` walks, which ends at the first code unit 0. -/
def loweredKey (ops : CharOps) (pattern : HyphenationRule) : Option (List Nat) :=
  match pattern.key with
  | none => none
  | some upperCaseKey =>
    if (ops.lowercase upperCaseKey).length < upperCaseKey.length then none
    else some (((ops.lowercase upperCaseKey).take upperCaseKey.length).takeWhile (fun c => c ≠ 0))

/-- The dictionaries the program can build: a fresh tree, with any margins (set by
`loadPatterns`), and then rules inserted one by one. -/
inductive Built (ops : CharOps) : HyphenationTree → Prop
  | fresh (start_safe end_safe : Nat) : Built ops ⟨HyphenationNode.empty, start_safe, end_safe⟩
  | insert (t t1 : HyphenationTree) (pattern : HyphenationRule) :
      Built ops t → t.insert ops pattern = some t1 → Built ops t1
  | margins (t : HyphenationTree) (start_safe end_safe : Nat) :
      Built ops t → Built ops ⟨t.root, start_safe, end_safe⟩

/-- A hit of the scan at the gap `k` of the padded word: a stored rule `R`, whose lower-cased
key is `p`, a start offset `o` of the scan (`0 .. wordLength`) at which `p` occurs in the padded
word, and an offset `j` with `o + j = k` at which the rule has the priority `v`. -/
def Hit (ops : CharOps) (t : HyphenationTree) (word : List Nat) (R : HyphenationRule) (k : Nat)
    (v : Int) : Prop :=
  ∃ (p : List Nat) (o j : Nat),
    t.root.ruleAt p = some R ∧ loweredKey ops R = some p ∧ o ≤ word.length ∧
    p <+: (HyphenationTree.characters ops word).drop o ∧
    o + j = k ∧ R.hasPriority j = true ∧ R.priority j = some v

/-- The entry of `rule_buffer` that line 185 writes for the rule `R` and the priority `v`. -/
def mark (R : HyphenationRule) (v : Int) : Option HyphenationRule :=
  if Int.tmod v 2 = 1 then some R else none

/-- The relation between the buffers before and after a part of the scan that has applied the
priorities `H` (rule, position in the arrays, priority): the arrays keep their lengths, no
stored priority decreases, every applied priority is at most the stored one, and every
position is either untouched or holds an applied priority with the entry of its rule. -/
def Step (H : HyphenationRule → Nat → Int → Prop) (b b1 : HyphenationNode.Buffers) : Prop :=
  b1.1.length = b.1.length ∧ b1.2.length = b.2.length ∧
  (∀ k : Nat, b.1.getD k 0 ≤ b1.1.getD k 0) ∧
  (∀ (R : HyphenationRule) (k : Nat) (v : Int), H R k v → v ≤ b1.1.getD k 0) ∧
  (∀ k : Nat, (b1.1.getD k 0 = b.1.getD k 0 ∧ b1.2.getD k none = b.2.getD k none) ∨
    ∃ R : HyphenationRule, H R k (b1.1.getD k 0) ∧ b1.2.getD k none = mark R (b1.1.getD k 0))

/-- The priorities that `apply_patterns` applies from `node` on `to_match` with the buffers at
`base`: those of the rules stored under the prefixes of `to_match` that hold no code unit 0. -/
def nodeHits (node : HyphenationNode) (base : Nat) (to_match : List Nat) (R : HyphenationRule)
    (k : Nat) (v : Int) : Prop :=
  ∃ (p : List Nat) (j : Nat), p <+: to_match ∧ 0 ∉ p ∧ node.ruleAt p = some R ∧ k = base + j ∧
    R.priorities[j]? = some v

namespace HyphenationNode

/-- The rule of this node, when there is one, with the empty path. -/
def matchedHere (node : HyphenationNode) : List (List Nat × HyphenationRule) :=
  match node.hyphenation_pattern with
  | some R => [([], R)]
  | none => []

/-- The rules that `apply_patterns` applies from `node` on `to_match`, in the order in which it
applies them, each with the path from `node` under which it is stored: the recursive call comes
before the rule of the node itself, so the longest path comes first. -/
def matched : HyphenationNode → List Nat → List (List Nat × HyphenationRule)
  | node, [] => node.matchedHere
  | node, key :: rest =>
    (if key ≠ 0 then
      match node.find key with
      | some next => (matched next rest).map (fun e => (key :: e.1, e.2))
      | none => []
    else []) ++ node.matchedHere

end HyphenationNode

/-- An application of a rule by the scan: the start offset of the scan, the path under which
the rule is stored, and the rule. -/
abbrev Application := Nat × List Nat × HyphenationRule

/-- The priority that an application gives to the gap `k` of the padded word, when it gives
one: that of the rule at the offset `k - o`. -/
def Application.priorityAt (e : Application) (k : Nat) : Option Int :=
  if e.1 ≤ k then e.2.2.priorities[k - e.1]? else none

/-- The applications in a row: the loop of lines 183-187 for each of them, in order. -/
def applyAll : List Application → HyphenationNode.Buffers → Option HyphenationNode.Buffers
  | [], b => some b
  | e :: rest, b =>
    match HyphenationNode.applyRule e.2.2 e.1 e.2.2.priorities 0 b with
    | some b1 => applyAll rest b1
    | none => none

/-- The applications of the scan loop for the `n` start offsets `i`, `i + 1`, ..., in the order
in which the loop makes them. -/
def scanOrder (root : HyphenationNode) (characters : List Nat) : Nat → Nat → List Application
  | 0, _ => []
  | n + 1, i =>
    (root.matched (characters.drop i)).map (fun e => (i, e.1, e.2))
      ++ scanOrder root characters n (i + 1)

/-- The rule `R`, stored under the path `p`, is applied by the scan at the start offset `o` and
has the priority `v` at the gap `k`: `o` is an offset that the scan loop visits, `p` holds no
code unit 0 and occurs in the padded word at `o`, and `v` is the priority of `R` at the
offset `k - o`. -/
def Anchored (ops : CharOps) (t : HyphenationTree) (word : List Nat) (stop_at : Nat)
    (R : HyphenationRule) (o : Nat) (p : List Nat) (k : Nat) (v : Int) : Prop :=
  o < word.length + 1 ∧ o ≤ stop_at ∧ p <+: (HyphenationTree.characters ops word).drop o ∧
    0 ∉ p ∧ t.root.ruleAt p = some R ∧ o ≤ k ∧ R.priorities[k - o]? = some v

/-- The dictionaries built by compiling tokens and inserting the rules, for tokens whose key
holds no code unit 0 once lower-cased: a fresh tree, with any margins, and then rules compiled
and inserted one by one. -/
inductive Loaded (ops : CharOps) : HyphenationTree → Prop
  | fresh (start_safe end_safe : Nat) : Loaded ops ⟨HyphenationNode.empty, start_safe, end_safe⟩
  | insert (t t1 : HyphenationTree) (token : List Nat) (pattern : HyphenationRule)
      (key : List Nat) :
      Loaded ops t → HyphenationRule.new token = some pattern → pattern.key = some key →
      0 ∉ ops.lowercase key → t.insert ops pattern = some t1 → Loaded ops t1
  | margins (t : HyphenationTree) (start_safe end_safe : Nat) :
      Loaded ops t → Loaded ops ⟨t.root, start_safe, end_safe⟩

/-- The rules of a sequence inserted one after the other, in the order of the sequence. -/
def HyphenationTree.insertAll (ops : CharOps) :
    List HyphenationRule → HyphenationTree → Option HyphenationTree
  | [], t => some t
  | pattern :: rest, t =>
    match t.insert ops pattern with
    | some t1 => insertAll ops rest t1
    | none => none

/-- The value that the accumulation `x = x * 10 + c - '0'` of the suffix loop gives in `uint`
arithmetic on the code units `cs`, digits or not, starting from `x`. -/
def uintAccumulate (x : Nat) (cs : List Nat) : Nat :=
  cs.foldl (fun acc c => wrapUInt ((acc : Int) * 10 + (c : Int) - 48)) x

/-- The suffix `pre=post,f3,f4` of a token: the four fields with their separators. -/
def suffixOf (pre post f3 f4 : List Nat) : List Nat :=
  pre ++ 61 :: (post ++ 44 :: (f3 ++ 44 :: f4))

/-- The finite map of the specification, from lower-cased keys to rules, after a rule has been
stored under `key`: the uniform mapping that section 9 of the specification allows in place of
the trie. -/
def specTrieInsert (m : List Nat → Option HyphenationRule) (key : List Nat)
    (r : HyphenationRule) : List Nat → Option HyphenationRule :=
  fun q => if q = key then some r else m q

/-- The stream made of tokens, each followed by one white-space character: the pairs are a
token and the character that follows it.  A token may be empty: white space in a row. -/
def streamOf : List (List Nat × Nat) → List Nat
  | [] => []
  | (token, space) :: rest => token ++ space :: streamOf rest

/-- The characters at which `loadPatterns` ends a token (line 282). -/
def isSpace (ch : Nat) : Prop := ch = 10 ∨ ch = 13 ∨ ch = 9 ∨ ch = 32

instance (ch : Nat) : Decidable (isSpace ch) := by
  unfold isSpace
  exact inferInstance

/-- What a token followed by white space does to the tree and to the number of margins read so
far: a non-empty token made of digits sets a margin when fewer than two have been set, the
first `start_safe` and the second `end_safe`, wherever it stands in the stream; every other
non-empty token is compiled and inserted. -/
def loadToken (ops : CharOps) (state : HyphenationTree × Nat) (token : List Nat) :
    Option (HyphenationTree × Nat) :=
  if token = [] then some state
  else if (∀ ch ∈ token, 48 ≤ ch ∧ ch ≤ 57) ∧ state.2 ≤ 1 then
    match HyphenationTree.atoi token with
    | none => none
    | some v =>
      some (if state.2 = 0 then { state.1 with start_safe := v }
            else { state.1 with end_safe := v }, state.2 + 1)
  else
    match HyphenationTree.insertToken ops state.1 token with
    | none => none
    | some t1 => some (t1, state.2)

/-- The tokens of a stream, in order. -/
def loadTokens (ops : CharOps) :
    List (List Nat) → HyphenationTree × Nat → Option (HyphenationTree × Nat)
  | [], state => some state
  | token :: rest, state =>
    match loadToken ops state token with
    | none => none
    | some state1 => loadTokens ops rest state1

/-! ## Example rules and dictionaries -/

/-- The rule that the token `hy2ph` compiles to. -/
def rule_hy2ph : HyphenationRule :=
  ⟨0, 0, some (unichars "hyph"), none, none, [0, 0, 2]⟩

/-- The rule that the token `hy1ph` compiles to. -/
def rule_hy1ph : HyphenationRule :=
  ⟨0, 0, some (unichars "hyph"), none, none, [0, 0, 1]⟩

/-- The rule that the token `1-b` compiles to. -/
def rule_dash_b : HyphenationRule :=
  ⟨0, 0, some (unichars "-b"), none, none, [1]⟩

/-- The dictionary with the margins 1 and 1 and the rule `hy1ph`. -/
def tree_hy1ph : HyphenationTree :=
  ⟨HyphenationNode.empty.insert (unichars "hyph") rule_hy1ph, 1, 1⟩

/-- The dictionary with the margins 2 and 3, those of the English patterns, and the rule
`hy1ph`. -/
def tree_margins_2_3 : HyphenationTree :=
  ⟨HyphenationNode.empty.insert (unichars "hyph") rule_hy1ph, 2, 3⟩

/-- The rule that the token `1.` compiles to. -/
def rule_dot : HyphenationRule :=
  ⟨0, 0, some (unichars "."), none, none, [1]⟩

/-- The dictionary with the margins 1 and 1 and the rule `1.`. -/
def tree_dot : HyphenationTree :=
  ⟨HyphenationNode.empty.insert (unichars ".") rule_dot, 1, 1⟩

/-- The rule that the token `2ph` compiles to. -/
def rule_2ph : HyphenationRule :=
  ⟨0, 0, some (unichars "ph"), none, none, [2]⟩

/-- The rule that the token `1p` compiles to. -/
def rule_1p : HyphenationRule :=
  ⟨0, 0, some (unichars "p"), none, none, [1]⟩

/-- The rule that the token `y3p` compiles to. -/
def rule_y3p : HyphenationRule :=
  ⟨0, 0, some (unichars "yp"), none, none, [0, 3]⟩

/-- The dictionary with the margins 1 and 1 and the rules `1p`, `2ph` and `y3p`, inserted in
this order. -/
def tree_overlap : HyphenationTree :=
  ⟨((HyphenationNode.empty.insert (unichars "p") rule_1p).insert (unichars "ph") rule_2ph).insert
      (unichars "yp") rule_y3p, 1, 1⟩

/-- The rule that the token made of `a`, the code unit 0, `1` and `b` compiles to: its key
holds the code unit 0. -/
def rule_nul : HyphenationRule :=
  ⟨0, 0, some [97, 0, 98], none, none, [0, 0, 1]⟩

/-- The rule that the token `5` compiles to: its key is empty, that is `NULL`. -/
def rule_5 : HyphenationRule :=
  ⟨0, 0, none, none, none, [5]⟩

/-- The rule that the token `a1b` compiles to. -/
def rule_a1b : HyphenationRule :=
  ⟨0, 0, some (unichars "ab"), none, none, [0, 1]⟩

/-- The rule that the token `schif3fahrt/ff=f,5,2` compiles to: the rule of `Schiff-fahrt`. -/
def rule_schiff : HyphenationRule :=
  ⟨1, 1, some (unichars "schiffahrt"), some (unichars "ff"), some (unichars "f"),
    [0, 0, 0, 0, 0, 3]⟩

/-- The rule that the token `3` compiles to: its key is empty, that is `NULL`. -/
def rule_3 : HyphenationRule :=
  ⟨0, 0, none, none, none, [3]⟩

/-- The rule that the token `a1` compiles to. -/
def rule_a1 : HyphenationRule :=
  ⟨0, 0, some (unichars "a"), none, none, [0, 1]⟩

/-- The rule that the token `1b` compiles to. -/
def rule_1b : HyphenationRule :=
  ⟨0, 0, some (unichars "b"), none, none, [1]⟩

/-- The dictionary with the margins 1 and 1 and the rules `1b`, `a1b` and `a1`, inserted in
this order: the three give the priority 1 to the gap before a `b` that follows an `a`. -/
def tree_tie : HyphenationTree :=
  ⟨((HyphenationNode.empty.insert (unichars "b") rule_1b).insert (unichars "ab") rule_a1b).insert
      (unichars "a") rule_a1, 1, 1⟩

/-- The rule that the token made of `a`, the code unit 0, `b`, `c` and `1` compiles to: its
key holds four code units, of which `insert` walks the first. -/
def rule_nul_long : HyphenationRule :=
  ⟨0, 0, some [97, 0, 98, 99], none, none, [0, 0, 0, 0, 1]⟩

/-- The dictionary with the margins 1 and 1 and the rule `rule_nul_long`. -/
def tree_nul_long : HyphenationTree :=
  ⟨HyphenationNode.empty.insert [97, 0, 98, 99] rule_nul_long, 1, 1⟩

/-- The rule that the token made of `1`, `a`, the code unit 0 and `b` compiles to. -/
def rule_nul_b : HyphenationRule :=
  ⟨0, 0, some [97, 0, 98], none, none, [1]⟩

/-- The rule that the token made of `1`, `a`, the code unit 0 and `c` compiles to. -/
def rule_nul_c : HyphenationRule :=
  ⟨0, 0, some [97, 0, 99], none, none, [1]⟩

/-! ## Machine arithmetic: lemmas -/

theorem wrapUInt_sub_one (i : Nat) (h1 : 1 ≤ i) (h2 : i < 4294967296) :
    wrapUInt ((i : Int) - 1) = i - 1 := by
  unfold wrapUInt; omega

theorem wrapUInt_add_one (i : Nat) (h2 : i + 1 < 4294967296) :
    wrapUInt ((i : Int) + 1) = i + 1 := by
  unfold wrapUInt; omega

theorem wrapUInt_lt (x : Int) : wrapUInt x < 4294967296 := by
  unfold wrapUInt; omega

open HyphenationTree

/-! ## The copy loop and the masking loop -/

theorem copyLoop_length (rules : List (Option HyphenationRule)) (ind_end : Nat) :
    ∀ (fuel i : Nat) (out out1 : HyphenationPoints),
      copyLoop rules ind_end fuel i out = some out1 → out1.length = out.length := by
  intro fuel
  induction fuel with
  | zero => intro i out out1 h; simp [copyLoop] at h
  | succ fuel ih =>
    intro i out out1 h
    unfold copyLoop at h
    split at h
    · split at h
      · simp at h
      · split at h
        · have := ih _ _ _ h
          simpa using this
        · simp at h
    · simp at h; rw [← h]

/-- With `ind_end = UINT_MAX` the condition `i <= ind_end` never fails: the loop does not end. -/
theorem copyLoop_max (rules : List (Option HyphenationRule)) :
    ∀ (fuel i : Nat) (out : HyphenationPoints), i < 4294967296 →
      copyLoop rules 4294967295 fuel i out = none := by
  intro fuel
  induction fuel with
  | zero => intro i out _; simp [copyLoop]
  | succ fuel ih =>
    intro i out hi
    unfold copyLoop
    have hle : i ≤ 4294967295 := by omega
    simp only [hle, if_true]
    split
    · rfl
    · split
      · exact ih _ _ (wrapUInt_lt _)
      · rfl

/-- What a completed copy loop has done: it has written the slots `i-1 .. ind_end-1`, all of
them inside the output, and no other slot. -/
theorem copyLoop_spec (rules : List (Option HyphenationRule)) (ind_end : Nat)
    (hend : ind_end < 4294967295) :
    ∀ (fuel i : Nat) (out out1 : HyphenationPoints), 1 ≤ i →
      copyLoop rules ind_end fuel i out = some out1 →
      (i ≤ ind_end → ind_end ≤ out.length) ∧
      ∀ s : Nat, (i ≤ s + 1 ∧ s + 1 ≤ ind_end ∧ out1[s]? = rules[s + 1]?) ∨
        (¬ (i ≤ s + 1 ∧ s + 1 ≤ ind_end) ∧ out1[s]? = out[s]?) := by
  intro fuel
  induction fuel with
  | zero => intro i out out1 _ h; simp [copyLoop] at h
  | succ fuel ih =>
    intro i out out1 hi h
    unfold copyLoop at h
    by_cases hle : i ≤ ind_end
    · simp only [hle, if_true] at h
      cases hr : rules[i]? with
      | none => simp [hr] at h
      | some r =>
        simp only [hr] at h
        rw [wrapUInt_sub_one i hi (by omega), wrapUInt_add_one i (by omega)] at h
        by_cases hlt : i - 1 < out.length
        · simp only [hlt, if_true] at h
          obtain ⟨h1, h2⟩ := ih (i + 1) _ out1 (by omega) h
          refine ⟨fun _ => ?_, fun s => ?_⟩
          · by_cases hlast : i + 1 ≤ ind_end
            · have := h1 hlast
              simpa using this
            · omega
          · rcases h2 s with ⟨ha, hb, hc⟩ | ⟨ha, hb⟩
            · exact Or.inl ⟨by omega, hb, hc⟩
            · by_cases hs : s = i - 1
              · left
                refine ⟨by omega, by omega, ?_⟩
                rw [hb, hs, List.getElem?_set_self hlt]
                have : i - 1 + 1 = i := by omega
                rw [this, hr]
              · right
                refine ⟨by omega, ?_⟩
                rw [hb, List.getElem?_set_ne (Ne.symm hs)]
        · simp [hlt] at h
    · simp only [hle, if_false] at h
      simp only [Option.some.injEq] at h
      subst h
      exact ⟨fun h' => absurd h' hle, fun s => Or.inr ⟨fun h' => hle (by omega), rfl⟩⟩

theorem clearLoop_spec :
    ∀ (n i : Nat) (out out1 : HyphenationPoints), clearLoop n i out = some out1 →
      out1.length = out.length ∧
      ∀ s : Nat, out1[s]? = if i ≤ s ∧ s < i + n then some (none : Option HyphenationRule)
        else out[s]? := by
  intro n
  induction n with
  | zero =>
    intro i out out1 h
    simp only [clearLoop, Option.some.injEq] at h
    subst h
    refine ⟨rfl, fun s => ?_⟩
    have : ¬ (i ≤ s ∧ s < i + 0) := by omega
    rw [if_neg this]
  | succ n ih =>
    intro i out out1 h
    unfold clearLoop at h
    by_cases hlt : i < out.length
    · simp only [hlt, if_true] at h
      obtain ⟨h1, h3⟩ := ih _ _ _ h
      simp only [List.length_set] at h1
      refine ⟨h1, fun s => ?_⟩
      rw [h3 s]
      by_cases hs : s = i
      · subst hs
        have : ¬ (s + 1 ≤ s ∧ s < s + 1 + n) := by omega
        simp [this, List.getElem?_set_self hlt]
      · rw [List.getElem?_set_ne (Ne.symm hs)]
        by_cases hc : i + 1 ≤ s ∧ s < i + 1 + n
        · have : i ≤ s ∧ s < i + (n + 1) := by omega
          simp [hc, this]
        · have : ¬ (i ≤ s ∧ s < i + (n + 1)) := by omega
          simp [hc, this]
    · simp [hlt] at h

/-- The masking loop only ever clears slots. -/
theorem maskLoop_sub (ops : CharOps) (start_safe end_safe : Nat) (word : List Nat)
    (wordLength : Nat) :
    ∀ (fuel location length : Nat) (out out1 : HyphenationPoints),
      maskLoop ops start_safe end_safe word wordLength fuel location length out = some out1 →
      out1.length = out.length ∧
      ∀ s : Nat, out1[s]? = out[s]? ∨ out1[s]? = some (none : Option HyphenationRule) := by
  intro fuel
  induction fuel with
  | zero => intro l n out out1 h; simp [maskLoop] at h
  | succ fuel ih =>
    intro l n out out1 h
    unfold maskLoop at h
    split at h
    · simp only [Option.some.injEq] at h
      subst h
      exact ⟨rfl, fun s => Or.inl rfl⟩
    · simp only at h
      split at h
      · simp at h
      · rename_i cleared hc
        obtain ⟨c1, c3⟩ := clearLoop_spec _ _ _ _ hc
        have hstep : ∀ s : Nat, cleared[s]? = out[s]? ∨
            cleared[s]? = some (none : Option HyphenationRule) := by
          intro s
          rw [c3 s]
          split
          · exact Or.inr rfl
          · exact Or.inl rfl
        split at h
        · simp only [Option.some.injEq] at h
          subst h
          exact ⟨c1, hstep⟩
        · obtain ⟨m1, m2⟩ := ih _ _ _ _ h
          refine ⟨by rw [m1, c1], fun s => ?_⟩
          rcases m2 s with hm | hm
          · rw [hm]; exact hstep s
          · exact Or.inr hm

/-! ## The rule compiler: the pattern part -/

theorem wrapInt_of_nat (n : Nat) (h : n ≤ 2147483647) : wrapInt (n : Int) = (n : Int) := by
  unfold wrapInt; omega

theorem toChar_of_nat (n : Nat) (h : n < 128) : toChar (n : Int) = (n : Int) := by
  unfold toChar; omega

/-- The decimal value of a run of digits read after the value `a`. -/
theorem foldl_decimal_ge (ds : List Nat) :
    ∀ a : Nat, a ≤ ds.foldl (fun acc c => 10 * acc + (c - 48)) a := by
  induction ds with
  | nil => intro a; exact Nat.le_refl a
  | cons c ds ih =>
    intro a
    have := ih (10 * a + (c - 48))
    simp only [List.foldl_cons]
    omega

/-- The first loop on a run of digits: it accumulates the decimal value, as long as that value
is within the range of `int`. -/
theorem scanPattern_digits (ds : List Nat) (hds : ∀ c ∈ ds, 48 ≤ c ∧ c ≤ 57) :
    ∀ (a : Nat) (tail key : List Nat) (prios : List Int),
      ds.foldl (fun acc c => 10 * acc + (c - 48)) a ≤ 2147483647 →
      scanPattern (ds ++ tail) key prios (a : Int)
        = scanPattern tail key prios ((ds.foldl (fun acc c => 10 * acc + (c - 48)) a : Nat) : Int)
    := by
  induction ds with
  | nil => intro a tail key prios _; rfl
  | cons c ds ih =>
    intro a tail key prios hle
    have hc := hds c (List.mem_cons_self c ds)
    have hds1 : ∀ c ∈ ds, 48 ≤ c ∧ c ≤ 57 := fun x hx => hds x (List.mem_cons_of_mem c hx)
    simp only [List.foldl_cons] at hle ⊢
    have hge := foldl_decimal_ge ds (10 * a + (c - 48))
    have h47 : c ≠ 47 := by omega
    have hw : wrapInt (10 * (a : Int) + (c : Int) - 48) = ((10 * a + (c - 48) : Nat) : Int) := by
      rw [← wrapInt_of_nat (10 * a + (c - 48)) (by omega)]
      congr 1
      omega
    rw [List.cons_append, scanPattern]
    simp only [h47, if_false, hc, and_self, if_true]
    rw [hw]
    exact ih hds1 _ tail key prios hle

/-- The first loop stops at the end of the token and at a `'/'`. -/
theorem scanPattern_stop (rest key : List Nat) (prios : List Int) (v : Int)
    (hrest : ∀ c, rest.head? = some c → c = 47) :
    scanPattern rest key prios v = (key, prios, v, rest) := by
  cases rest with
  | nil => rfl
  | cons c cs =>
    have : c = 47 := hrest c rfl
    subst this
    simp [scanPattern]

/-- The first loop on the pattern part `d_0 l_0 ... d_(n-1) l_(n-1) d_n`. -/
theorem scanPattern_patternPart (segs : List (List Nat × Nat)) (dn rest : List Nat)
    (hd : ∀ s ∈ segs, (∀ c ∈ s.1, 48 ≤ c ∧ c ≤ 57) ∧ decimal s.1 < 128)
    (hl : ∀ s ∈ segs, ¬ (48 ≤ s.2 ∧ s.2 ≤ 57) ∧ s.2 ≠ 47)
    (hdn : (∀ c ∈ dn, 48 ≤ c ∧ c ≤ 57) ∧ decimal dn < 128)
    (hrest : ∀ c, rest.head? = some c → c = 47) :
    ∀ (key : List Nat) (prios : List Int),
      scanPattern (patternPart segs dn ++ rest) key prios 0
        = (key ++ segs.map Prod.snd, prios ++ segs.map (fun s => ((decimal s.1 : Nat) : Int)),
            ((decimal dn : Nat) : Int), rest) := by
  induction segs with
  | nil =>
    intro key prios
    simp only [patternPart, List.map_nil, List.append_nil]
    have h0 : (0 : Int) = ((0 : Nat) : Int) := rfl
    rw [h0, scanPattern_digits dn hdn.1 0 rest key prios (by unfold decimal at hdn; omega)]
    exact scanPattern_stop rest key prios _ hrest
  | cons s segs ih =>
    intro key prios
    obtain ⟨d, l⟩ := s
    have hs := hd (d, l) (List.mem_cons_self _ _)
    have hls := hl (d, l) (List.mem_cons_self _ _)
    simp only at hs hls
    have hd1 : ∀ s ∈ segs, (∀ c ∈ s.1, 48 ≤ c ∧ c ≤ 57) ∧ decimal s.1 < 128 :=
      fun x hx => hd x (List.mem_cons_of_mem _ hx)
    have hl1 : ∀ s ∈ segs, ¬ (48 ≤ s.2 ∧ s.2 ≤ 57) ∧ s.2 ≠ 47 :=
      fun x hx => hl x (List.mem_cons_of_mem _ hx)
    have h0 : (0 : Int) = ((0 : Nat) : Int) := rfl
    simp only [patternPart, List.append_assoc, List.cons_append]
    rw [h0, scanPattern_digits d hs.1 0 _ key prios (by have := hs.2; unfold decimal at this; omega)]
    rw [scanPattern]
    simp only [hls.2, if_false, hls.1]
    have hv : toChar ((List.foldl (fun acc c => 10 * acc + (c - 48)) 0 d : Nat) : Int)
        = ((decimal d : Nat) : Int) := toChar_of_nat _ hs.2
    rw [hv, ih hd1 hl1 (key ++ [l]) (prios ++ [((decimal d : Nat) : Int)])]
    simp

/-- What the trimming loop returns on the reversed vector: the vector without its leading
zeros, which starts with a non-zero entry. -/
theorem trimBack_some (l ps : List Int) (h : trimBack l = some ps) :
    ∃ k : Nat, l = List.replicate k 0 ++ ps ∧ ∃ p tail, ps = p :: tail ∧ p ≠ 0 := by
  induction l with
  | nil => simp [trimBack] at h
  | cons p l ih =>
    unfold trimBack at h
    by_cases hp : p = 0
    · simp only [hp, if_true] at h
      obtain ⟨k, hk, hps⟩ := ih h
      refine ⟨k + 1, ?_, hps⟩
      rw [hp, List.replicate_succ, List.cons_append, ← hk]
    · simp only [hp, if_false, Option.some.injEq] at h
      exact ⟨0, by simp [h], p, l, h.symm, hp⟩

/-- The trimming loop completes when some entry is not zero. -/
theorem trimBack_isSome (l : List Int) (h : ∃ v ∈ l, v ≠ 0) : (trimBack l).isSome = true := by
  induction l with
  | nil => simp at h
  | cons p l ih =>
    unfold trimBack
    by_cases hp : p = 0
    · simp only [hp, if_true]
      apply ih
      obtain ⟨v, hv, hv0⟩ := h
      rcases List.mem_cons.mp hv with h1 | h1
      · exact absurd (h1.trans hp) hv0
      · exact ⟨v, h1, hv0⟩
    · simp [hp]

/-- What line 56 returns: the vector without its trailing zeros; its last entry is not zero. -/
theorem trimTrailingZeros_some (l ps : List Int) (h : trimTrailingZeros l = some ps) :
    ∃ k : Nat, l = ps ++ List.replicate k 0 ∧ ∃ front p, ps = front ++ [p] ∧ p ≠ 0 := by
  unfold trimTrailingZeros at h
  cases hb : trimBack l.reverse with
  | none => simp [hb] at h
  | some qs =>
    simp only [hb, Option.map_some', Option.some.injEq] at h
    obtain ⟨k, hk, p, tail, hq, hp⟩ := trimBack_some _ _ hb
    refine ⟨k, ?_, tail.reverse, p, ?_, hp⟩
    · have := congrArg List.reverse hk
      simp only [List.reverse_reverse, List.reverse_append, List.reverse_replicate] at this
      rw [this, h]
    · rw [← h, hq, List.reverse_cons]

theorem trimTrailingZeros_isSome (l : List Int) (h : ∃ v ∈ l, v ≠ 0) :
    (trimTrailingZeros l).isSome = true := by
  unfold trimTrailingZeros
  have : (trimBack l.reverse).isSome = true := by
    apply trimBack_isSome
    obtain ⟨v, hv, hv0⟩ := h
    exact ⟨v, List.mem_reverse.mpr hv, hv0⟩
  cases hb : trimBack l.reverse with
  | none => simp [hb] at this
  | some qs => simp

/-- The entry of the trimmed vector at an offset, read as the code's callers do (`priority(i)`
when `hasPriority(i)`, otherwise 0), is the entry of the untrimmed vector. -/
theorem getD_of_trimmed (l ps : List Int) (k : Nat) (h : l = ps ++ List.replicate k 0)
    (i : Nat) : ps.getD i 0 = l.getD i 0 := by
  subst h
  simp only [List.getD_eq_getElem?_getD]
  by_cases hi : i < ps.length
  · rw [List.getElem?_append_left hi]
  · rw [List.getElem?_append_right (by omega), List.getElem?_eq_none (by omega)]
    rw [List.getElem?_replicate]
    split <;> rfl

/-- What a rule compiled by the constructor is made of; the suffix loop starts with `field = 1`,
`start = 0`, `cut = 0` and empty builders. -/
theorem new_some (token : List Nat) (r : HyphenationRule)
    (h : HyphenationRule.new token = some r) :
    r.key = builderString (scanPattern token [] [] 0).1 ∧
    trimTrailingZeros ((scanPattern token [] [] 0).2.1 ++ [toChar (scanPattern token [] [] 0).2.2.1])
      = some r.priorities ∧
    ((∃ suffix, (scanPattern token [] [] 0).2.2.2 = 47 :: suffix ∧
        resolveSuffix (scanPattern token [] [] 0).1.length r.priorities
          (parseSuffix suffix suffixStartState) = some (r.del_pre, r.skip_post) ∧
        r.insert_pre = builderString (parseSuffix suffix suffixStartState).insert_pre_builder ∧
        r.insert_post = builderString (parseSuffix suffix suffixStartState).insert_post_builder) ∨
     ((∀ suffix, (scanPattern token [] [] 0).2.2.2 ≠ 47 :: suffix) ∧
        r.del_pre = 0 ∧ r.skip_post = 0 ∧ r.insert_pre = none ∧ r.insert_post = none)) := by
  unfold HyphenationRule.new at h
  cases hsc : scanPattern token [] [] 0 with
  | mk key_builder rest1 =>
    obtain ⟨pushed, priority, rest⟩ := rest1
    simp only [hsc] at h ⊢
    cases ht : trimTrailingZeros (pushed ++ [toChar priority]) with
    | none => simp [ht] at h
    | some priorities =>
      simp only [ht] at h
      split at h
      · rename_i suffix
        cases hres : resolveSuffix key_builder.length priorities
            (parseSuffix suffix suffixStartState) with
        | none => simp [hres] at h
        | some ds =>
          obtain ⟨del_pre, skip_post⟩ := ds
          simp only [hres, Option.some.injEq] at h
          subst h
          exact ⟨rfl, rfl, Or.inl ⟨suffix, rfl, hres, rfl, rfl⟩⟩
      · rename_i hno
        simp only [Option.some.injEq] at h
        subst h
        exact ⟨rfl, rfl, Or.inr ⟨fun suffix hs => hno suffix hs, rfl, rfl, rfl, rfl⟩⟩

/-- The constructor completes on a token without suffix once the trimming loop completes. -/
theorem new_isSome_of_no_suffix (token : List Nat)
    (hrest : (scanPattern token [] [] 0).2.2.2 = [])
    (ht : (trimTrailingZeros
      ((scanPattern token [] [] 0).2.1 ++ [toChar (scanPattern token [] [] 0).2.2.1])).isSome
        = true) :
    (HyphenationRule.new token).isSome = true := by
  unfold HyphenationRule.new
  cases hsc : scanPattern token [] [] 0 with
  | mk key_builder rest1 =>
    obtain ⟨pushed, priority, rest⟩ := rest1
    simp only [hsc] at hrest ht ⊢
    subst hrest
    cases htt : trimTrailingZeros (pushed ++ [toChar priority]) with
    | none => simp [htt] at ht
    | some priorities => simp

/-- C7: for every token whose part before the first `'/'` is `d_0 l_0 ... d_(n-1) l_(n-1) d_n`
(each `d_i` a possibly empty run of digits with value below 128, each `l_i` neither a digit nor
`'/'`), the rule that the constructor compiles has the key `l_0 ... l_(n-1)` (`NULL` when
`n = 0`) and, for every `i` in `0..n`, the priority at offset `i` (`priority(i)` when
`hasPriority(i)`, otherwise 0) is the decimal value of `d_i`; and the constructor does compile
a rule for such a token without suffix when some `d_i` has a non-zero value. -/
theorem compile_pattern_part (segs : List (List Nat × Nat)) (dn rest : List Nat)
    (hd : ∀ s ∈ segs, (∀ c ∈ s.1, 48 ≤ c ∧ c ≤ 57) ∧ decimal s.1 < 128)
    (hl : ∀ s ∈ segs, ¬ (48 ≤ s.2 ∧ s.2 ≤ 57) ∧ s.2 ≠ 47)
    (hdn : (∀ c ∈ dn, 48 ≤ c ∧ c ≤ 57) ∧ decimal dn < 128)
    (hrest : ∀ c, rest.head? = some c → c = 47) :
    (∀ r : HyphenationRule, HyphenationRule.new (patternPart segs dn ++ rest) = some r →
      r.key = (if segs = [] then none else some (segs.map Prod.snd)) ∧
      ∀ i : Nat, i ≤ segs.length →
        (if r.hasPriority i = true then r.priority i else some 0)
          = some (((segs.map (fun s => decimal s.1) ++ [decimal dn]).getD i 0 : Nat) : Int)) ∧
    (rest = [] → (∃ v ∈ segs.map (fun s => decimal s.1) ++ [decimal dn], v ≠ 0) →
      (HyphenationRule.new (patternPart segs dn ++ rest)).isSome = true) := by
  have hscan := scanPattern_patternPart segs dn rest hd hl hdn hrest [] []
  simp only [List.nil_append] at hscan
  have hcast : ∀ i : Nat,
      (segs.map (fun s => ((decimal s.1 : Nat) : Int)) ++ [toChar ((decimal dn : Nat) : Int)]).getD i 0
        = (((segs.map (fun s => decimal s.1) ++ [decimal dn]).getD i 0 : Nat) : Int) := by
    intro i
    rw [toChar_of_nat _ hdn.2]
    have : segs.map (fun s => ((decimal s.1 : Nat) : Int)) ++ [((decimal dn : Nat) : Int)]
        = (segs.map (fun s => decimal s.1) ++ [decimal dn]).map (fun n : Nat => (n : Int)) := by
      simp
    rw [this]
    simp only [List.getD_eq_getElem?_getD, List.getElem?_map]
    cases (segs.map (fun s => decimal s.1) ++ [decimal dn])[i]? <;> rfl
  refine ⟨fun r hr => ?_, fun hre hv => ?_⟩
  · obtain ⟨hkey, htrim, _⟩ := new_some _ r hr
    rw [hscan] at hkey htrim
    simp only at hkey htrim
    refine ⟨?_, fun i _ => ?_⟩
    · rw [hkey]
      unfold builderString
      cases segs with
      | nil => simp
      | cons s segs => simp
    · obtain ⟨k, hk, _⟩ := trimTrailingZeros_some _ _ htrim
      have hg := getD_of_trimmed _ _ k hk i
      rw [hcast i] at hg
      rw [← hg]
      unfold HyphenationRule.hasPriority HyphenationRule.priority
      by_cases hi : i < r.priorities.length
      · simp [hi, List.getD_eq_getElem?_getD]
      · simp [hi, List.getD_eq_getElem?_getD, List.getElem?_eq_none (Nat.le_of_not_lt hi)]
  · apply new_isSome_of_no_suffix
    · rw [hscan]; exact hre
    · rw [hscan]
      apply trimTrailingZeros_isSome
      obtain ⟨v, hv1, hv0⟩ := hv
      refine ⟨(v : Int), ?_, by exact_mod_cast hv0⟩
      rw [toChar_of_nat _ hdn.2]
      have : segs.map (fun s => ((decimal s.1 : Nat) : Int)) ++ [((decimal dn : Nat) : Int)]
          = (segs.map (fun s => decimal s.1) ++ [decimal dn]).map (fun n : Nat => (n : Int)) := by
        simp
      rw [this]
      exact List.mem_map_of_mem _ hv1

/-- Witness of C7: the token `hy2ph/x=y` is `h`, `y`, `2 p`, `h` with the suffix `/x=y`; its
rule has the key `hyph` and the priority 2 at offset 2. -/
theorem compile_pattern_part_witness :
    HyphenationRule.new (unichars "hy2ph/x=y")
        = some ⟨2, 2, some (unichars "hyph"), some [120], some [121], [0, 0, 2]⟩ ∧
      (if HyphenationRule.hasPriority ⟨2, 2, some (unichars "hyph"), some [120], some [121],
          [0, 0, 2]⟩ 2 = true
        then HyphenationRule.priority ⟨2, 2, some (unichars "hyph"), some [120], some [121],
          [0, 0, 2]⟩ 2
        else some 0) = some (2 : Int) :=
  ⟨by decide,
    ((compile_pattern_part [([], 104), ([], 121), ([50], 112), ([], 104)] [] (unichars "/x=y")
      (by decide) (by decide) (by decide) (by decide)).1
      ⟨2, 2, some (unichars "hyph"), some [120], some [121], [0, 0, 2]⟩ (by decide)).2 2
      (by decide)⟩

/-! ## The rule compiler: the suffix -/

/-- The first loop on a token with a `'/'`: it stops at the first `'/'`. -/
theorem scanPattern_slash (pat suffix : List Nat) (hpat : 47 ∉ pat) :
    ∀ (key : List Nat) (prios : List Int) (v : Int),
      scanPattern (pat ++ 47 :: suffix) key prios v
        = ((scanPattern pat key prios v).1, (scanPattern pat key prios v).2.1,
            (scanPattern pat key prios v).2.2.1, 47 :: suffix) := by
  induction pat with
  | nil => intro key prios v; simp [scanPattern]
  | cons c cs ih =>
    intro key prios v
    have hc : c ≠ 47 := fun h => hpat (by simp [h])
    have hcs : 47 ∉ cs := fun h => hpat (List.mem_cons_of_mem _ h)
    rw [List.cons_append, scanPattern, scanPattern]
    simp only [hc, if_false]
    split
    · exact ih hcs _ _ _
    · exact ih hcs _ _ _

theorem wrapInt_succ (d : Nat) (h : d + 1 ≤ 2147483647) :
    wrapInt ((d : Int) + 1) = ((d + 1 : Nat) : Int) := by
  unfold wrapInt; omega

theorem wrapInt_pred (sp : Nat) (h1 : 1 ≤ sp) (h2 : sp ≤ 2147483647) :
    wrapInt ((sp : Int) - 1) = ((sp - 1 : Nat) : Int) := by
  unfold wrapInt; omega

theorem evenRun_le (priorities : List Int) : ∀ n pos : Nat, evenRun priorities n pos ≤ n := by
  intro n
  induction n with
  | zero => intro pos; simp [evenRun]
  | succ n ih =>
    intro pos
    unfold evenRun
    split
    · omega
    · have := ih (pos + 1); omega

/-- The `del_pre` loop does not leave the vector once `j` starts at 1 or more. -/
theorem delPreLoop_isSome (priorities : List Int) (bound : Nat) (hb : bound ≤ 4294967296) :
    ∀ (fuel j : Nat) (d sp : Int), 1 ≤ j →
      (delPreLoop priorities bound fuel j d sp).isSome = true := by
  intro fuel
  induction fuel with
  | zero => intro j d sp _; simp [delPreLoop]
  | succ fuel ih =>
    intro j d sp hj
    unfold delPreLoop
    split
    · rename_i hc
      rw [wrapUInt_sub_one j hj (by omega)]
      have hlt : j - 1 < priorities.length := by omega
      rw [List.getElem?_eq_getElem hlt]
      simp only
      split
      · rfl
      · exact ih _ _ _ (by omega)
    · rfl

/-- The `del_pre` loop, for non-negative priorities and counters within the range of `int`,
when `n` positions are left before the position `bound` or `priorities.size()`: `del_pre`
grows by the number of even priorities met from position `j` on, up to the first odd one or
the end of these `n` positions, and `skip_post` shrinks by as much. -/
theorem delPreLoop_spec (priorities : List Int) (bound : Nat) (hb : bound ≤ 4294967296)
    (hnn : ∀ p ∈ priorities, 0 ≤ p) :
    ∀ (fuel n j d sp : Nat), 1 ≤ j → j + n = max j (min bound priorities.length) →
      n ≤ fuel → n ≤ sp → sp ≤ 2147483647 → d + n ≤ 2147483647 →
      delPreLoop priorities bound fuel j (d : Int) (sp : Int)
        = some (((d + evenRun priorities n j : Nat) : Int),
            (sp : Int) - ((evenRun priorities n j : Nat) : Int)) := by
  intro fuel
  induction fuel with
  | zero =>
    intro n j d sp _ _ hf _ _ _
    have : n = 0 := by omega
    subst this
    simp only [delPreLoop, evenRun]
    simp
  | succ fuel ih =>
    intro n j d sp hj hn hf hsp hsp2 hd
    unfold delPreLoop
    by_cases hc : j < bound ∧ j < priorities.length
    · simp only [hc, and_self, if_true]
      rw [wrapUInt_sub_one j hj (by omega)]
      have hlt : j - 1 < priorities.length := by omega
      rw [List.getElem?_eq_getElem hlt]
      simp only
      obtain ⟨n1, hn1⟩ : ∃ n1, n = n1 + 1 := ⟨n - 1, by omega⟩
      subst hn1
      have a1 : 1 ≤ j + 1 := by omega
      have a2 : (j + 1) + n1 = max (j + 1) (min bound priorities.length) := by omega
      have a3 : n1 ≤ sp - 1 := by omega
      have a4 : sp - 1 ≤ 2147483647 := by omega
      have a5 : d + 1 + n1 ≤ 2147483647 := by omega
      have a6 : n1 ≤ fuel := by omega
      have hw1 := wrapInt_succ d (by omega)
      have hw2 := wrapInt_pred sp (by omega) hsp2
      have hpos : priorityAtPosition priorities j = priorities[j - 1] := by
        unfold priorityAtPosition
        rw [List.getD_eq_getElem?_getD, List.getElem?_eq_getElem hlt]
        rfl
      have hp0 : 0 ≤ priorities[j - 1] := hnn _ (List.getElem_mem _)
      rw [evenRun, hpos, Int.tmod_eq_emod hp0 (by decide)]
      by_cases hodd : priorities[j - 1] % 2 = 1
      · simp only [hodd, if_true]
        simp
      · simp only [hodd, if_false]
        rw [hw1, hw2, ih n1 (j + 1) (d + 1) (sp - 1) a1 a2 a6 a3 a4 a5]
        have e1 : d + 1 + evenRun priorities n1 (j + 1)
            = d + (1 + evenRun priorities n1 (j + 1)) := Nat.add_assoc _ _ _
        have e2 : ((sp - 1 : Nat) : Int) - ((evenRun priorities n1 (j + 1) : Nat) : Int)
            = (sp : Int) - ((1 + evenRun priorities n1 (j + 1) : Nat) : Int) := by
          clear hw1 hw2 hodd hp0 hpos hnn ih e1 a2 hn hc
          omega
        rw [e1, e2]
    · simp only [hc, if_false]
      have : n = 0 := by omega
      subst this
      simp [evenRun]

/-- The `del_pre` loop keeps the sum of its two counters, as long as they stay within the range
of `int`. -/
theorem delPreLoop_sum (priorities : List Int) (bound : Nat) (hb : bound ≤ 4294967296) :
    ∀ (fuel n j d sp : Nat) (res : Int × Int), 1 ≤ j →
      j + n = max j (min bound priorities.length) →
      n ≤ sp → sp ≤ 2147483647 → d + n ≤ 2147483647 →
      delPreLoop priorities bound fuel j (d : Int) (sp : Int) = some res →
      res.1 + res.2 = (d : Int) + (sp : Int) ∧ (d : Int) ≤ res.1 ∧ 0 ≤ res.2 := by
  intro fuel
  induction fuel with
  | zero =>
    intro n j d sp res _ _ _ _ _ h
    simp only [delPreLoop, Option.some.injEq] at h
    subst h
    simp
  | succ fuel ih =>
    intro n j d sp res hj hn hsp hsp2 hd h
    unfold delPreLoop at h
    by_cases hc : j < bound ∧ j < priorities.length
    · simp only [hc, and_self, if_true] at h
      rw [wrapUInt_sub_one j hj (by omega)] at h
      have hlt : j - 1 < priorities.length := by omega
      rw [List.getElem?_eq_getElem hlt] at h
      simp only at h
      split at h
      · simp only [Option.some.injEq] at h
        subst h
        simp
      · obtain ⟨n1, hn1⟩ : ∃ n1, n = n1 + 1 := ⟨n - 1, by omega⟩
        subst hn1
        have a1 : 1 ≤ j + 1 := by omega
        have a2 : (j + 1) + n1 = max (j + 1) (min bound priorities.length) := by omega
        have a3 : n1 ≤ sp - 1 := by omega
        have a4 : sp - 1 ≤ 2147483647 := by omega
        have a5 : d + 1 + n1 ≤ 2147483647 := by omega
        rw [wrapInt_succ d (by omega), wrapInt_pred sp (by omega) hsp2] at h
        obtain ⟨h1, h2, h3⟩ := ih n1 (j + 1) (d + 1) (sp - 1) res a1 a2 a3 a4 a5 h
        clear h ih a2 hn hc
        refine ⟨?_, ?_, h3⟩
        · rw [h1]; omega
        · omega
    · simp only [hc, if_false, Option.some.injEq] at h
      subst h
      simp

/-- The constructor completes on a token with a suffix once the trimming loop and the `del_pre`
loop complete. -/
theorem new_isSome_of_suffix (token suffix : List Nat) (ps : List Int)
    (hrest : (scanPattern token [] [] 0).2.2.2 = 47 :: suffix)
    (ht : trimTrailingZeros
      ((scanPattern token [] [] 0).2.1 ++ [toChar (scanPattern token [] [] 0).2.2.1]) = some ps)
    (hres : (resolveSuffix (scanPattern token [] [] 0).1.length ps
      (parseSuffix suffix suffixStartState)).isSome = true) :
    (HyphenationRule.new token).isSome = true := by
  unfold HyphenationRule.new
  cases hsc : scanPattern token [] [] 0 with
  | mk key_builder rest1 =>
    obtain ⟨pushed, priority, rest⟩ := rest1
    simp only [hsc] at hrest ht hres ⊢
    subst hrest
    simp only [ht]
    cases hr : resolveSuffix key_builder.length ps (parseSuffix suffix suffixStartState) with
    | none => simp [hr] at hres
    | some ds => simp

/-- The length of the key of a compiled rule is the length of the key built by the first
loop. -/
theorem builderString_length (b : List Nat) : ((builderString b).getD []).length = b.length := by
  unfold builderString
  cases b with
  | nil => simp
  | cons c cs => simp

/-- C8, counterexample: for the token `a2b/x=y,2,1` the resolved values are `start = 2` and
`cut = 1`, and the priority at the 1-based position 2 is 2, which is even, so the count that
the claim describes is 1; the compiled rule has `del_pre = 0` and `skip_post = 1`. -/
theorem del_pre_counterexample :
    resolvedStart (parseSuffix (unichars "x=y,2,1") suffixStartState) = 2 ∧
      resolvedCut 2 (parseSuffix (unichars "x=y,2,1") suffixStartState) = 1 ∧
      HyphenationRule.new (unichars "a2b/x=y,2,1")
        = some ⟨0, 1, some (unichars "ab"), some [120], some [121], [0, 2]⟩ ∧
      evenRun [0, 2] 1 2 = 1 ∧
      ¬ ((0 : Int) = ((evenRun [0, 2] 1 2 : Nat) : Int)) := by
  refine ⟨by decide, by decide, by decide, by decide, by decide⟩

/-- C8, as amended: for every token with a `'/'`-suffix whose resolved values `start` and `cut`
have `start >= 1` and `start + cut` within the range of `int`, the compiled rule (priorities
not negative) has `skip_post = cut - del_pre` with `0 <= del_pre <= cut`, where `del_pre` is
the number of consecutive even priorities met when visiting the 1-based positions `start`,
`start+1`, ... in order, stopping at the first odd priority, at the end of the range
`start .. start+cut-1`, or when the position reaches `priorities.size()` (the guard
`j < priorities.size()` of the loop); and the constructor does compile a rule for such a token
when the pattern part has a non-zero priority. -/
theorem del_pre_skip_post (pat suffix : List Nat) (hpat : 47 ∉ pat) (start cut : Nat)
    (hstart : start = resolvedStart (parseSuffix suffix suffixStartState))
    (hcut : cut = resolvedCut (scanPattern pat [] [] 0).1.length
      (parseSuffix suffix suffixStartState))
    (h1 : 1 ≤ start) (hrange : start + cut ≤ 2147483647) :
    (∀ r : HyphenationRule, HyphenationRule.new (pat ++ 47 :: suffix) = some r →
      (∀ p ∈ r.priorities, 0 ≤ p) →
      r.skip_post = (cut : Int) - r.del_pre ∧ 0 ≤ r.del_pre ∧ r.del_pre ≤ (cut : Int) ∧
      r.del_pre
        = ((evenRun r.priorities (min (start + cut) r.priorities.length - start) start : Nat)
            : Int)) ∧
    ((∃ v ∈ (scanPattern pat [] [] 0).2.1 ++ [toChar (scanPattern pat [] [] 0).2.2.1], v ≠ 0) →
      (HyphenationRule.new (pat ++ 47 :: suffix)).isSome = true) := by
  have hscan := scanPattern_slash pat suffix hpat [] [] 0
  have hbound : wrapUInt ((start : Int) + (cut : Int)) = start + cut := by
    unfold wrapUInt; omega
  have hsp : wrapInt (cut : Int) = (cut : Int) := wrapInt_of_nat cut (by omega)
  refine ⟨fun r hr hnn => ?_, fun hv => ?_⟩
  · obtain ⟨_, _, hsuf⟩ := new_some _ r hr
    rw [hscan] at hsuf
    rcases hsuf with ⟨suffix1, hs1, hres, _, _⟩ | ⟨hno, _⟩
    · simp only [List.cons.injEq, true_and] at hs1
      subst hs1
      unfold resolveSuffix at hres
      simp only at hres
      rw [← hstart, ← hcut, hbound, hsp] at hres
      have hn : start + (max start (min (start + cut) r.priorities.length) - start)
          = max start (min (start + cut) r.priorities.length) := by omega
      have hspec := delPreLoop_spec r.priorities (start + cut) (by omega) hnn
        r.priorities.length _ start 0 cut h1 hn (by omega) (by omega) (by omega) (by omega)
      have h0 : ((0 : Nat) : Int) = 0 := rfl
      rw [h0, hres] at hspec
      have hmax : max start (min (start + cut) r.priorities.length) - start
          = min (start + cut) r.priorities.length - start := by omega
      rw [hmax] at hspec
      simp only [Option.some.injEq, Prod.mk.injEq, Nat.zero_add] at hspec
      have hle := evenRun_le r.priorities
        (min (start + cut) r.priorities.length - start) start
      have hle2 : min (start + cut) r.priorities.length - start ≤ cut := by omega
      obtain ⟨e1, e2⟩ := hspec
      refine ⟨?_, ?_, ?_, e1⟩
      · rw [e2, e1]
      · rw [e1]; exact Int.ofNat_nonneg _
      · rw [e1]; exact_mod_cast Nat.le_trans hle hle2
    · exact absurd rfl (hno suffix)
  · have ht := trimTrailingZeros_isSome _ hv
    cases htt : trimTrailingZeros
        ((scanPattern pat [] [] 0).2.1 ++ [toChar (scanPattern pat [] [] 0).2.2.1]) with
    | none => simp [htt] at ht
    | some ps =>
      apply new_isSome_of_suffix (pat ++ 47 :: suffix) suffix ps
      · rw [hscan]
      · rw [hscan]; exact htt
      · rw [hscan]
        unfold resolveSuffix
        simp only
        rw [← hstart]
        exact delPreLoop_isSome ps _ (Nat.le_of_lt (wrapUInt_lt _)) _ _ _ _ h1

/-- Witness of C8: the token `schif3fahrt/ff=f,5,2` has `start = 5`, `cut = 2`; the position 5
has the even priority 0 and the position 6 is `priorities.size()`, so `del_pre = 1` and
`skip_post = 1`. -/
theorem del_pre_skip_post_witness :
    HyphenationRule.new (unichars "schif3fahrt/ff=f,5,2")
        = some ⟨1, 1, some (unichars "schiffahrt"), some [102, 102], some [102],
            [0, 0, 0, 0, 0, 3]⟩ ∧
      ((1 : Int) = ((2 : Nat) : Int) - 1 ∧ (0 : Int) ≤ 1 ∧ (1 : Int) ≤ ((2 : Nat) : Int) ∧
        (1 : Int) = ((evenRun [0, 0, 0, 0, 0, 3]
          (min (5 + 2) ([0, 0, 0, 0, 0, 3] : List Int).length - 5) 5 : Nat) : Int)) :=
  ⟨by decide,
    (del_pre_skip_post (unichars "schif3fahrt") (unichars "ff=f,5,2") (by decide) 5 2
      (by decide) (by decide) (by decide) (by decide)).1
      ⟨1, 1, some (unichars "schiffahrt"), some [102, 102], some [102], [0, 0, 0, 0, 0, 3]⟩
      (by decide) (by decide)⟩

/-! ## The rule compiler: the fields of the suffix -/

/-- Field 1 of the suffix: the code units before the first `'='` go to `insert_pre`. -/
theorem parseSuffix_pre (pre rest : List Nat) (hpre : 61 ∉ pre) :
    ∀ (st ct : Nat) (ip iq : List Nat),
      parseSuffix (pre ++ rest) ⟨1, st, ct, ip, iq⟩ = parseSuffix rest ⟨1, st, ct, ip ++ pre, iq⟩
    := by
  induction pre with
  | nil => intro st ct ip iq; simp
  | cons c cs ih =>
    intro st ct ip iq
    have hc : c ≠ 61 := fun h => hpre (by simp [h])
    have hcs : 61 ∉ cs := fun h => hpre (List.mem_cons_of_mem _ h)
    rw [List.cons_append, parseSuffix]
    simp only [hc, and_false, if_false, Nat.reduceLeDiff, false_and,
      Nat.reduceEqDiff, if_true]
    rw [ih hcs]
    simp

/-- Field 2 of the suffix: the code units before the next `','` go to `insert_post`. -/
theorem parseSuffix_post (post rest : List Nat) (hpost : 44 ∉ post) :
    ∀ (st ct : Nat) (ip iq : List Nat),
      parseSuffix (post ++ rest) ⟨2, st, ct, ip, iq⟩
        = parseSuffix rest ⟨2, st, ct, ip, iq ++ post⟩ := by
  induction post with
  | nil => intro st ct ip iq; simp
  | cons c cs ih =>
    intro st ct ip iq
    have hc : c ≠ 44 := fun h => hpost (by simp [h])
    have hcs : 44 ∉ cs := fun h => hpost (List.mem_cons_of_mem _ h)
    rw [List.cons_append, parseSuffix]
    simp only [hc, and_false, if_false, Nat.reduceLeDiff, false_and,
      Nat.reduceEqDiff, if_true, true_and]
    rw [ih hcs]
    simp

theorem foldl_decimal_mod (ds : List Nat) :
    ∀ a : Nat, ds.foldl (fun acc c => 10 * acc + (c - 48)) (a % 4294967296) % 4294967296
      = ds.foldl (fun acc c => 10 * acc + (c - 48)) a % 4294967296 := by
  induction ds with
  | nil => intro a; simp
  | cons c cs ih =>
    intro a
    simp only [List.foldl_cons]
    rw [← ih (10 * (a % 4294967296) + (c - 48)), ← ih (10 * a + (c - 48))]
    congr 2
    omega

/-- Field 3 of the suffix: a run of digits is read as the decimal value of `start`, in `uint`
arithmetic. -/
theorem parseSuffix_start (f3 rest : List Nat) (h3 : ∀ c ∈ f3, 48 ≤ c ∧ c ≤ 57) :
    ∀ (st ct : Nat) (ip iq : List Nat), st < 4294967296 →
      parseSuffix (f3 ++ rest) ⟨3, st, ct, ip, iq⟩
        = parseSuffix rest
            ⟨3, f3.foldl (fun acc c => 10 * acc + (c - 48)) st % 4294967296, ct, ip, iq⟩ := by
  induction f3 with
  | nil =>
    intro st ct ip iq hst
    simp [Nat.mod_eq_of_lt hst]
  | cons c cs ih =>
    intro st ct ip iq hst
    have hc := h3 c (List.mem_cons_self _ _)
    have hcs : ∀ c ∈ cs, 48 ≤ c ∧ c ≤ 57 := fun x hx => h3 x (List.mem_cons_of_mem _ hx)
    have h44 : c ≠ 44 := by omega
    have hw : wrapUInt ((st : Int) * 10 + (c : Int) - 48) = (10 * st + (c - 48)) % 4294967296 := by
      unfold wrapUInt; omega
    rw [List.cons_append, parseSuffix]
    simp only [h44, and_false, if_false, Nat.reduceLeDiff, false_and,
      Nat.reduceEqDiff, if_true, true_and]
    rw [hw, ih hcs _ _ _ _ (Nat.mod_lt _ (by decide)), List.foldl_cons, foldl_decimal_mod]

/-- Field 4 of the suffix: a run of digits is read as the decimal value of `cut`, in `uint`
arithmetic. -/
theorem parseSuffix_cut (f4 : List Nat) (h4 : ∀ c ∈ f4, 48 ≤ c ∧ c ≤ 57) :
    ∀ (st ct : Nat) (ip iq : List Nat), ct < 4294967296 →
      parseSuffix f4 ⟨4, st, ct, ip, iq⟩
        = ⟨4, st, f4.foldl (fun acc c => 10 * acc + (c - 48)) ct % 4294967296, ip, iq⟩ := by
  induction f4 with
  | nil =>
    intro st ct ip iq hct
    simp [parseSuffix, Nat.mod_eq_of_lt hct]
  | cons c cs ih =>
    intro st ct ip iq hct
    have hc := h4 c (List.mem_cons_self _ _)
    have hcs : ∀ c ∈ cs, 48 ≤ c ∧ c ≤ 57 := fun x hx => h4 x (List.mem_cons_of_mem _ hx)
    have hnd : ¬ (c < 48 ∨ c > 57) := by omega
    have hw : wrapUInt ((ct : Int) * 10 + (c : Int) - 48) = (10 * ct + (c - 48)) % 4294967296 := by
      unfold wrapUInt; omega
    rw [parseSuffix]
    simp only [hnd, and_false, if_false, Nat.reduceLeDiff, false_and,
      Nat.reduceEqDiff, if_true, true_and]
    rw [hw, ih hcs _ _ _ _ (Nat.mod_lt _ (by decide)), List.foldl_cons, foldl_decimal_mod]

theorem parseSuffix_equals (rest : List Nat) (st ct : Nat) (ip iq : List Nat) :
    parseSuffix (61 :: rest) ⟨1, st, ct, ip, iq⟩ = parseSuffix rest ⟨2, st, ct, ip, iq⟩ := by
  rw [parseSuffix]; simp

theorem parseSuffix_comma2 (rest : List Nat) (st ct : Nat) (ip iq : List Nat) :
    parseSuffix (44 :: rest) ⟨2, st, ct, ip, iq⟩ = parseSuffix rest ⟨3, st, ct, ip, iq⟩ := by
  rw [parseSuffix]; simp

theorem parseSuffix_comma3 (rest : List Nat) (st ct : Nat) (ip iq : List Nat) :
    parseSuffix (44 :: rest) ⟨3, st, ct, ip, iq⟩ = parseSuffix rest ⟨4, st, ct, ip, iq⟩ := by
  rw [parseSuffix]; simp

/-- The suffix loop on the three shapes of a suffix: `pre=post,start,cut`, `pre=post,start` and
`pre=post`. -/
theorem parseSuffix_shapes (pre post f3 f4 : List Nat) (hpre : 61 ∉ pre) (hpost : 44 ∉ post)
    (h3 : ∀ c ∈ f3, 48 ≤ c ∧ c ≤ 57) (h4 : ∀ c ∈ f4, 48 ≤ c ∧ c ≤ 57) :
    parseSuffix (pre ++ 61 :: (post ++ 44 :: (f3 ++ 44 :: f4))) suffixStartState
        = ⟨4, decimal f3 % 4294967296, decimal f4 % 4294967296, pre, post⟩ ∧
      parseSuffix (pre ++ 61 :: (post ++ 44 :: f3)) suffixStartState
        = ⟨3, decimal f3 % 4294967296, 0, pre, post⟩ ∧
      parseSuffix (pre ++ 61 :: post) suffixStartState = ⟨2, 0, 0, pre, post⟩ := by
  unfold suffixStartState decimal
  refine ⟨?_, ?_, ?_⟩
  · rw [parseSuffix_pre pre _ hpre, parseSuffix_equals, parseSuffix_post post _ hpost,
      parseSuffix_comma2, parseSuffix_start f3 _ h3 _ _ _ _ (by decide), parseSuffix_comma3,
      parseSuffix_cut f4 h4 _ _ _ _ (by decide)]
    simp
  · rw [parseSuffix_pre pre _ hpre, parseSuffix_equals, parseSuffix_post post _ hpost,
      parseSuffix_comma2]
    have := parseSuffix_start f3 [] h3 0 0 ([] ++ pre) ([] ++ post) (by decide)
    rw [List.append_nil] at this
    rw [this]
    simp [parseSuffix]
  · rw [parseSuffix_pre pre _ hpre, parseSuffix_equals]
    have := parseSuffix_post post [] hpost 0 0 ([] ++ pre) []
    rw [List.append_nil] at this
    rw [this]
    simp [parseSuffix]

/-- C9, counterexample: for the token `a1b/x=y`, a suffix with neither `start` nor `cut`, the
key has length 2, the resolved values are `start = 1` and `cut = 2`, not `key.length - 1 = 1`,
and the compiled rule has `del_pre + skip_post = 2`. -/
theorem suffix_defaults_counterexample :
    resolvedStart (parseSuffix (unichars "x=y") suffixStartState) = 1 ∧
      resolvedCut (unichars "ab").length (parseSuffix (unichars "x=y") suffixStartState) = 2 ∧
      HyphenationRule.new (unichars "a1b/x=y")
        = some ⟨1, 1, some (unichars "ab"), some [120], some [121], [0, 1]⟩ ∧
      ¬ ((1 : Int) + 1 = (((unichars "ab").length : Nat) : Int) - 1) := by
  refine ⟨by decide, by decide, by decide, by decide⟩

/-- C9, as amended: for every token with a `'/'`-suffix, field 1 (up to the first `'='`) is
`insert_pre`, field 2 (up to the next `','`) is `insert_post`, field 3 is `start` and field 4
is `cut` (decimal values in `uint` arithmetic); when field 4 is absent `cut` is `key.length`
minus the `start` read from the token; when field 3 is absent too, `cut = key.length - 0` is
computed before the default `start = 1` is set, so for a suffix `/pre=post` `start = 1` and
`cut = key.length`, giving `del_pre + skip_post = key.length`. -/
theorem suffix_defaults (pat pre post f3 f4 : List Nat) (keylen : Nat) (hpat : 47 ∉ pat)
    (hpre : 61 ∉ pre) (hpost : 44 ∉ post)
    (h3 : ∀ c ∈ f3, 48 ≤ c ∧ c ≤ 57) (h4 : ∀ c ∈ f4, 48 ≤ c ∧ c ≤ 57)
    (hkey : keylen = (scanPattern pat [] [] 0).1.length) :
    (resolvedStart
          (parseSuffix (pre ++ 61 :: (post ++ 44 :: (f3 ++ 44 :: f4))) suffixStartState)
        = decimal f3 % 4294967296 ∧
      resolvedCut keylen
          (parseSuffix (pre ++ 61 :: (post ++ 44 :: (f3 ++ 44 :: f4))) suffixStartState)
        = decimal f4 % 4294967296) ∧
    (resolvedStart (parseSuffix (pre ++ 61 :: (post ++ 44 :: f3)) suffixStartState)
        = decimal f3 % 4294967296 ∧
      resolvedCut keylen (parseSuffix (pre ++ 61 :: (post ++ 44 :: f3)) suffixStartState)
        = wrapUInt ((keylen : Int) - ((decimal f3 % 4294967296 : Nat) : Int))) ∧
    (resolvedStart (parseSuffix (pre ++ 61 :: post) suffixStartState) = 1 ∧
      resolvedCut keylen (parseSuffix (pre ++ 61 :: post) suffixStartState)
        = keylen % 4294967296) ∧
    (∀ suffix ∈ [pre ++ 61 :: (post ++ 44 :: (f3 ++ 44 :: f4)), pre ++ 61 :: (post ++ 44 :: f3),
        pre ++ 61 :: post],
      ∀ r : HyphenationRule, HyphenationRule.new (pat ++ 47 :: suffix) = some r →
        r.insert_pre = builderString pre ∧ r.insert_post = builderString post) ∧
    (∀ r : HyphenationRule, HyphenationRule.new (pat ++ 47 :: (pre ++ 61 :: post)) = some r →
      keylen ≤ 2147483647 →
      (r.key.getD []).length = keylen ∧ r.del_pre + r.skip_post = (keylen : Int)) ∧
    ((∃ v ∈ (scanPattern pat [] [] 0).2.1 ++ [toChar (scanPattern pat [] [] 0).2.2.1], v ≠ 0) →
      (HyphenationRule.new (pat ++ 47 :: (pre ++ 61 :: post))).isSome = true) := by
  obtain ⟨p4, p3, p2⟩ := parseSuffix_shapes pre post f3 f4 hpre hpost h3 h4
  have hins : ∀ suffix : List Nat,
      (parseSuffix suffix suffixStartState).insert_pre_builder = pre →
      (parseSuffix suffix suffixStartState).insert_post_builder = post →
      ∀ r : HyphenationRule, HyphenationRule.new (pat ++ 47 :: suffix) = some r →
        r.insert_pre = builderString pre ∧ r.insert_post = builderString post := by
    intro suffix e1 e2 r hr
    obtain ⟨_, _, hsuf⟩ := new_some _ r hr
    rw [scanPattern_slash pat suffix hpat] at hsuf
    rcases hsuf with ⟨suffix1, hs1, _, hp, hq⟩ | ⟨hno, _⟩
    · simp only [List.cons.injEq, true_and] at hs1
      subst hs1
      rw [hp, hq, e1, e2]
      exact ⟨rfl, rfl⟩
    · exact absurd rfl (hno suffix)
  refine ⟨?_, ?_, ?_, ?_, ?_, ?_⟩
  · rw [p4]; simp [resolvedStart, resolvedCut]
  · rw [p3]; simp [resolvedStart, resolvedCut]
  · rw [p2]
    simp only [resolvedStart, resolvedCut]
    refine ⟨by simp, ?_⟩
    simp only [Nat.reduceLT, if_true]
    unfold wrapUInt
    omega
  · intro suffix hmem r hr
    simp only [List.mem_cons, List.mem_singleton, List.not_mem_nil, or_false] at hmem
    rcases hmem with h | h | h
    · subst h; exact hins _ (by rw [p4]) (by rw [p4]) r hr
    · subst h; exact hins _ (by rw [p3]) (by rw [p3]) r hr
    · subst h; exact hins _ (by rw [p2]) (by rw [p2]) r hr
  · intro r hr hk
    obtain ⟨hkeyr, _, hsuf⟩ := new_some _ r hr
    rw [scanPattern_slash pat _ hpat] at hsuf hkeyr
    simp only at hkeyr
    rcases hsuf with ⟨suffix1, hs1, hres, _, _⟩ | ⟨hno, _⟩
    · simp only [List.cons.injEq, true_and] at hs1
      subst hs1
      refine ⟨by rw [hkeyr, builderString_length, hkey], ?_⟩
      rw [p2, ← hkey] at hres
      unfold resolveSuffix at hres
      simp only [resolvedStart, resolvedCut, Nat.reduceLT, if_true] at hres
      have hc : wrapUInt ((keylen : Int) - ((0 : Nat) : Int)) = keylen := by
        unfold wrapUInt; omega
      have hb : wrapUInt (((1 : Nat) : Int) + (keylen : Int)) = 1 + keylen := by
        unfold wrapUInt; omega
      rw [hc, hb, wrapInt_of_nat keylen hk] at hres
      have hn : 1 + (max 1 (min (1 + keylen) r.priorities.length) - 1)
          = max 1 (min (1 + keylen) r.priorities.length) := by omega
      have h0 : (0 : Int) = ((0 : Nat) : Int) := rfl
      rw [h0] at hres
      obtain ⟨s1, _, _⟩ := delPreLoop_sum r.priorities (1 + keylen) (by omega)
        r.priorities.length _ 1 0 keylen _ (by omega) hn (by omega) hk (by omega) hres
      simpa using s1
    · exact absurd rfl (hno _)
  · intro hv
    have ht := trimTrailingZeros_isSome _ hv
    obtain ⟨ps, htt⟩ := Option.isSome_iff_exists.mp ht
    apply new_isSome_of_suffix (pat ++ 47 :: (pre ++ 61 :: post)) (pre ++ 61 :: post) ps
    · rw [scanPattern_slash pat _ hpat]
    · rw [scanPattern_slash pat _ hpat]; exact htt
    · rw [scanPattern_slash pat _ hpat, p2]
      unfold resolveSuffix
      simp only [resolvedStart, Nat.reduceLT, if_true]
      exact delPreLoop_isSome ps _ (Nat.le_of_lt (wrapUInt_lt _)) _ _ _ _ (Nat.le_refl 1)

/-- Witness of C9: the token `schif3fahrt/ff=f` has the fields `ff` and `f` and a key of length
10; its rule has `del_pre = 5`, `skip_post = 5`. -/
theorem suffix_defaults_witness :
    HyphenationRule.new (unichars "schif3fahrt/ff=f")
        = some ⟨5, 5, some (unichars "schiffahrt"), some [102, 102], some [102],
            [0, 0, 0, 0, 0, 3]⟩ ∧
      ((some (unichars "schiffahrt")).getD []).length = 10 ∧
      (5 : Int) + 5 = ((10 : Nat) : Int) :=
  ⟨by decide,
    (suffix_defaults (unichars "schif3fahrt") (unichars "ff") (unichars "f") [] [] 10
      (by decide) (by decide) (by decide) (by decide) (by decide) (by decide)).2.2.2.2.1
      ⟨5, 5, some (unichars "schiffahrt"), some [102, 102], some [102], [0, 0, 0, 0, 0, 3]⟩
      (by decide) (by decide)⟩

/-! ## The trie: `find` after `insert` -/

theorem mapFind_mapSet {α : Type} (m : List (Nat × α)) (key : Nat) (v : α) (c : Nat) :
    mapFind (mapSet m key v) c = if c = key then some v else mapFind m c := by
  induction m with
  | nil =>
    unfold mapSet mapFind
    by_cases h : c = key
    · simp [h]
    · have h1 : ¬ key = c := fun e => h e.symm
      simp [h, h1, mapFind]
  | cons e m ih =>
    obtain ⟨k, w⟩ := e
    unfold mapSet
    by_cases hk : k = key
    · simp only [hk, if_true]
      unfold mapFind
      by_cases h : c = key
      · simp [h]
      · have h1 : ¬ key = c := fun e => h e.symm
        simp [h, h1]
    · simp only [hk, if_false]
      unfold mapFind
      by_cases hc : k = c
      · have h1 : ¬ c = key := fun e => hk (hc.trans e)
        simp [hc, h1]
      · simp only [hc, if_false]
        exact ih

namespace HyphenationNode

theorem find_mk (t : Fin 26 → Option HyphenationNode)
    (m : Option (List (Nat × HyphenationNode))) (p q : Option HyphenationRule) (c : Nat) :
    (mk t m p).find c = (mk t m q).find c := by
  unfold find
  simp only [jump_table, jump_map]

/-- The child found after a child has been set. -/
theorem find_setChild (node : HyphenationNode) (key : Nat) (p : HyphenationNode) (c : Nat) :
    (node.setChild key p).find c = if c = key then some p else node.find c := by
  cases node with
  | mk t m q =>
  unfold setChild
  by_cases hk : 97 ≤ key ∧ key ≤ 122
  · simp only [hk, and_self, dite_true]
    unfold find
    simp only [jump_table, jump_map]
    by_cases hc : 97 ≤ c ∧ c ≤ 122
    · simp only [hc, and_self, dite_true]
      by_cases e : c = key
      · subst e
        simp
      · have hne : (⟨c - 97, by omega⟩ : Fin 26) ≠ ⟨key - 97, by omega⟩ := by
          intro h
          have := congrArg Fin.val h
          simp only at this
          omega
        simp only [e, if_false]
        exact Function.update_noteq hne _ _
    · have e : c ≠ key := fun h => hc (h ▸ hk)
      simp only [hc, dite_false, e, if_false]
  · simp only [hk, dite_false]
    unfold find
    simp only [jump_table, jump_map]
    by_cases hc : 97 ≤ c ∧ c ≤ 122
    · have e : c ≠ key := fun h => hk (h ▸ hc)
      simp only [hc, and_self, dite_true, e, if_false]
    · simp only [hc, dite_false]
      rw [mapFind_mapSet]
      by_cases e : c = key
      · simp [e]
      · simp only [e, if_false]
        cases m with
        | none => rfl
        | some m => rfl

theorem hyphenation_pattern_setChild (node : HyphenationNode) (key : Nat)
    (p : HyphenationNode) :
    (node.setChild key p).hyphenation_pattern = node.hyphenation_pattern := by
  unfold setChild
  split <;> rfl

theorem ruleAt_nil (node : HyphenationNode) : node.ruleAt [] = node.hyphenation_pattern := rfl

theorem ruleAt_cons (node : HyphenationNode) (c : Nat) (cs : List Nat) :
    node.ruleAt (c :: cs) = match node.find c with
      | some next => next.ruleAt cs
      | none => none := by
  unfold ruleAt
  simp only [walk]
  cases node.find c <;> rfl

theorem ruleAt_empty (p : List Nat) : empty.ruleAt p = none := by
  cases p with
  | nil => rfl
  | cons c cs =>
    rw [ruleAt_cons]
    have : empty.find c = none := by
      unfold find empty
      simp only [jump_table, jump_map]
      split <;> rfl
    rw [this]

/-- The rule stored under a path after a rule has been stored at this node. -/
theorem ruleAt_store (node : HyphenationNode) (R : HyphenationRule) (p : List Nat) :
    (mk node.jump_table node.jump_map (some R)).ruleAt p
      = if p = [] then some R else node.ruleAt p := by
  cases p with
  | nil => rfl
  | cons c cs =>
    simp only [if_false, ruleAt_cons]
    have : (mk node.jump_table node.jump_map (some R)).find c = node.find c := by
      cases node with
      | mk t m q => exact find_mk t m _ _ c
    rw [this]
    simp

/-- The rule stored under a path after `insert`: the new rule under the walked key, which ends
at the first code unit 0, and the old rule under every other path. -/
theorem ruleAt_insert (key : List Nat) (R : HyphenationRule) :
    ∀ (node : HyphenationNode) (p : List Nat),
      (node.insert key R).ruleAt p
        = if p = key.takeWhile (fun c => c ≠ 0) then some R else node.ruleAt p := by
  induction key with
  | nil =>
    intro node p
    simp only [insert, List.takeWhile_nil]
    exact ruleAt_store node R p
  | cons k rest ih =>
    intro node p
    unfold insert
    by_cases hk : k = 0
    · simp only [hk, if_true]
      rw [ruleAt_store]
      simp [List.takeWhile]
    · simp only [hk, if_false]
      have htw : (k :: rest).takeWhile (fun c => c ≠ 0) = k :: rest.takeWhile (fun c => c ≠ 0) := by
        simp [List.takeWhile, hk]
      rw [htw]
      cases p with
      | nil =>
        simp only [ruleAt_nil, hyphenation_pattern_setChild]
        simp
      | cons c cs =>
        rw [ruleAt_cons, find_setChild]
        by_cases e : c = k
        · subst e
          simp only [if_true, List.cons.injEq, true_and]
          rw [ih, ruleAt_cons]
          cases node.find c with
          | none => simp [ruleAt_empty]
          | some n => simp
        · simp only [e, if_false, List.cons.injEq, false_and]
          rw [ruleAt_cons]

end HyphenationNode

/-- In a dictionary that the program can build, a rule is stored under its lower-cased key. -/
theorem Built.ruleAt_loweredKey (ops : CharOps) (t : HyphenationTree) (h : Built ops t) :
    ∀ (p : List Nat) (R : HyphenationRule), t.root.ruleAt p = some R →
      loweredKey ops R = some p := by
  induction h with
  | fresh s e =>
    intro p R hp
    simp [HyphenationNode.ruleAt_empty] at hp
  | insert t t1 pattern _ hins ih =>
    intro p R hp
    unfold HyphenationTree.insert at hins
    cases hkey : pattern.key with
    | none => simp [hkey] at hins
    | some upperCaseKey =>
      simp only [hkey] at hins
      by_cases hlen : (ops.lowercase upperCaseKey).length < upperCaseKey.length
      · simp [hlen] at hins
      · simp only [hlen, if_false, Option.some.injEq] at hins
        subst hins
        simp only at hp
        rw [HyphenationNode.ruleAt_insert] at hp
        by_cases e : p = ((ops.lowercase upperCaseKey).take upperCaseKey.length).takeWhile
            (fun c => c ≠ 0)
        · simp only [e, if_true, Option.some.injEq] at hp
          subst hp
          unfold loweredKey
          simp [hkey, hlen, e]
        · simp only [e, if_false] at hp
          exact ih p R hp
  | margins t s e _ ih =>
    intro p R hp
    exact ih p R hp

/-! ## The scan: what a part of it does to the buffers -/

theorem getD_set {α : Type} (l : List α) (i k : Nat) (a d : α) :
    (l.set i a).getD k d = if k = i ∧ i < l.length then a else l.getD k d := by
  simp only [List.getD_eq_getElem?_getD]
  by_cases hk : k = i
  · subst hk
    by_cases hl : k < l.length
    · simp [hl, List.getElem?_set_self hl]
    · have h1 : (l.set k a)[k]? = none :=
        List.getElem?_eq_none (by rw [List.length_set]; exact Nat.le_of_not_lt hl)
      have h2 : l[k]? = none := List.getElem?_eq_none (Nat.le_of_not_lt hl)
      simp [hl, h1, h2]
  · have : ¬ (k = i ∧ i < l.length) := fun h => hk h.1
    simp only [this, if_false]
    rw [List.getElem?_set_ne (fun h => hk h.symm)]

theorem Step.nothing (H : HyphenationRule → Nat → Int → Prop) (b : HyphenationNode.Buffers)
    (hH : ∀ R k v, H R k v → v ≤ b.1.getD k 0) : Step H b b :=
  ⟨rfl, rfl, fun _ => Int.le_refl _, hH, fun _ => Or.inl ⟨rfl, rfl⟩⟩

theorem Step.weaken (H H1 : HyphenationRule → Nat → Int → Prop) (b b1 : HyphenationNode.Buffers)
    (h : Step H b b1) (hH : ∀ R k v, H R k v ↔ H1 R k v) : Step H1 b b1 := by
  obtain ⟨l1, l2, m, c, s⟩ := h
  refine ⟨l1, l2, m, fun R k v hv => c R k v ((hH R k v).mpr hv), fun k => ?_⟩
  rcases s k with h | ⟨R, hR, hm⟩
  · exact Or.inl h
  · exact Or.inr ⟨R, (hH R k _).mp hR, hm⟩

theorem Step.followed (H1 H2 : HyphenationRule → Nat → Int → Prop)
    (b b1 b2 : HyphenationNode.Buffers) (h1 : Step H1 b b1) (h2 : Step H2 b1 b2) :
    Step (fun R k v => H1 R k v ∨ H2 R k v) b b2 := by
  obtain ⟨l1, l2, m1, c1, s1⟩ := h1
  obtain ⟨l3, l4, m2, c2, s2⟩ := h2
  refine ⟨l3.trans l1, l4.trans l2, fun k => Int.le_trans (m1 k) (m2 k), ?_, fun k => ?_⟩
  · intro R k v hv
    rcases hv with hv | hv
    · exact Int.le_trans (c1 R k v hv) (m2 k)
    · exact c2 R k v hv
  · rcases s2 k with ⟨e1, e2⟩ | ⟨R, hR, hm⟩
    · rcases s1 k with ⟨e3, e4⟩ | ⟨R, hR, hm⟩
      · exact Or.inl ⟨e1.trans e3, e2.trans e4⟩
      · refine Or.inr ⟨R, Or.inl ?_, ?_⟩
        · rw [e1]; exact hR
        · rw [e1, e2]; exact hm
    · exact Or.inr ⟨R, Or.inr hR, hm⟩

namespace HyphenationNode

/-- The loop of lines 183-187 applies the priorities of the rule that it has not visited yet. -/
theorem applyRule_step (R : HyphenationRule) (base : Nat) :
    ∀ (ps : List Int) (i : Nat) (b b1 : Buffers), applyRule R base ps i b = some b1 →
      Step (fun R1 k v => R1 = R ∧ ∃ j : Nat, k = base + i + j ∧ ps[j]? = some v) b b1 := by
  intro ps
  induction ps with
  | nil =>
    intro i b b1 h
    simp only [applyRule, Option.some.injEq] at h
    subst h
    exact Step.nothing _ _ (fun R1 k v hv => by
      obtain ⟨_, j, _, hj⟩ := hv
      simp at hj)
  | cons p ps ih =>
    intro i b b1 h
    obtain ⟨pri, rules⟩ := b
    unfold applyRule at h
    cases hcur : pri[base + i]? with
    | none => simp [hcur] at h
    | some cur =>
      simp only [hcur] at h
      have hlt : base + i < pri.length := by
        by_contra hn
        rw [List.getElem?_eq_none (Nat.le_of_not_lt hn)] at hcur
        simp at hcur
      have hcurD : pri.getD (base + i) 0 = cur := by
        rw [List.getD_eq_getElem?_getD, hcur]; rfl
      have hsplit : ∀ (b0 b2 : Buffers),
          Step (fun R1 k v => R1 = R ∧ k = base + i ∧ v = p) b0 b2 →
          Step (fun R1 k v => R1 = R ∧ ∃ j : Nat, k = base + (i + 1) + j ∧ ps[j]? = some v)
            b2 b1 →
          Step (fun R1 k v => R1 = R ∧ ∃ j : Nat, k = base + i + j ∧ (p :: ps)[j]? = some v)
            b0 b1 := by
        intro b0 b2 s1 s2
        refine Step.weaken _ _ _ _ (Step.followed _ _ _ _ _ s1 s2) (fun R1 k v => ?_)
        constructor
        · rintro (⟨e1, e2, e3⟩ | ⟨e1, j, e2, e3⟩)
          · exact ⟨e1, 0, by omega, by simp [e3]⟩
          · exact ⟨e1, j + 1, by omega, by simpa using e3⟩
        · rintro ⟨e1, j, e2, e3⟩
          cases j with
          | zero =>
            simp only [List.getElem?_cons_zero, Option.some.injEq] at e3
            exact Or.inl ⟨e1, by omega, e3.symm⟩
          | succ j =>
            simp only [List.getElem?_cons_succ] at e3
            exact Or.inr ⟨e1, j, by omega, e3⟩
      by_cases hc : cur < p
      · simp only [hc, if_true] at h
        by_cases hr : base + i < rules.length
        · simp only [hr, if_true] at h
          refine hsplit _ _ ?_ (ih (i + 1) _ b1 h)
          refine ⟨by simp, by simp, fun k => ?_, fun R1 k v hv => ?_, fun k => ?_⟩
          · simp only [getD_set]
            split
            · rename_i hk
              rw [hk.1, hcurD]
              exact Int.le_of_lt hc
            · exact Int.le_refl _
          · obtain ⟨_, e2, e3⟩ := hv
            subst e2 e3
            simp only [getD_set, hlt, and_self, if_true]
            exact Int.le_refl _
          · by_cases hk : k = base + i
            · subst hk
              refine Or.inr ⟨R, ⟨rfl, rfl, ?_⟩, ?_⟩
              · simp only [getD_set, hlt, and_self, if_true]
              · simp only [getD_set, hlt, hr, and_self, if_true, mark]
            · left
              simp only [getD_set, hk, false_and, if_false, and_self]
        · simp [hr] at h
      · simp only [hc, if_false] at h
        refine hsplit _ _ ?_ (ih (i + 1) _ b1 h)
        refine Step.nothing _ _ (fun R1 k v hv => ?_)
        obtain ⟨_, e2, e3⟩ := hv
        subst e2 e3
        simp only
        rw [hcurD]
        exact Int.not_lt.mp hc

/-- Lines 181-187 apply the priorities of the rule of this node. -/
theorem applyHere_step (node : HyphenationNode) (base : Nat) (b b1 : Buffers)
    (h : node.applyHere base b = some b1) :
    Step (fun R k v => node.hyphenation_pattern = some R ∧
      ∃ j : Nat, k = base + j ∧ R.priorities[j]? = some v) b b1 := by
  unfold applyHere at h
  cases hp : node.hyphenation_pattern with
  | none =>
    simp only [hp, Option.some.injEq] at h
    subst h
    exact Step.nothing _ _ (fun R k v hv => by simp at hv)
  | some hyp_pat =>
    simp only [hp] at h
    refine Step.weaken _ _ _ _ (applyRule_step hyp_pat base _ 0 b b1 h) (fun R k v => ?_)
    constructor
    · rintro ⟨e1, j, e2, e3⟩
      subst e1
      exact ⟨rfl, j, by omega, e3⟩
    · rintro ⟨e1, j, e2, e3⟩
      simp only [Option.some.injEq] at e1
      subst e1
      exact ⟨rfl, j, by omega, e3⟩

end HyphenationNode

namespace HyphenationNode

/-- The member `apply_patterns` applies the priorities of the rules stored under the prefixes
of `to_match`. -/
theorem apply_patterns_step (base : Nat) :
    ∀ (to_match : List Nat) (node : HyphenationNode) (b b1 : Buffers),
      node.apply_patterns base to_match b = some b1 →
      Step (nodeHits node base to_match) b b1 := by
  intro to_match
  induction to_match with
  | nil =>
    intro node b b1 h
    simp only [apply_patterns] at h
    refine Step.weaken _ _ _ _ (applyHere_step node base b b1 h) (fun R k v => ?_)
    constructor
    · rintro ⟨e1, j, e2, e3⟩
      exact ⟨[], j, List.prefix_refl _, by simp, e1, e2, e3⟩
    · rintro ⟨p, j, hp, _, e1, e2, e3⟩
      have : p = [] := List.prefix_nil.mp hp
      subst this
      exact ⟨e1, j, e2, e3⟩
  | cons key rest ih =>
    intro node b b1 h
    have honly : ∀ b0 : Buffers, node.applyHere base b0 = some b1 →
        (∀ (p : List Nat) (R : HyphenationRule), key :: p <+: key :: rest → 0 ∉ key :: p →
          node.ruleAt (key :: p) = some R → False) →
        Step (nodeHits node base (key :: rest)) b0 b1 := by
      intro b0 h0 hno
      refine Step.weaken _ _ _ _ (applyHere_step node base b0 b1 h0) (fun R k v => ?_)
      constructor
      · rintro ⟨e1, j, e2, e3⟩
        exact ⟨[], j, List.nil_prefix, by simp, e1, e2, e3⟩
      · rintro ⟨p, j, hp, h0p, e1, e2, e3⟩
        cases p with
        | nil => exact ⟨e1, j, e2, e3⟩
        | cons c cs =>
          have hc : c = key := (List.cons_prefix_cons.mp hp).1
          subst hc
          exact (hno cs R hp h0p e1).elim
    unfold apply_patterns at h
    by_cases hk : key ≠ 0
    · simp only [hk, ne_eq, not_false_eq_true, if_true] at h
      cases hf : node.find key with
      | none =>
        simp only [hf] at h
        refine honly b h (fun p R _ _ hr => ?_)
        rw [ruleAt_cons, hf] at hr
        simp at hr
      | some next =>
        simp only [hf] at h
        cases hn : next.apply_patterns base rest b with
        | none => simp [hn] at h
        | some b2 =>
          simp only [hn] at h
          refine Step.weaken _ _ _ _
            (Step.followed _ _ _ _ _ (ih next b b2 hn) (applyHere_step node base b2 b1 h))
            (fun R k v => ?_)
          constructor
          · rintro (⟨p, j, hp, h0p, e1, e2, e3⟩ | ⟨e1, j, e2, e3⟩)
            · refine ⟨key :: p, j, List.cons_prefix_cons.mpr ⟨rfl, hp⟩, ?_, ?_, e2, e3⟩
              · intro hmem
                rcases List.mem_cons.mp hmem with h1 | h1
                · exact hk h1.symm
                · exact h0p h1
              · rw [ruleAt_cons, hf]
                exact e1
            · exact ⟨[], j, List.nil_prefix, by simp, e1, e2, e3⟩
          · rintro ⟨p, j, hp, h0p, e1, e2, e3⟩
            cases p with
            | nil => exact Or.inr ⟨e1, j, e2, e3⟩
            | cons c cs =>
              obtain ⟨hc, hcs⟩ := List.cons_prefix_cons.mp hp
              subst hc
              rw [ruleAt_cons, hf] at e1
              exact Or.inl ⟨cs, j, hcs, fun hm => h0p (List.mem_cons_of_mem _ hm), e1, e2, e3⟩
    · simp only [hk, if_false] at h
      refine honly b h (fun p R _ h0p _ => ?_)
      have : key = 0 := by
        by_contra hne
        exact hk hne
      exact h0p (by simp [this])

end HyphenationNode

/-- The scan loop applies, for every start offset `o` from `i` on that the loop condition
admits, the priorities of the rules stored under the prefixes of the padded word at `o`. -/
theorem scanLoop_step (root : HyphenationNode) (characters : List Nat) (w_size stop_at : Nat) :
    ∀ (fuel i : Nat) (b b1 : HyphenationNode.Buffers),
      scanLoop root characters w_size stop_at fuel i b = some b1 →
      Step (fun R k v => ∃ o : Nat, i ≤ o ∧ o < w_size - 1 ∧ o ≤ stop_at ∧
        nodeHits root o (characters.drop o) R k v) b b1 := by
  intro fuel
  induction fuel with
  | zero => intro i b b1 h; simp [scanLoop] at h
  | succ fuel ih =>
    intro i b b1 h
    unfold scanLoop at h
    by_cases hc : i < w_size - 1 ∧ i ≤ stop_at
    · simp only [hc, and_self, if_true] at h
      cases ha : root.apply_patterns i (characters.drop i) b with
      | none => simp [ha] at h
      | some b2 =>
        simp only [ha] at h
        refine Step.weaken _ _ _ _
          (Step.followed _ _ _ _ _ (HyphenationNode.apply_patterns_step i _ root b b2 ha)
            (ih (i + 1) b2 b1 h)) (fun R k v => ?_)
        constructor
        · rintro (h1 | ⟨o, h1, h2, h3, h4⟩)
          · exact ⟨i, Nat.le_refl _, hc.1, hc.2, h1⟩
          · exact ⟨o, by omega, h2, h3, h4⟩
        · rintro ⟨o, h1, h2, h3, h4⟩
          by_cases e : o = i
          · subst e
            exact Or.inl h4
          · exact Or.inr ⟨o, by omega, h2, h3, h4⟩
    · simp only [hc, if_false, Option.some.injEq] at h
      subst h
      exact Step.nothing _ _ (fun R k v hv => by
        obtain ⟨o, h1, h2, h3, _⟩ := hv
        exact absurd ⟨by omega, by omega⟩ hc)

/-- The scan keeps the lengths of the two arrays. -/
theorem scan_lengths (ops : CharOps) (t : HyphenationTree) (word : List Nat) (stop_at : Nat)
    (b : HyphenationNode.Buffers) (h : scan ops t word stop_at = some b) :
    b.1.length = word.length + 2 + 2 ∧ b.2.length = word.length + 2 + 3 := by
  unfold scan at h
  by_cases hl : (lowerCased ops word).length < word.length
  · simp [hl] at h
  · simp only [hl, if_false] at h
    obtain ⟨l1, l2, _⟩ := scanLoop_step _ _ _ _ _ _ _ _ h
    simp only [List.length_replicate] at l1 l2
    exact ⟨l1, l2⟩

/-! ## Highest priority wins -/

/-- The buffers after the scan of a word, against the buffers `calloc` returns. -/
theorem scan_step (ops : CharOps) (t : HyphenationTree) (word : List Nat) (stop_at : Nat)
    (b : HyphenationNode.Buffers) (h : scan ops t word stop_at = some b) :
    Step (fun R k v => ∃ o : Nat, o ≤ word.length ∧ o ≤ stop_at ∧
        nodeHits t.root o ((characters ops word).drop o) R k v)
      (List.replicate (word.length + 2 + 2) 0, List.replicate (word.length + 2 + 3) none) b := by
  unfold scan at h
  by_cases hl : (lowerCased ops word).length < word.length
  · simp [hl] at h
  · simp only [hl, if_false] at h
    refine Step.weaken _ _ _ _ (scanLoop_step _ _ _ _ _ _ _ _ h) (fun R k v => ?_)
    constructor
    · rintro ⟨o, _, h2, h3, h4⟩
      exact ⟨o, by omega, h3, h4⟩
    · rintro ⟨o, h2, h3, h4⟩
      exact ⟨o, Nat.zero_le _, by omega, h3, h4⟩

/-- C1, counterexample: with the rule `1.` (key `.`, priority 1 at offset 0) and the word "a",
the key occurs in the padded word `.a.` at the offsets 0 and 2, so the maximum that the claim
describes at the gap 2 is at least 1; the scan, which starts at the offsets 0 and 1 only,
leaves the priority 0 there. -/
theorem scan_closing_dot_counterexample :
    scan asciiOps tree_dot (unichars "a") 2147483647
        = some ([1, 0, 0, 0, 0], [some rule_dot, none, none, none, none, none]) ∧
      tree_dot.root.ruleAt (unichars ".") = some rule_dot ∧
      loweredKey asciiOps rule_dot = some (unichars ".") ∧
      (characters asciiOps (unichars "a")).drop 2 = unichars "." ∧
      rule_dot.hasPriority 0 = true ∧ rule_dot.priority 0 = some 1 ∧
      ¬ ((1 : Int) ≤ ([1, 0, 0, 0, 0] : List Int).getD (2 + 0) 0) := by
  refine ⟨by decide, by decide, by decide, by decide, by decide, by decide, by decide⟩

/-- C1, as amended: for every dictionary that the program can build (rules with priorities in
`0..127`) and every word (length within the range of `int`), after the scan over the padded
word, the priority stored at each gap position `k` is the maximum (0 if there is none) of
`R.priority(j)` over the stored rules `R` and the start offsets `o` in `0 .. len(word)` such
that the lower-cased key of `R` occurs in the padded word at offset `o` and `o + j = k`; the
rule stored at `k` is none when that maximum is even, and otherwise is one of the matching
rules whose priority at `k` is that maximum. -/
theorem highest_priority_wins (ops : CharOps) (t : HyphenationTree) (hbuilt : Built ops t)
    (hprio : ∀ (p : List Nat) (R : HyphenationRule), t.root.ruleAt p = some R →
      ∀ x ∈ R.priorities, 0 ≤ x ∧ x ≤ 127)
    (word : List Nat) (hlen : word.length ≤ 2147483647)
    (pri : List Int) (rules : List (Option HyphenationRule))
    (hscan : scan ops t word 2147483647 = some (pri, rules)) (k : Nat) :
    IsGreatest ({0} ∪ {v : Int | ∃ R : HyphenationRule, Hit ops t word R k v}) (pri.getD k 0) ∧
    (pri.getD k 0 % 2 = 0 → rules.getD k none = none) ∧
    (pri.getD k 0 % 2 = 1 →
      ∃ R : HyphenationRule, Hit ops t word R k (pri.getD k 0) ∧ rules.getD k none = some R) := by
  obtain ⟨_, _, hmono, hcov, hsound⟩ := scan_step ops t word 2147483647 (pri, rules) hscan
  simp only at hmono hcov hsound
  have hinit1 : ∀ k : Nat, (List.replicate (word.length + 2 + 2) (0 : Int)).getD k 0 = 0 := by
    intro k
    rw [List.getD_eq_getElem?_getD, List.getElem?_replicate]
    split <;> rfl
  have hinit2 : ∀ k : Nat,
      (List.replicate (word.length + 2 + 3) (none : Option HyphenationRule)).getD k none
        = none := by
    intro k
    rw [List.getD_eq_getElem?_getD, List.getElem?_replicate]
    split <;> rfl
  have hHit : ∀ (R : HyphenationRule) (v : Int),
      (∃ o : Nat, o ≤ word.length ∧ o ≤ 2147483647 ∧
        nodeHits t.root o ((characters ops word).drop o) R k v) ↔ Hit ops t word R k v := by
    intro R v
    constructor
    · rintro ⟨o, h1, _, p, j, hp, _, hr, hk, hv⟩
      refine ⟨p, o, j, hr, Built.ruleAt_loweredKey ops t hbuilt p R hr, h1, hp, hk.symm, ?_, ?_⟩
      · unfold HyphenationRule.hasPriority
        have : j < R.priorities.length := by
          by_contra hn
          rw [List.getElem?_eq_none (Nat.le_of_not_lt hn)] at hv
          simp at hv
        simpa using this
      · exact hv
    · rintro ⟨p, o, j, hr, hkey, h1, hp, hk, _, hv⟩
      refine ⟨o, h1, by omega, p, j, hp, ?_, hr, hk.symm, hv⟩
      unfold loweredKey at hkey
      cases hkk : R.key with
      | none => simp [hkk] at hkey
      | some key =>
        simp only [hkk] at hkey
        split at hkey
        · simp at hkey
        · simp only [Option.some.injEq] at hkey
          intro h0
          rw [← hkey] at h0
          have := (List.mem_takeWhile_imp h0)
          simp at this
  have hnonneg : ∀ (R : HyphenationRule) (v : Int), Hit ops t word R k v → 0 ≤ v := by
    rintro R v ⟨p, o, j, hr, _, _, _, _, _, hv⟩
    exact (hprio p R hr v (by
      unfold HyphenationRule.priority at hv
      exact List.getElem?_mem hv)).1
  refine ⟨⟨?_, ?_⟩, ?_, ?_⟩
  · rcases hsound k with ⟨e1, _⟩ | ⟨R, hR, _⟩
    · left
      rw [e1, hinit1]
      rfl
    · right
      exact ⟨R, (hHit R _).mp hR⟩
  · rintro v (hv | ⟨R, hR⟩)
    · have h0 : v = 0 := hv
      have hm := hmono k
      rw [hinit1 k] at hm
      rw [h0]
      exact hm
    · exact hcov R k v ((hHit R v).mpr hR)
  · intro heven
    rcases hsound k with ⟨_, e2⟩ | ⟨R, hR, hm⟩
    · rw [e2, hinit2]
    · rw [hm]
      unfold mark
      have h0 := hnonneg R _ ((hHit R _).mp hR)
      rw [Int.tmod_eq_emod h0 (by decide), heven]
      simp
  · intro hodd
    rcases hsound k with ⟨e1, _⟩ | ⟨R, hR, hm⟩
    · rw [e1, hinit1] at hodd
      simp at hodd
    · refine ⟨R, (hHit R _).mp hR, ?_⟩
      rw [hm]
      unfold mark
      have h0 := hnonneg R _ ((hHit R _).mp hR)
      rw [Int.tmod_eq_emod h0 (by decide), hodd]
      simp

theorem tree_overlap_built : Built asciiOps tree_overlap :=
  Built.insert _ _ rule_y3p
    (Built.insert _ _ rule_2ph
      (Built.insert _ _ rule_1p (Built.fresh 1 1) rfl) rfl) rfl

theorem tree_overlap_rules (p : List Nat) (R : HyphenationRule)
    (h : tree_overlap.root.ruleAt p = some R) : R = rule_1p ∨ R = rule_2ph ∨ R = rule_y3p := by
  unfold tree_overlap at h
  simp only [HyphenationNode.ruleAt_insert, HyphenationNode.ruleAt_empty] at h
  split at h
  · exact Or.inr (Or.inr (Option.some.inj h).symm)
  · split at h
    · exact Or.inr (Or.inl (Option.some.inj h).symm)
    · split at h
      · exact Or.inl (Option.some.inj h).symm
      · simp at h

/-- Witness of C1: with the rules `1p`, `2ph` and `y3p` and the word "hyphen", the gap 3 of the
padded word (before `p`) gets the priorities 1, 2 and 3; the stored priority is 3 and the
stored rule is `y3p`. -/
theorem highest_priority_wins_witness :
    scan asciiOps tree_overlap (unichars "hyphen") 2147483647
        = some ([0, 0, 0, 3, 0, 0, 0, 0, 0, 0],
            [none, none, none, some rule_y3p, none, none, none, none, none, none, none]) ∧
      IsGreatest
        ({0} ∪ {v : Int | ∃ R : HyphenationRule,
          Hit asciiOps tree_overlap (unichars "hyphen") R 3 v})
        (([0, 0, 0, 3, 0, 0, 0, 0, 0, 0] : List Int).getD 3 0) :=
  ⟨by decide,
    (highest_priority_wins asciiOps tree_overlap tree_overlap_built
      (fun p R h x hx => by
        rcases tree_overlap_rules p R h with e | e | e <;> subst e <;> revert x <;> decide)
      (unichars "hyphen") (by decide) [0, 0, 0, 3, 0, 0, 0, 0, 0, 0]
      [none, none, none, some rule_y3p, none, none, none, none, none, none, none]
      (by decide) 3).1⟩

/-! ## The result of `applyPatterns`: length and margins -/

/-- The pieces of a completed run of `applyPatterns`: the scan, the copy loop and the masking
loop have all completed. -/
theorem applyPatterns_some (ops : CharOps) (t : HyphenationTree) (word : List Nat)
    (out : HyphenationPoints) (h : applyPatterns ops t word = some out) :
    ∃ (pri : List Int) (rules : List (Option HyphenationRule)) (copied : HyphenationPoints),
      scan ops t word 2147483647 = some (pri, rules) ∧
      copyLoop rules (wrapUInt (((word.length + 2 : Nat) : Int) - 1 - (t.end_safe : Int)))
        4294967297 (wrapUInt (1 + (t.start_safe : Int))) (List.replicate word.length none)
        = some copied ∧
      maskLoop ops t.start_safe t.end_safe (lowerCased ops word) word.length (word.length + 2) 0
        word.length copied = some out := by
  unfold applyPatterns applyPatternsUpTo at h
  cases hs : scan ops t word 2147483647 with
  | none => simp [hs] at h
  | some b =>
    obtain ⟨pri, rules⟩ := b
    simp only [hs] at h
    split at h
    · simp at h
    · rename_i copied hc
      exact ⟨pri, rules, copied, rfl, hc, h⟩

/-- The result of a completed run has one slot per code unit of the word. -/
theorem applyPatterns_length (ops : CharOps) (t : HyphenationTree) (word : List Nat)
    (out : HyphenationPoints) (h : applyPatterns ops t word = some out) :
    out.length = word.length := by
  obtain ⟨pri, rules, copied, _, hc, hm⟩ := applyPatterns_some ops t word out h
  have h1 := copyLoop_length _ _ _ _ _ _ hc
  have h2 := (maskLoop_sub _ _ _ _ _ _ _ _ _ _ hm).1
  rw [h2, h1, List.length_replicate]

/-- The copy loop completes when its range `i .. ind_end` lies inside both arrays. -/
theorem copyLoop_isSome (rules : List (Option HyphenationRule)) (ind_end : Nat)
    (hend : ind_end < 4294967295) (hrules : ind_end < rules.length) :
    ∀ (fuel i : Nat) (out : HyphenationPoints), 1 ≤ i → ind_end ≤ out.length → 1 ≤ fuel →
      (i ≤ ind_end → ind_end + 2 ≤ fuel + i) →
      (copyLoop rules ind_end fuel i out).isSome = true := by
  intro fuel
  induction fuel with
  | zero =>
    intro i out _ _ h1 _
    omega
  | succ fuel ih =>
    intro i out hi ho _ hf
    unfold copyLoop
    by_cases hle : i ≤ ind_end
    · have hf1 := hf hle
      simp only [hle, if_true]
      rw [List.getElem?_eq_getElem (by omega)]
      simp only
      rw [wrapUInt_sub_one i hi (by omega), wrapUInt_add_one i (by omega)]
      have hlt : i - 1 < out.length := by omega
      simp only [hlt, if_true]
      exact ih (i + 1) _ (by omega) (by rw [List.length_set]; exact ho) (by omega)
        (fun _ => by omega)
    · simp [hle]

theorem clearLoop_isSome :
    ∀ (n i : Nat) (out : HyphenationPoints), i + n ≤ out.length →
      (clearLoop n i out).isSome = true := by
  intro n
  induction n with
  | zero => intro i out _; simp [clearLoop]
  | succ n ih =>
    intro i out h
    unfold clearLoop
    have hlt : i < out.length := by omega
    simp only [hlt, if_true]
    exact ih (i + 1) _ (by rw [List.length_set]; omega)

theorem findNonLower_lt (ops : CharOps) (word : List Nat) (location length found : Nat)
    (h : findNonLower ops word location length = some found) :
    location ≤ found ∧ found < location + length := by
  unfold findNonLower at h
  have hmem := List.mem_of_find?_eq_some h
  rw [List.mem_range'_1] at hmem
  exact hmem

/-- The masking loop completes: its writes stay inside the output, and its second search, on
an empty range, finds nothing. -/
theorem maskLoop_isSome (ops : CharOps) (start_safe end_safe : Nat) (word : List Nat)
    (wordLength : Nat) (fuel : Nat) (out : HyphenationPoints) (hout : out.length = wordLength) :
    (maskLoop ops start_safe end_safe word wordLength (fuel + 2) 0 wordLength out).isSome
      = true := by
  unfold maskLoop
  cases hf : findNonLower ops word 0 wordLength with
  | none => simp
  | some found =>
    simp only
    have hlt := (findNonLower_lt ops word 0 wordLength found hf).2
    have hcl := clearLoop_isSome
      (min wordLength (found + 1 + end_safe)
        - (max ((0 : Nat) : Int) ((found : Int) - (start_safe : Int))).toNat)
      (max ((0 : Nat) : Int) ((found : Int) - (start_safe : Int))).toNat out (by omega)
    obtain ⟨cleared, hc⟩ := Option.isSome_iff_exists.mp hcl
    rw [hc]
    simp only
    split
    · simp
    · unfold maskLoop
      have : findNonLower ops word (0 + wordLength) (wordLength - (0 + wordLength)) = none := by
        unfold findNonLower
        simp
      rw [this]
      simp

/-- The call completes once the scan has completed, for a word that is not shorter than
`end_safe - 1` and margins with `end_safe >= 1`. -/
theorem applyPatterns_isSome (ops : CharOps) (t : HyphenationTree) (word : List Nat)
    (pri : List Int) (rules : List (Option HyphenationRule))
    (hscan : scan ops t word 2147483647 = some (pri, rules))
    (hrules : rules.length = word.length + 2 + 3)
    (hs : t.start_safe ≤ 2147483647) (he1 : 1 ≤ t.end_safe) (he2 : t.end_safe ≤ word.length + 1)
    (hlen : word.length ≤ 2147483647) :
    (applyPatterns ops t word).isSome = true := by
  unfold applyPatterns applyPatternsUpTo
  simp only [hscan]
  have hstart : wrapUInt (1 + (t.start_safe : Int)) = 1 + t.start_safe := by
    unfold wrapUInt; omega
  have hend : wrapUInt (((word.length + 2 : Nat) : Int) - 1 - (t.end_safe : Int))
      = word.length + 1 - t.end_safe := by
    unfold wrapUInt; omega
  rw [hstart, hend]
  have hc := copyLoop_isSome rules (word.length + 1 - t.end_safe) (by omega) (by omega)
    4294967297 (1 + t.start_safe) (List.replicate word.length none) (by omega)
    (by rw [List.length_replicate]; omega) (by omega) (fun _ => by omega)
  cases hcc : copyLoop rules (word.length + 1 - t.end_safe) 4294967297 (1 + t.start_safe)
      (List.replicate word.length none) with
  | none => simp [hcc] at hc
  | some copied =>
    simp only
    have hl := copyLoop_length _ _ _ _ _ _ hcc
    rw [List.length_replicate] at hl
    exact maskLoop_isSome ops _ _ _ _ word.length copied hl

/-- C3: for every dictionary and every word, the sequence that `applyHyphenationRules`
(`applyPatterns`) returns has exactly `len(word)` slots, one per code unit of the word; and
the call does return a sequence once the scan has completed, when `1 <= end_safe <=
len(word) + 1` (margins and length within the range of `int`). -/
theorem applyHyphenationRules_length (ops : CharOps) (t : HyphenationTree) (word : List Nat) :
    (∀ out : HyphenationPoints, applyHyphenationRules ops t word = some out →
      out.length = word.length) ∧
    ((scan ops t word 2147483647).isSome = true → t.start_safe ≤ 2147483647 →
      1 ≤ t.end_safe → t.end_safe ≤ word.length + 1 → word.length ≤ 2147483647 →
      (applyHyphenationRules ops t word).isSome = true) := by
  refine ⟨fun out h => applyPatterns_length ops t word out h, fun hscan hs he1 he2 hlen => ?_⟩
  cases hsc : scan ops t word 2147483647 with
  | none => simp [hsc] at hscan
  | some b =>
    obtain ⟨pri, rules⟩ := b
    have hl := (scan_lengths ops t word 2147483647 (pri, rules) hsc).2
    exact applyPatterns_isSome ops t word pri rules hsc hl hs he1 he2 hlen

/-- The slots of a result that hold a rule lie between the margins. -/
theorem applyPatterns_margins (ops : CharOps) (t : HyphenationTree) (word : List Nat)
    (out : HyphenationPoints) (hs : t.start_safe ≤ 2147483647) (he : t.end_safe ≤ 2147483647)
    (h : applyPatterns ops t word = some out) :
    (∀ (i : Nat) (R : HyphenationRule), out[i]? = some (some R) →
      t.start_safe ≤ i ∧ (t.end_safe : Int) ≤ (word.length : Int) - (i : Int)) ∧
    (∀ i : Nat, i < word.length →
      (i < t.start_safe ∨ (word.length : Int) - (t.end_safe : Int) < (i : Int)) →
      out[i]? = some none) := by
  have hlen := applyPatterns_length ops t word out h
  obtain ⟨pri, rules, copied, _, hc, hm⟩ := applyPatterns_some ops t word out h
  have key : ∀ (i : Nat) (R : HyphenationRule), out[i]? = some (some R) →
      t.start_safe ≤ i ∧ (t.end_safe : Int) ≤ (word.length : Int) - (i : Int) := by
    intro i R hi
    have hcop : copied[i]? = some (some R) := by
      rcases (maskLoop_sub _ _ _ _ _ _ _ _ _ _ hm).2 i with hm1 | hm1
      · rw [← hm1]; exact hi
      · rw [hm1] at hi; simp at hi
    have hstart : wrapUInt (1 + (t.start_safe : Int)) = 1 + t.start_safe := by
      unfold wrapUInt; omega
    rw [hstart] at hc
    by_cases hmax : wrapUInt (((word.length + 2 : Nat) : Int) - 1 - (t.end_safe : Int))
        = 4294967295
    · rw [hmax, copyLoop_max _ _ _ _ (by omega)] at hc
      simp at hc
    · have hlt := wrapUInt_lt (((word.length + 2 : Nat) : Int) - 1 - (t.end_safe : Int))
      obtain ⟨c1, c2⟩ := copyLoop_spec rules _ (by omega) _ _ _ _ (by omega) hc
      rcases c2 i with ⟨ha, hb, _⟩ | ⟨_, hb⟩
      · have hbound := c1 (by omega)
        rw [List.length_replicate] at hbound
        unfold wrapUInt at hb hbound
        refine ⟨by omega, by omega⟩
      · rw [hb] at hcop
        rw [List.getElem?_replicate] at hcop
        split at hcop <;> simp at hcop
  refine ⟨key, fun i hi hout => ?_⟩
  have hi2 : i < out.length := by rw [hlen]; exact hi
  cases hv : out[i]? with
  | none =>
    rw [List.getElem?_eq_none_iff] at hv
    omega
  | some v =>
    cases v with
    | none => rfl
    | some R =>
      have := key i R hv
      omega

/-- C5: for every dictionary (margins within the range of `int`) and every word, a slot `i` of
the result that holds a rule has `i >= start_safe` and `len(word) - i >= end_safe`; the slots
`i < start_safe` and the slots `i > len(word) - end_safe` are `none`; and the call does return
a result once the scan has completed, when `1 <= end_safe <= len(word) + 1`. -/
theorem safe_zones (ops : CharOps) (t : HyphenationTree) (word : List Nat)
    (hs : t.start_safe ≤ 2147483647) (he : t.end_safe ≤ 2147483647) :
    (∀ out : HyphenationPoints, applyHyphenationRules ops t word = some out →
      (∀ (i : Nat) (R : HyphenationRule), out[i]? = some (some R) →
        t.start_safe ≤ i ∧ (t.end_safe : Int) ≤ (word.length : Int) - (i : Int)) ∧
      (∀ i : Nat, i < word.length →
        (i < t.start_safe ∨ (word.length : Int) - (t.end_safe : Int) < (i : Int)) →
        out[i]? = some none)) ∧
    ((scan ops t word 2147483647).isSome = true → 1 ≤ t.end_safe →
      t.end_safe ≤ word.length + 1 → word.length ≤ 2147483647 →
      (applyHyphenationRules ops t word).isSome = true) := by
  refine ⟨fun out h => applyPatterns_margins ops t word out hs he h,
    fun hscan he1 he2 hlen => ?_⟩
  cases hsc : scan ops t word 2147483647 with
  | none => simp [hsc] at hscan
  | some b =>
    obtain ⟨pri, rules⟩ := b
    have hl := (scan_lengths ops t word 2147483647 (pri, rules) hsc).2
    exact applyPatterns_isSome ops t word pri rules hsc hl hs he1 he2 hlen

/-- Witness of C3: the six slots of "hyphen" under the rule `hy1ph`. -/
theorem applyHyphenationRules_length_witness :
    applyHyphenationRules asciiOps tree_hy1ph (unichars "hyphen")
        = some [none, none, some rule_hy1ph, none, none, none] ∧
      [none, none, some rule_hy1ph, none, none, none].length = (unichars "hyphen").length :=
  ⟨by decide,
    (applyHyphenationRules_length asciiOps tree_hy1ph (unichars "hyphen")).1
      [none, none, some rule_hy1ph, none, none, none] (by decide)⟩

/-- Witness of C5: with the margins 2 and 3 the break of "hyphenation" after "hy" is at slot 2,
with 2 letters before it and 9 after it. -/
theorem safe_zones_witness :
    tree_margins_2_3.start_safe ≤ 2147483647 ∧ tree_margins_2_3.end_safe ≤ 2147483647 ∧
      applyHyphenationRules asciiOps tree_margins_2_3 (unichars "hyphenation")
        = some [none, none, some rule_hy1ph, none, none, none, none, none, none, none, none] ∧
      (tree_margins_2_3.start_safe ≤ 2 ∧
        (tree_margins_2_3.end_safe : Int) ≤ ((unichars "hyphenation").length : Int) - ((2 : Nat) : Int)) :=
  ⟨by decide, by decide, by decide,
    ((safe_zones asciiOps tree_margins_2_3 (unichars "hyphenation") (by decide) (by decide)).1
      [none, none, some rule_hy1ph, none, none, none, none, none, none, none, none]
      (by decide)).1 2 rule_hy1ph (by decide)⟩

/-! ## The fixture `1 1 hy2ph` -/

/-- C2, counterexample: with the dictionary text `1 1 hy2ph` the slot of "hyphen" at the gap
after "hy" (slot 2, the break before `p`) is `none`: no break is marked there. -/
theorem fixture_hy2ph_no_break :
    (loadPatterns asciiOps HyphenationTree.new (unichars "1 1 hy2ph")).bind
        (fun t => (applyHyphenationRules asciiOps t (unichars "hyphen")).bind (fun out => out[2]?))
      = some none := by
  decide

/-- C2, as amended: loading the dictionary text `1 1 hy2ph` gives the margins 1 and 1 and
inserts the one rule compiled from `hy2ph`, whose key is `hyph` and whose priority at offset 2,
the gap before `p`, is 2; as 2 is even, `applyHyphenationRules` on "hyphen" marks no break:
all six slots are `none`. -/
theorem fixture_hy2ph :
    loadPatterns asciiOps HyphenationTree.new (unichars "1 1 hy2ph")
        = HyphenationTree.insert asciiOps ⟨HyphenationNode.empty, 1, 1⟩ rule_hy2ph ∧
      HyphenationRule.new (unichars "hy2ph") = some rule_hy2ph ∧
      rule_hy2ph.key = some (unichars "hyph") ∧
      (unichars "hyph")[2]? = some 112 ∧
      rule_hy2ph.hasPriority 2 = true ∧ rule_hy2ph.priority 2 = some 2 ∧
      (loadPatterns asciiOps HyphenationTree.new (unichars "1 1 hy2ph")).bind
          (fun t => some (t.start_safe, t.end_safe)) = some (1, 1) ∧
      (loadPatterns asciiOps HyphenationTree.new (unichars "1 1 hy2ph")).bind
          (fun t => applyHyphenationRules asciiOps t (unichars "hyphen"))
        = some [none, none, none, none, none, none] := by
  refine ⟨rfl, by decide, by decide, by decide, by decide, by decide, by decide, by decide⟩

/-! ## Inputs on which the code leaves its arrays -/

/-- C4, the code at the failing input: the pattern stream `2 3 ` gives the margins 2 and 3;
with them and the empty word the scan completes, `ind_end` is `(uint)(2 - 1 - 3) = 4294967294`,
and the first iteration of the copy loop writes `(*output_rules)[2]` in an empty vector; the
same happens for the word "a". -/
theorem short_word_leaves_output :
    (loadPatterns asciiOps HyphenationTree.new (unichars "2 3 ")).bind
        (fun t => some (t.start_safe, t.end_safe, applyHyphenationRules asciiOps t []))
      = some (2, 3, none) ∧
      (scan asciiOps ⟨HyphenationNode.empty, 2, 3⟩ [] 2147483647).isSome = true ∧
      wrapUInt (((([] : List Nat).length + 2 : Nat) : Int) - 1 - ((3 : Nat) : Int)) = 4294967294 ∧
      copyLoop (List.replicate 5 none) 4294967294 4294967297 3 [] = none ∧
      applyHyphenationRules asciiOps ⟨HyphenationNode.empty, 2, 3⟩ [] = none ∧
      applyHyphenationRules asciiOps ⟨HyphenationNode.empty, 2, 3⟩ (unichars "a") = none := by
  refine ⟨by decide, by decide, by decide, by decide, by decide, by decide⟩

/-- C6, the code at the failing input: with the dictionary text `1 1 1-b` and the word "a-b-b",
whose code units 1 and 3 are not lower-case letters, the slot 3 of the result still holds the
rule: only the neighbourhood of the first such code unit has been cleared. -/
theorem second_punctuation_not_masked :
    (loadPatterns asciiOps HyphenationTree.new (unichars "1 1 1-b")).bind
        (fun t => some (t.start_safe, t.end_safe)) = some (1, 1) ∧
      asciiOps.isLowercaseLetter 45 = false ∧ (unichars "a-b-b")[3]? = some 45 ∧
      (loadPatterns asciiOps HyphenationTree.new (unichars "1 1 1-b")).bind
          (fun t => applyHyphenationRules asciiOps t (unichars "a-b-b"))
        = some [none, none, none, some rule_dash_b, none] := by
  refine ⟨by decide, by decide, by decide, by decide⟩

/-- C10, the code at the failing input: for the token `abc` the first loop pushes three zeros,
a fourth is pushed after it, and the trimming loop pops all four and then calls `back()` on the
empty vector: the constructor has no defined result. -/
theorem all_zero_token_trims_empty :
    scanPattern (unichars "abc") [] [] 0 = (unichars "abc", [0, 0, 0], 0, []) ∧
      trimTrailingZeros ([0, 0, 0] ++ [toChar 0]) = none ∧
      HyphenationRule.new (unichars "abc") = none ∧
      HyphenationRule.new [] = none := by
  refine ⟨by decide, by decide, by decide, by decide⟩

/-! ## Compiled rules: the priority vector and standard rules -/

/-- The first loop pushes one priority per code unit of the key. -/
theorem scanPattern_lengths (token : List Nat) :
    ∀ (key : List Nat) (prios : List Int) (v : Int),
      (scanPattern token key prios v).2.1.length + key.length
        = (scanPattern token key prios v).1.length + prios.length := by
  induction token with
  | nil => intro key prios v; simp [scanPattern, Nat.add_comm]
  | cons c cs ih =>
    intro key prios v
    unfold scanPattern
    split
    · simp [Nat.add_comm]
    · split
      · exact ih _ _ _
      · have := ih (key ++ [c]) (prios ++ [toChar v]) 0
        simp only [List.length_append, List.length_singleton] at this
        omega

/-- The first loop reads a token that holds no `'/'` to its end. -/
theorem scanPattern_rest_nil (token : List Nat) (h : 47 ∉ token) :
    ∀ (key : List Nat) (prios : List Int) (v : Int),
      (scanPattern token key prios v).2.2.2 = [] := by
  induction token with
  | nil => intro key prios v; rfl
  | cons c cs ih =>
    intro key prios v
    have hc : c ≠ 47 := fun e => h (by simp [e])
    have hcs : 47 ∉ cs := fun e => h (List.mem_cons_of_mem _ e)
    unfold scanPattern
    simp only [hc, if_false]
    split
    · exact ih hcs _ _ _
    · exact ih hcs _ _ _

/-- The priority vector of a compiled rule: it is not empty, its last entry is not zero, and
it is the vector that the first loop pushed, with the last `priority`, less some trailing
zeros. -/
theorem new_priorities (token : List Nat) (r : HyphenationRule)
    (h : HyphenationRule.new token = some r) :
    (∃ front p, r.priorities = front ++ [p] ∧ p ≠ 0) ∧
    (∃ k : Nat, (scanPattern token [] [] 0).2.1 ++ [toChar (scanPattern token [] [] 0).2.2.1]
      = r.priorities ++ List.replicate k 0) ∧
    r.priorities.length ≤ (r.key.getD []).length + 1 := by
  obtain ⟨hkey, htrim, _⟩ := new_some token r h
  obtain ⟨k, hk, hlast⟩ := trimTrailingZeros_some _ _ htrim
  refine ⟨hlast, ⟨k, hk⟩, ?_⟩
  rw [hkey, builderString_length]
  have hl := scanPattern_lengths token [] [] 0
  have hk2 := congrArg List.length hk
  simp only [List.length_append, List.length_singleton, List.length_replicate,
    List.length_nil] at hk2 hl
  omega

/-- C11: for every token, the rule that the constructor compiles satisfies
`priorities.length <= key.length + 1` (the length of a `NULL` key is 0), and the last entry of
its priorities, when there is one, is not zero; the priorities of a compiled rule are in fact
never empty, and the constructor does compile a rule for a token without `'/'` that gives a
non-zero priority. -/
theorem priorities_trimmed (token : List Nat) :
    (∀ r : HyphenationRule, HyphenationRule.new token = some r →
      r.priorities.length ≤ (r.key.getD []).length + 1 ∧
      (∀ p : Int, r.priorities.getLast? = some p → p ≠ 0) ∧
      1 ≤ r.priorities.length) ∧
    (47 ∉ token →
      (∃ v ∈ (scanPattern token [] [] 0).2.1 ++ [toChar (scanPattern token [] [] 0).2.2.1],
        v ≠ 0) →
      (HyphenationRule.new token).isSome = true) := by
  refine ⟨fun r hr => ?_, fun h47 hv => ?_⟩
  · obtain ⟨⟨front, p, hp, hp0⟩, _, hlen⟩ := new_priorities token r hr
    refine ⟨hlen, fun q hq => ?_, ?_⟩
    · rw [hp] at hq
      simp only [List.getLast?_append, List.getLast?_singleton] at hq
      have hq1 : p = q := by simpa using hq
      rw [← hq1]
      exact hp0
    · rw [hp]
      simp
  · exact new_isSome_of_no_suffix token (scanPattern_rest_nil token h47 [] [] 0)
      (trimTrailingZeros_isSome _ hv)

/-- Witness of C11: the token `hy2ph` compiles to the key `hyph` and the priorities 0, 0, 2. -/
theorem priorities_trimmed_witness :
    HyphenationRule.new (unichars "hy2ph") = some rule_hy2ph ∧
      rule_hy2ph.priorities.length ≤ (rule_hy2ph.key.getD []).length + 1 ∧
      (2 : Int) ≠ 0 :=
  ⟨by decide,
    ((priorities_trimmed (unichars "hy2ph")).1 rule_hy2ph (by decide)).1,
    ((priorities_trimmed (unichars "hy2ph")).1 rule_hy2ph (by decide)).2.1 2 (by decide)⟩

/-- C12: for every token that holds no `'/'`, the rule that the constructor compiles has
`del_pre = 0`, `skip_post = 0`, no `insert_pre` and no `insert_post`, so `isNonStandard()` is
false and `spaceNeededPreHyphen()` is 0; and the constructor does compile a rule for such a
token when it gives a non-zero priority. -/
theorem standard_rules (token : List Nat) (h47 : 47 ∉ token) :
    (∀ r : HyphenationRule, HyphenationRule.new token = some r →
      r.del_pre = 0 ∧ r.skip_post = 0 ∧ r.insert_pre = none ∧ r.insert_post = none ∧
      r.isNonStandard = false ∧ r.spaceNeededPreHyphen = 0) ∧
    ((∃ v ∈ (scanPattern token [] [] 0).2.1 ++ [toChar (scanPattern token [] [] 0).2.2.1],
        v ≠ 0) →
      (HyphenationRule.new token).isSome = true) := by
  refine ⟨fun r hr => ?_, fun hv => ?_⟩
  · obtain ⟨_, _, hsuf⟩ := new_some token r hr
    rw [scanPattern_rest_nil token h47 [] [] 0] at hsuf
    rcases hsuf with ⟨suffix, hs, _⟩ | ⟨_, h1, h2, h3, h4⟩
    · simp at hs
    · refine ⟨h1, h2, h3, h4, ?_, ?_⟩
      · unfold HyphenationRule.isNonStandard
        simp [h1, h2, h3, h4]
      · unfold HyphenationRule.spaceNeededPreHyphen
        simp [h1, h3]
  · exact new_isSome_of_no_suffix token (scanPattern_rest_nil token h47 [] [] 0)
      (trimTrailingZeros_isSome _ hv)

/-- Witness of C12: the rule of the token `hy1ph` is a standard rule. -/
theorem standard_rules_witness :
    HyphenationRule.new (unichars "hy1ph") = some rule_hy1ph ∧
      rule_hy1ph.isNonStandard = false ∧ rule_hy1ph.spaceNeededPreHyphen = 0 :=
  ⟨by decide,
    ((standard_rules (unichars "hy1ph") (by decide)).1 rule_hy1ph (by decide)).2.2.2.2.1,
    ((standard_rules (unichars "hy1ph") (by decide)).1 rule_hy1ph (by decide)).2.2.2.2.2⟩

/-- C20: for every compiled rule and every offset `i`, `hasPriority(i)` is true if and only if
the rule has a non-zero priority at the offset `i` or at some larger offset, both among the
priorities it stores and among the priorities that its token gives (the vector before the
trailing zeros are removed). -/
theorem hasPriority_iff (token : List Nat) (r : HyphenationRule)
    (h : HyphenationRule.new token = some r) (i : Nat) :
    (r.hasPriority i = true ↔
      ∃ (j : Nat) (v : Int), i ≤ j ∧ r.hasPriority j = true ∧ r.priority j = some v ∧ v ≠ 0) ∧
    (r.hasPriority i = true ↔
      ∃ j : Nat, i ≤ j ∧
        ((scanPattern token [] [] 0).2.1 ++ [toChar (scanPattern token [] [] 0).2.2.1]).getD j 0
          ≠ 0) := by
  obtain ⟨⟨front, p, hp, hp0⟩, ⟨k, hk⟩, _⟩ := new_priorities token r h
  have hlast : r.priorities[front.length]? = some p := by
    rw [hp]
    simp
  have hlen : r.priorities.length = front.length + 1 := by
    rw [hp]
    simp
  have hD : ∀ j : Nat,
      ((scanPattern token [] [] 0).2.1 ++ [toChar (scanPattern token [] [] 0).2.2.1]).getD j 0
        = r.priorities.getD j 0 := fun j => (getD_of_trimmed _ _ k hk j).symm
  unfold HyphenationRule.hasPriority HyphenationRule.priority
  simp only [decide_eq_true_eq]
  refine ⟨⟨fun hi => ?_, ?_⟩, ⟨fun hi => ?_, ?_⟩⟩
  · exact ⟨front.length, p, by omega, by omega, hlast, hp0⟩
  · rintro ⟨j, v, hij, hj, _, _⟩
    omega
  · refine ⟨front.length, by omega, ?_⟩
    rw [hD, List.getD_eq_getElem?_getD, hlast]
    exact hp0
  · rintro ⟨j, hij, hj⟩
    rw [hD, List.getD_eq_getElem?_getD] at hj
    by_contra hn
    rw [List.getElem?_eq_none (by omega)] at hj
    exact hj rfl

/-- Witness of C20: the rule of `hy2ph` has a priority at the offset 1, as its priority at the
offset 2 is 2, and none at the offset 3. -/
theorem hasPriority_iff_witness :
    HyphenationRule.new (unichars "hy2ph") = some rule_hy2ph ∧
      (rule_hy2ph.hasPriority 1 = true ↔
        ∃ (j : Nat) (v : Int), 1 ≤ j ∧ rule_hy2ph.hasPriority j = true ∧
          rule_hy2ph.priority j = some v ∧ v ≠ 0) :=
  ⟨by decide, (hasPriority_iff (unichars "hy2ph") rule_hy2ph (by decide) 1).1⟩

/-! ## The rule compiler: malformed numeric fields -/

/-- Field 3 of the suffix, digits or not: every code unit before the next `','` goes through
the accumulation of `start`. -/
theorem parseSuffix_start_any (f3 rest : List Nat) (h3 : 44 ∉ f3) :
    ∀ (st ct : Nat) (ip iq : List Nat),
      parseSuffix (f3 ++ rest) ⟨3, st, ct, ip, iq⟩
        = parseSuffix rest ⟨3, uintAccumulate st f3, ct, ip, iq⟩ := by
  induction f3 with
  | nil => intro st ct ip iq; rfl
  | cons c cs ih =>
    intro st ct ip iq
    have h44 : c ≠ 44 := fun e => h3 (by simp [e])
    have hcs : 44 ∉ cs := fun e => h3 (List.mem_cons_of_mem _ e)
    rw [List.cons_append, parseSuffix]
    simp only [h44, and_false, if_false, Nat.reduceLeDiff, false_and,
      Nat.reduceEqDiff, if_true, true_and]
    rw [ih hcs]
    rfl

/-- Field 4 of the suffix: the loop ends at the first code unit that is not a digit, and what
follows it is not read. -/
theorem parseSuffix_cut_break (f4 tail : List Nat) (c : Nat)
    (h4 : ∀ d ∈ f4, 48 ≤ d ∧ d ≤ 57) (hc : c < 48 ∨ c > 57) :
    ∀ (st ct : Nat) (ip iq : List Nat), ct < 4294967296 →
      parseSuffix (f4 ++ c :: tail) ⟨4, st, ct, ip, iq⟩
        = ⟨4, st, f4.foldl (fun acc d => 10 * acc + (d - 48)) ct % 4294967296, ip, iq⟩ := by
  induction f4 with
  | nil =>
    intro st ct ip iq hct
    rw [List.nil_append, parseSuffix]
    simp [hc, Nat.mod_eq_of_lt hct]
  | cons d ds ih =>
    intro st ct ip iq hct
    have hd := h4 d (List.mem_cons_self _ _)
    have hds : ∀ x ∈ ds, 48 ≤ x ∧ x ≤ 57 := fun x hx => h4 x (List.mem_cons_of_mem _ hx)
    have hnd : ¬ (d < 48 ∨ d > 57) := by omega
    have hw : wrapUInt ((ct : Int) * 10 + (d : Int) - 48) = (10 * ct + (d - 48)) % 4294967296 := by
      unfold wrapUInt; omega
    rw [List.cons_append, parseSuffix]
    simp only [hnd, and_false, if_false, Nat.reduceLeDiff, false_and,
      Nat.reduceEqDiff, if_true, true_and]
    rw [hw, ih hds _ _ _ _ (Nat.mod_lt _ (by decide)), List.foldl_cons, foldl_decimal_mod]

/-- The rule compiled from a token depends on its suffix through the state in which the suffix
loop ends only. -/
theorem new_congr_suffix (pat s1 s2 : List Nat) (hpat : 47 ∉ pat)
    (h : parseSuffix s1 suffixStartState = parseSuffix s2 suffixStartState) :
    HyphenationRule.new (pat ++ 47 :: s1) = HyphenationRule.new (pat ++ 47 :: s2) := by
  unfold HyphenationRule.new
  rw [scanPattern_slash pat s1 hpat, scanPattern_slash pat s2 hpat]
  simp only [h]

/-- Field 4 of the suffix, followed by nothing or by a code unit that is not a digit: the
digits are read as the decimal value of `cut`, and what follows them is not read. -/
theorem parseSuffix_cut_junk (f4 junk : List Nat) (h4 : ∀ d ∈ f4, 48 ≤ d ∧ d ≤ 57)
    (hjunk : ∀ c ∈ junk.head?, c < 48 ∨ c > 57) (st ct : Nat) (ip iq : List Nat)
    (hct : ct < 4294967296) :
    parseSuffix (f4 ++ junk) ⟨4, st, ct, ip, iq⟩
      = ⟨4, st, f4.foldl (fun acc d => 10 * acc + (d - 48)) ct % 4294967296, ip, iq⟩ := by
  cases junk with
  | nil =>
    rw [List.append_nil]
    exact parseSuffix_cut f4 h4 st ct ip iq hct
  | cons c tail =>
    exact parseSuffix_cut_break f4 tail c h4 (hjunk c (by simp)) st ct ip iq hct

/-- The suffix loop on a suffix with four fields: field 3 is accumulated whatever its code
units are, and field 4 is read up to its first code unit that is not a digit. -/
theorem parseSuffix_suffixOf (pre post f3 f4 junk : List Nat) (hpre : 61 ∉ pre)
    (hpost : 44 ∉ post) (h3 : 44 ∉ f3) (h4 : ∀ d ∈ f4, 48 ≤ d ∧ d ≤ 57)
    (hjunk : ∀ c ∈ junk.head?, c < 48 ∨ c > 57) :
    parseSuffix (suffixOf pre post f3 (f4 ++ junk)) suffixStartState
      = ⟨4, uintAccumulate 0 f3, decimal f4 % 4294967296, pre, post⟩ := by
  unfold suffixOf suffixStartState decimal
  rw [parseSuffix_pre pre _ hpre, parseSuffix_equals, parseSuffix_post post _ hpost,
    parseSuffix_comma2, parseSuffix_start_any f3 _ h3, parseSuffix_comma3,
    parseSuffix_cut_junk f4 junk h4 hjunk _ _ _ _ (by decide)]
  simp

/-- The `del_pre` loop completes after a suffix with four fields when `start` is not 0, and
when `cut` is 0. -/
theorem resolveSuffix_isSome (key_length : Nat) (ps : List Int) (start cut : Nat)
    (ip iq : List Nat) (h : 1 ≤ start ∨ cut = 0) :
    (resolveSuffix key_length ps ⟨4, start, cut, ip, iq⟩).isSome = true := by
  unfold resolveSuffix resolvedCut resolvedStart
  simp only [Nat.lt_irrefl, if_false, Nat.reduceLT]
  by_cases h1 : 1 ≤ start
  · exact delPreLoop_isSome ps _ (Nat.le_of_lt (wrapUInt_lt _)) _ _ _ _ h1
  · have hs : start = 0 := by omega
    have hc : cut = 0 := by
      rcases h with h | h
      · omega
      · exact h
    subst hs hc
    have hb : wrapUInt (((0 : Nat) : Int) + ((0 : Nat) : Int)) = 0 := by decide
    rw [hb]
    cases ps.length with
    | zero => rfl
    | succ n =>
      unfold delPreLoop
      simp

/-- C13, counterexample: a malformed field is not read as 0.  The cut field `2z` of the token
`a1b/x=y,1,2z` is read as 2, and the rule has `del_pre = 1`, `skip_post = 1`, whereas the
token with that field equal to 0 gives `del_pre = 0`, `skip_post = 0`.  The start field `z` of
the token `a1b/x=y,z,1` is read as `'z' - '0'`, that is 74, and the rule has `del_pre = 0`,
`skip_post = 1`, whereas the token with that field equal to 0 has no rule (C14). -/
theorem lenient_fields_counterexample :
    (parseSuffix (unichars "x=y,1,2z") suffixStartState).cut = 2 ∧
      HyphenationRule.new (unichars "a1b/x=y,1,2z")
        = some ⟨1, 1, some (unichars "ab"), some [120], some [121], [0, 1]⟩ ∧
      HyphenationRule.new (unichars "a1b/x=y,1,0")
        = some ⟨0, 0, some (unichars "ab"), some [120], some [121], [0, 1]⟩ ∧
      (parseSuffix (unichars "x=y,z,1") suffixStartState).start = 74 ∧
      HyphenationRule.new (unichars "a1b/x=y,z,1")
        = some ⟨0, 1, some (unichars "ab"), some [120], some [121], [0, 1]⟩ ∧
      HyphenationRule.new (unichars "a1b/x=y,0,1") = none := by
  refine ⟨by decide, by decide, by decide, by decide, by decide, by decide⟩

/-- C13, as amended: for every token with a `'/'`-suffix of four fields `pre=post,f3,f4`, no
field is refused and no malformed field is read as 0.  Every code unit `c` of field 3, digit or
not, goes through `start = start * 10 + c - '0'` in `uint` arithmetic; field 4 is read up to
its first code unit that is not a digit, `cut` being the decimal value (in `uint` arithmetic)
of the digits before it, and what follows is not read, so the token compiles as the token cut
off there.  The `del_pre` and `skip_post` of the compiled rule are those that the loop of
lines 85-89 gives for this `start` and this `cut`, and its inserts are `pre` and `post`.  The
constructor does compile a rule when the pattern part has a non-zero priority and `start` is
not 0 or `cut` is 0. -/
theorem lenient_fields (pat pre post f3 f4 junk : List Nat) (hpat : 47 ∉ pat)
    (hpre : 61 ∉ pre) (hpost : 44 ∉ post) (h3 : 44 ∉ f3)
    (h4 : ∀ d ∈ f4, 48 ≤ d ∧ d ≤ 57) (hjunk : ∀ c ∈ junk.head?, c < 48 ∨ c > 57) :
    parseSuffix (suffixOf pre post f3 (f4 ++ junk)) suffixStartState
        = ⟨4, uintAccumulate 0 f3, decimal f4 % 4294967296, pre, post⟩ ∧
    HyphenationRule.new (pat ++ 47 :: suffixOf pre post f3 (f4 ++ junk))
        = HyphenationRule.new (pat ++ 47 :: suffixOf pre post f3 f4) ∧
    (∀ r : HyphenationRule,
      HyphenationRule.new (pat ++ 47 :: suffixOf pre post f3 (f4 ++ junk)) = some r →
      resolveSuffix (scanPattern pat [] [] 0).1.length r.priorities
          ⟨4, uintAccumulate 0 f3, decimal f4 % 4294967296, pre, post⟩
        = some (r.del_pre, r.skip_post) ∧
      r.insert_pre = builderString pre ∧ r.insert_post = builderString post) ∧
    ((∃ v ∈ (scanPattern pat [] [] 0).2.1 ++ [toChar (scanPattern pat [] [] 0).2.2.1], v ≠ 0) →
      (1 ≤ uintAccumulate 0 f3 ∨ decimal f4 % 4294967296 = 0) →
      (HyphenationRule.new (pat ++ 47 :: suffixOf pre post f3 (f4 ++ junk))).isSome = true) := by
  have hfull := parseSuffix_suffixOf pre post f3 f4 junk hpre hpost h3 h4 hjunk
  have hcut := parseSuffix_suffixOf pre post f3 f4 [] hpre hpost h3 h4 (by simp)
  rw [List.append_nil] at hcut
  have hscan := scanPattern_slash pat (suffixOf pre post f3 (f4 ++ junk)) hpat [] [] 0
  refine ⟨hfull, new_congr_suffix pat _ _ hpat (hfull.trans hcut.symm), fun r hr => ?_,
    fun hv hstart => ?_⟩
  · obtain ⟨_, _, hsuf⟩ := new_some _ r hr
    rw [hscan] at hsuf
    rcases hsuf with ⟨suffix1, hs1, hres, hip, hiq⟩ | ⟨hno, _⟩
    · simp only [List.cons.injEq, true_and] at hs1
      subst hs1
      rw [hfull] at hres hip hiq
      exact ⟨hres, hip, hiq⟩
    · exact absurd rfl (hno _)
  · have ht := trimTrailingZeros_isSome _ hv
    cases htt : trimTrailingZeros
        ((scanPattern pat [] [] 0).2.1 ++ [toChar (scanPattern pat [] [] 0).2.2.1]) with
    | none => simp [htt] at ht
    | some ps =>
      apply new_isSome_of_suffix _ (suffixOf pre post f3 (f4 ++ junk)) ps
      · rw [hscan]
      · rw [hscan]; exact htt
      · rw [hscan, hfull]
        exact resolveSuffix_isSome _ ps _ _ pre post hstart

/-- Witness of C13: the token `a1b/x=y,1,2z` has the start field `1` and the cut field `2z`;
the constructor compiles it, to the rule of `a1b/x=y,1,2`, which has `del_pre = 1` and
`skip_post = 1`. -/
theorem lenient_fields_witness :
    unichars "a1b/x=y,1,2z"
        = unichars "a1b" ++ 47 :: suffixOf (unichars "x") (unichars "y") (unichars "1")
            (unichars "2" ++ unichars "z") ∧
      (HyphenationRule.new (unichars "a1b" ++ 47 :: suffixOf (unichars "x") (unichars "y")
        (unichars "1") (unichars "2" ++ unichars "z"))).isSome = true ∧
      HyphenationRule.new (unichars "a1b/x=y,1,2z")
        = some ⟨1, 1, some (unichars "ab"), some [120], some [121], [0, 1]⟩ :=
  ⟨by decide,
    (lenient_fields (unichars "a1b") (unichars "x") (unichars "y") (unichars "1")
      (unichars "2") (unichars "z") (by decide) (by decide) (by decide) (by decide)
      (by decide) (by decide)).2.2.2 (by decide) (by decide),
    by decide⟩

/-! ## The rule compiler: a start field equal to 0 -/

/-- C14, the code at the failing input: for the token `a1b/x=y,0,1` the resolved values are
`start = 0` and `cut = 1`; the `del_pre` loop starts with `j = 0`, passes its condition
(`0 < 1` and `0 < 2`) and reads `priorities[j-1]`, whose `uint` index is 4294967295, in a
vector of two entries.  The same happens for `a1b/x=y,`, where `start = 0` and `cut = 2`. -/
theorem start_zero_leaves_priorities :
    trimTrailingZeros [0, 1, 0] = some [0, 1] ∧
      resolvedStart (parseSuffix (unichars "x=y,0,1") suffixStartState) = 0 ∧
      resolvedCut 2 (parseSuffix (unichars "x=y,0,1") suffixStartState) = 1 ∧
      wrapUInt (((0 : Nat) : Int) - 1) = 4294967295 ∧
      delPreLoop [0, 1] 1 2 0 0 1 = none ∧
      HyphenationRule.new (unichars "a1b/x=y,0,1") = none ∧
      resolvedStart (parseSuffix (unichars "x=y,") suffixStartState) = 0 ∧
      resolvedCut 2 (parseSuffix (unichars "x=y,") suffixStartState) = 2 ∧
      HyphenationRule.new (unichars "a1b/x=y,") = none := by
  refine ⟨by decide, by decide, by decide, by decide, by decide, by decide, by decide,
    by decide, by decide⟩

/-! ## The trie as a finite map -/

/-- C15, counterexample: the key of the rule compiled from `a`, 0, `1`, `b` is `a`, 0, `b`,
which lower-casing leaves as it is; after `insert` the walk of that key from the root reaches
no node, and the rule is held by the node of the key `a`: the walk of `insert` ends at the code
unit 0. -/
theorem insert_nul_counterexample :
    HyphenationRule.new [97, 0, 49, 98] = some rule_nul ∧
      asciiOps.lowercase [97, 0, 98] = [97, 0, 98] ∧
      (HyphenationTree.insert asciiOps HyphenationTree.new rule_nul).bind
          (fun t => some (t.root.ruleAt [97, 0, 98], t.root.ruleAt [97]))
        = some (none, some rule_nul) := by
  refine ⟨by decide, by decide, by decide⟩

/-- C15, as amended: the trie behaves as a finite map from lower-cased key to the last rule
inserted under it, for keys that are not empty, keep their length when lower-cased and hold no
code unit 0 once lower-cased (`insert` walks the key as a 0-terminated array): `insert(r)`
completes, the node reached by walking `lowercase(r.key)` from the root then holds `r`,
whatever was stored there before (so of two rules with keys equal up to case the later one
replaces the earlier), the rule stored under every other key is unchanged, that is the stored
rules are those of the finite map of the specification, and the lookup of a child after a
child has been set is that of a map for every code unit, in the array `'a'..'z'` or in the
sparse map. -/
theorem insert_finite_map (ops : CharOps) (t : HyphenationTree) (r : HyphenationRule)
    (key : List Nat) (hkey : r.key = some key)
    (hlen : (ops.lowercase key).length = key.length) (hnul : 0 ∉ ops.lowercase key) :
    ∃ t1 : HyphenationTree, t.insert ops r = some t1 ∧
      t1.root.ruleAt (ops.lowercase key) = some r ∧
      (∀ q : List Nat, q ≠ ops.lowercase key → t1.root.ruleAt q = t.root.ruleAt q) ∧
      t1.root.ruleAt = specTrieInsert t.root.ruleAt (ops.lowercase key) r ∧
      (∀ (r2 : HyphenationRule) (key2 : List Nat) (t2 : HyphenationTree), r2.key = some key2 →
        ops.lowercase key2 = ops.lowercase key → (ops.lowercase key2).length = key2.length →
        t1.insert ops r2 = some t2 → t2.root.ruleAt (ops.lowercase key) = some r2) ∧
      (∀ (node p : HyphenationNode) (c c1 : Nat),
        (node.setChild c p).find c1 = if c1 = c then some p else node.find c1) ∧
      t1.start_safe = t.start_safe ∧ t1.end_safe = t.end_safe := by
  have hpath : ∀ (k : List Nat), (ops.lowercase k).length = k.length → 0 ∉ ops.lowercase k →
      ((ops.lowercase k).take k.length).takeWhile (fun c => c ≠ 0) = ops.lowercase k := by
    intro k hl h0
    rw [List.take_of_length_le (Nat.le_of_eq hl), List.takeWhile_eq_self_iff]
    intro x hx
    have : x ≠ 0 := fun e => h0 (e ▸ hx)
    simpa using this
  have hins : ∀ (t0 : HyphenationTree) (r0 : HyphenationRule) (k : List Nat), r0.key = some k →
      (ops.lowercase k).length = k.length →
      t0.insert ops r0
        = some { t0 with root := t0.root.insert ((ops.lowercase k).take k.length) r0 } := by
    intro t0 r0 k hk hl
    unfold HyphenationTree.insert
    simp [hk, hl]
  have hrule : ∀ q : List Nat,
      (t.root.insert ((ops.lowercase key).take key.length) r).ruleAt q
        = if q = ops.lowercase key then some r else t.root.ruleAt q := by
    intro q
    rw [HyphenationNode.ruleAt_insert, hpath key hlen hnul]
  refine ⟨_, hins t r key hkey hlen, ?_, ?_, ?_, ?_, ?_, rfl, rfl⟩
  · simp only [hrule, if_true]
  · intro q hq
    simp only [hrule, hq, if_false]
  · funext q
    simp only [hrule, specTrieInsert]
  · intro r2 key2 t2 hk2 he hl2 h2
    rw [hins _ r2 key2 hk2 hl2] at h2
    simp only [Option.some.injEq] at h2
    subst h2
    simp only
    rw [HyphenationNode.ruleAt_insert, hpath key2 hl2 (he ▸ hnul), he]
    simp
  · intro node p c c1
    exact HyphenationNode.find_setChild node c p c1

/-- Witness of C15: the rule `hy1ph` inserted in the fresh tree is stored under `hyph`. -/
theorem insert_finite_map_witness :
    (HyphenationTree.new.insert asciiOps rule_hy1ph).bind
        (fun t1 => t1.root.ruleAt (asciiOps.lowercase (unichars "hyph")))
      = some rule_hy1ph := by
  obtain ⟨t1, h1, h2, _⟩ := insert_finite_map asciiOps HyphenationTree.new rule_hy1ph
    (unichars "hyph") (by decide) (by decide) (by decide)
  rw [h1]
  exact h2

/-! ## Loading a pattern stream -/

/-- The loop of `loadPatterns` on the characters of a token: they are appended to `pattern`,
and `numeric` stays true as long as they are digits. -/
theorem loadLoop_token (ops : CharOps) (token : List Nat) (hns : ∀ ch ∈ token, ¬ isSpace ch) :
    ∀ (rest pattern : List Nat) (numeric : Bool) (num_field : Nat) (t : HyphenationTree),
      loadLoop ops (token ++ rest) ⟨pattern, numeric, num_field, t⟩
        = loadLoop ops rest
            ⟨pattern ++ token,
              numeric && decide (∀ ch ∈ token, 48 ≤ ch ∧ ch ≤ 57), num_field, t⟩ := by
  induction token with
  | nil => intro rest pattern numeric num_field t; simp
  | cons c cs ih =>
    intro rest pattern numeric num_field t
    have hc : ¬ (c = 10 ∨ c = 13 ∨ c = 9 ∨ c = 32) := hns c (List.mem_cons_self _ _)
    have hcs : ∀ ch ∈ cs, ¬ isSpace ch := fun x hx => hns x (List.mem_cons_of_mem _ hx)
    rw [List.cons_append, loadLoop]
    simp only [hc, if_false]
    rw [ih hcs]
    congr 2
    · simp
    · by_cases hd : c < 48 ∨ c > 57
      · have : ¬ (48 ≤ c ∧ c ≤ 57) := by omega
        simp [hd, this]
      · have : 48 ≤ c ∧ c ≤ 57 := by omega
        simp [hd, this]

/-- The loop of `loadPatterns` on a token followed by a white-space character. -/
theorem loadLoop_step (ops : CharOps) (token : List Nat) (space : Nat) (rest : List Nat)
    (hns : ∀ ch ∈ token, ¬ isSpace ch) (hs : isSpace space) (num_field : Nat)
    (t : HyphenationTree) :
    loadLoop ops (token ++ space :: rest) ⟨[], true, num_field, t⟩
      = match loadToken ops (t, num_field) token with
        | none => none
        | some state1 => loadLoop ops rest ⟨[], true, state1.2, state1.1⟩ := by
  rw [loadLoop_token ops token hns, loadLoop]
  have hs1 : space = 10 ∨ space = 13 ∨ space = 9 ∨ space = 32 := hs
  simp only [hs1, if_true, List.nil_append, Bool.true_and, decide_eq_true_eq]
  unfold loadToken
  cases token with
  | nil => simp
  | cons c cs =>
    simp only [List.length_cons, ne_eq, Nat.add_one_ne_zero, not_false_eq_true, true_and,
      reduceCtorEq, if_false]
    by_cases hnum : (∀ ch ∈ c :: cs, 48 ≤ ch ∧ ch ≤ 57) ∧ num_field ≤ 1
    · simp only [if_pos hnum]
      cases atoi (c :: cs) <;> rfl
    · simp only [if_neg hnum]
      cases insertToken ops t (c :: cs) <;> rfl

/-- The loop of `loadPatterns` on a stream in which every token is followed by white space. -/
theorem loadLoop_streamOf (ops : CharOps) :
    ∀ (tokens : List (List Nat × Nat)) (num_field : Nat) (t : HyphenationTree),
      (∀ e ∈ tokens, (∀ ch ∈ e.1, ¬ isSpace ch) ∧ isSpace e.2) →
      loadLoop ops (streamOf tokens) ⟨[], true, num_field, t⟩
        = match loadTokens ops (tokens.map Prod.fst) (t, num_field) with
          | none => none
          | some state1 => some ⟨[], true, state1.2, state1.1⟩ := by
  intro tokens
  induction tokens with
  | nil => intro num_field t _; rfl
  | cons e rest ih =>
    intro num_field t h
    obtain ⟨token, space⟩ := e
    have he := h (token, space) (List.mem_cons_self _ _)
    have hrest : ∀ e ∈ rest, (∀ ch ∈ e.1, ¬ isSpace ch) ∧ isSpace e.2 :=
      fun x hx => h x (List.mem_cons_of_mem _ hx)
    simp only [streamOf, List.map_cons, loadTokens]
    rw [loadLoop_step ops token space _ he.1 he.2]
    cases loadToken ops (t, num_field) token with
    | none => rfl
    | some state1 => exact ih state1.2 state1.1 hrest

/-- C16, the code at the failing input: in the stream `1 1 5 ` the tokens `1` and `1` set the
two margins; the third numeric token `5` is compiled to a rule whose key is `NULL`, as no code
unit was written to the key builder, and `HyphenationTree::insert` calls `CFStringGetLength` on
that `NULL` key: the load has no defined result. -/
theorem third_numeric_token_null_key :
    (loadPatterns asciiOps HyphenationTree.new (unichars "1 1 ")).bind
        (fun t => some (t.start_safe, t.end_safe)) = some (1, 1) ∧
      HyphenationRule.new (unichars "5") = some rule_5 ∧
      rule_5.key = none ∧
      (HyphenationTree.insert asciiOps ⟨HyphenationNode.empty, 1, 1⟩ rule_5).isNone = true ∧
      (loadPatterns asciiOps HyphenationTree.new (unichars "1 1 5 ")).isNone = true := by
  refine ⟨by decide, by decide, by decide, by decide, by decide⟩

/-- C17, counterexample: in the stream `1 a1b 3 ` the numeric token `3` comes after the
non-numeric token `a1b`; it sets `end_safe` to 3 and is not compiled as a rule: the only rule
of the dictionary is that of `a1b`, and no rule is stored under the empty key. -/
theorem margin_after_rule_counterexample :
    (loadPatterns asciiOps HyphenationTree.new (unichars "1 a1b 3 ")).bind
        (fun t => some (t.start_safe, t.end_safe, t.root.ruleAt [],
          t.root.ruleAt (unichars "ab")))
      = some (1, 3, none, some rule_a1b) := by
  decide

/-- C17, as amended: for every pattern stream in which each token is followed by white space,
a purely numeric token sets a margin exactly when fewer than two purely numeric tokens have
been read before it, whatever non-numeric tokens precede it: the first purely numeric token of
the stream sets `start_safe`, the second sets `end_safe`, and only the later ones are handed to
the rule compiler. -/
theorem margins_by_count (ops : CharOps) (tokens : List (List Nat × Nat))
    (t : HyphenationTree)
    (h : ∀ e ∈ tokens, (∀ ch ∈ e.1, ¬ isSpace ch) ∧ isSpace e.2) :
    loadPatterns ops t (streamOf tokens)
        = (loadTokens ops (tokens.map Prod.fst) (t, 0)).map Prod.fst ∧
      (∀ (state : HyphenationTree × Nat) (token : List Nat), token ≠ [] →
        (∀ ch ∈ token, 48 ≤ ch ∧ ch ≤ 57) →
        (state.2 = 0 →
          loadToken ops state token
            = (atoi token).map (fun v => ({ state.1 with start_safe := v }, 1))) ∧
        (state.2 = 1 →
          loadToken ops state token
            = (atoi token).map (fun v => ({ state.1 with end_safe := v }, 2))) ∧
        (2 ≤ state.2 →
          loadToken ops state token
            = (insertToken ops state.1 token).map (fun t1 => (t1, state.2)))) := by
  refine ⟨?_, fun state token hne hdig => ⟨fun h0 => ?_, fun h1 => ?_, fun h2 => ?_⟩⟩
  · unfold loadPatterns
    rw [loadLoop_streamOf ops tokens 0 t h]
    cases loadTokens ops (tokens.map Prod.fst) (t, 0) with
    | none => rfl
    | some state1 => simp
  · obtain ⟨tr, nf⟩ := state
    simp only at h0
    subst h0
    unfold loadToken
    have hc : (∀ ch ∈ token, 48 ≤ ch ∧ ch ≤ 57) ∧ (0 : Nat) ≤ 1 := ⟨hdig, by omega⟩
    rw [if_neg hne, if_pos hc]
    cases atoi token <;> simp
  · obtain ⟨tr, nf⟩ := state
    simp only at h1
    subst h1
    unfold loadToken
    have hc : (∀ ch ∈ token, 48 ≤ ch ∧ ch ≤ 57) ∧ (1 : Nat) ≤ 1 := ⟨hdig, by omega⟩
    rw [if_neg hne, if_pos hc]
    cases atoi token <;> simp
  · unfold loadToken
    have hc : ¬ ((∀ ch ∈ token, 48 ≤ ch ∧ ch ≤ 57) ∧ state.2 ≤ 1) := fun hh => by omega
    rw [if_neg hne, if_neg hc]
    cases insertToken ops state.1 token <;> rfl

/-- Witness of C17: the stream `1 a1b 3 ` is the tokens `1`, `a1b` and `3`, each followed by a
space. -/
theorem margins_by_count_witness :
    loadPatterns asciiOps HyphenationTree.new
        (streamOf [(unichars "1", 32), (unichars "a1b", 32), (unichars "3", 32)])
      = (loadTokens asciiOps
          ([(unichars "1", 32), (unichars "a1b", 32), (unichars "3", 32)].map Prod.fst)
          (HyphenationTree.new, 0)).map Prod.fst :=
  (margins_by_count asciiOps [(unichars "1", 32), (unichars "a1b", 32), (unichars "3", 32)]
    HyphenationTree.new (by decide)).1


/-! ## Case folding of the queried word -/

/-- The result of `applyPatterns(word, stop_at)` depends on the word only through its length
and its lower-cased copy. -/
theorem applyPatternsUpTo_congr (ops : CharOps) (t : HyphenationTree) (word1 word2 : List Nat)
    (stop_at : Nat) (hlen : word1.length = word2.length)
    (hlow : lowerCased ops word1 = lowerCased ops word2) :
    applyPatternsUpTo ops t word1 stop_at = applyPatternsUpTo ops t word2 stop_at := by
  simp only [applyPatternsUpTo, scan, characters, hlen, hlow]

/-- The lower-cased copy of a word is its folding, when the folding leaves the strings without
upper-case letters as they are. -/
theorem lowerCased_eq_lowercase (ops : CharOps) (w : List Nat)
    (hid : w.any ops.isUppercaseLetter = false → ops.lowercase w = w) :
    lowerCased ops w = ops.lowercase w := by
  unfold lowerCased
  cases h : w.any ops.isUppercaseLetter with
  | true => simp
  | false => simp [hid h]

/-- The ASCII folding leaves a string without upper-case letters as it is. -/
theorem asciiOps_identity (w : List Nat) (h : w.any asciiOps.isUppercaseLetter = false) :
    asciiOps.lowercase w = w := by
  induction w with
  | nil => rfl
  | cons c cs ih =>
    simp only [asciiOps, List.any_cons, Bool.or_eq_false_iff, decide_eq_false_iff_not] at h
    have ih1 : List.map (fun c => if 65 ≤ c ∧ c ≤ 90 then c + 32 else c) cs = cs := by
      apply ih
      simpa [asciiOps] using h.2
    simp only [asciiOps, List.map_cons, if_neg h.1]
    exact congrArg (List.cons c) ih1

/-- The result of the ASCII folding holds no upper-case letter. -/
theorem asciiOps_lowercase_lower (w : List Nat) :
    (asciiOps.lowercase w).any asciiOps.isUppercaseLetter = false := by
  induction w with
  | nil => rfl
  | cons c cs ih =>
    have ih1 : (List.map (fun c => if 65 ≤ c ∧ c ≤ 90 then c + 32 else c) cs).any
        (fun c => decide (65 ≤ c ∧ c ≤ 90)) = false := ih
    simp only [asciiOps, List.map_cons, List.any_cons, Bool.or_eq_false_iff,
      decide_eq_false_iff_not]
    refine ⟨?_, ih1⟩
    split <;> omega

/-- The ASCII folding keeps the length of every string. -/
theorem asciiOps_length (w : List Nat) : (asciiOps.lowercase w).length = w.length := by
  simp [asciiOps]

/-- The query of a word and the query of its folding return the same thing, when the folding
keeps the length of the word, leaves the strings without upper-case letters as they are and
folds the folded word to itself. -/
theorem applyPatterns_lowercase (ops : CharOps) (t : HyphenationTree) (w : List Nat)
    (hlen : (ops.lowercase w).length = w.length)
    (hid : ∀ v : List Nat, v.any ops.isUppercaseLetter = false → ops.lowercase v = v)
    (hidem : ops.lowercase (ops.lowercase w) = ops.lowercase w) :
    applyPatterns ops t w = applyPatterns ops t (ops.lowercase w) := by
  unfold applyPatterns
  apply applyPatternsUpTo_congr ops t w (ops.lowercase w) 2147483647 hlen.symm
  rw [lowerCased_eq_lowercase ops w (hid w),
    lowerCased_eq_lowercase ops (ops.lowercase w) (hid (ops.lowercase w)), hidem]

/-- C18: for every dictionary and every word `w`, with a lower-case folding (the folded word
holds no upper-case letter) that keeps the length of `w` and leaves the strings without
upper-case letters as they are, the query of `w` and the query of the folded `w` return the
same thing: the same slots hold the same rules, and one is undefined exactly when the other
is.  The ASCII folding is such a folding, so with it the equality holds for every dictionary
and every word. -/
theorem case_insensitive_query :
    (∀ (ops : CharOps) (t : HyphenationTree) (w : List Nat),
      (ops.lowercase w).length = w.length →
      (∀ v : List Nat, v.any ops.isUppercaseLetter = false → ops.lowercase v = v) →
      (ops.lowercase w).any ops.isUppercaseLetter = false →
      applyHyphenationRules ops t w = applyHyphenationRules ops t (ops.lowercase w)) ∧
    (∀ (t : HyphenationTree) (w : List Nat),
      applyHyphenationRules asciiOps t w
        = applyHyphenationRules asciiOps t (asciiOps.lowercase w)) := by
  have key : ∀ (ops : CharOps) (t : HyphenationTree) (w : List Nat),
      (ops.lowercase w).length = w.length →
      (∀ v : List Nat, v.any ops.isUppercaseLetter = false → ops.lowercase v = v) →
      (ops.lowercase w).any ops.isUppercaseLetter = false →
      applyHyphenationRules ops t w = applyHyphenationRules ops t (ops.lowercase w) :=
    fun ops t w hlen hid hlower =>
      applyPatterns_lowercase ops t w hlen hid (hid (ops.lowercase w) hlower)
  exact ⟨key, fun t w => key asciiOps t w (asciiOps_length w) asciiOps_identity
    (asciiOps_lowercase_lower w)⟩

/-- Witness of C18: with the ASCII folding and the dictionary holding `hy1ph`, the word
`HYphen` gets the same answer as `hyphen`, a break before the `p`. -/
theorem case_insensitive_query_witness :
    (asciiOps.lowercase (unichars "HYphen")).length = (unichars "HYphen").length ∧
    (asciiOps.lowercase (unichars "HYphen")).any asciiOps.isUppercaseLetter = false ∧
    asciiOps.lowercase (unichars "HYphen") = unichars "hyphen" ∧
    applyHyphenationRules asciiOps tree_hy1ph (unichars "hyphen")
      = some [none, none, some rule_hy1ph, none, none, none] ∧
    applyHyphenationRules asciiOps tree_hy1ph (unichars "HYphen")
      = applyHyphenationRules asciiOps tree_hy1ph (asciiOps.lowercase (unichars "HYphen")) :=
  ⟨by decide, by decide, by decide, by decide,
    case_insensitive_query.1 asciiOps tree_hy1ph (unichars "HYphen") (by decide)
      asciiOps_identity (by decide)⟩

/-! ## Applying the first part of a rule -/

/-- C19: `create_applied_string_first` never deletes a letter.  Its result is the whole prefix
followed by `insert_pre` and the hyphen, so its length exceeds
`len(prefix) + len(hyphen) + spaceNeededPreHyphen()` by `del_pre`.  For the rule of
`schif3fahrt/ff=f,5,2` (where `del_pre` is 1 and `spaceNeededPreHyphen()` is 1), the prefix
`schif` and the hyphen `-` it returns `schifff-` of length 8, not `schiff-` of length 7. -/
theorem applied_first_keeps_prefix :
    (∀ (r : HyphenationRule) (word hyph : List Nat),
      ((r.create_applied_string_first word hyph).length : Int)
        = (word.length : Int) + (hyph.length : Int) + r.spaceNeededPreHyphen + r.del_pre ∧
      word <+: r.create_applied_string_first word hyph) ∧
    HyphenationRule.new (unichars "schif3fahrt/ff=f,5,2") = some rule_schiff ∧
    rule_schiff.del_pre = 1 ∧
    rule_schiff.spaceNeededPreHyphen = 1 ∧
    rule_schiff.create_applied_string_first (unichars "schif") (unichars "-")
      = unichars "schifff-" ∧
    (unichars "schif").dropLast ++ unichars "ff" ++ unichars "-" = unichars "schiff-" ∧
    (rule_schiff.create_applied_string_first (unichars "schif") (unichars "-")).length = 8 ∧
    (unichars "schif").length + (unichars "-").length + 1 = 7 := by
  refine ⟨?_, by decide, by decide, by decide, by decide, by decide, by decide, by decide⟩
  intro r word hyph
  unfold HyphenationRule.create_applied_string_first HyphenationRule.spaceNeededPreHyphen
  cases r.insert_pre with
  | none => simp
  | some ip =>
    refine ⟨?_, ?_⟩
    · simp only [List.length_append]
      push_cast
      ring
    · exact ⟨ip ++ hyph, by simp⟩

/-! ## The last token of a pattern stream -/

/-- The loop of `loadPatterns` on tokens, each followed by white space, and then more
characters. -/
theorem loadLoop_streamOf_append (ops : CharOps) (rest : List Nat) :
    ∀ (tokens : List (List Nat × Nat)) (num_field : Nat) (t : HyphenationTree),
      (∀ e ∈ tokens, (∀ ch ∈ e.1, ¬ isSpace ch) ∧ isSpace e.2) →
      loadLoop ops (streamOf tokens ++ rest) ⟨[], true, num_field, t⟩
        = match loadTokens ops (tokens.map Prod.fst) (t, num_field) with
          | none => none
          | some state1 => loadLoop ops rest ⟨[], true, state1.2, state1.1⟩ := by
  intro tokens
  induction tokens with
  | nil => intro num_field t _; rfl
  | cons e more ih =>
    intro num_field t h
    obtain ⟨token, space⟩ := e
    have he := h (token, space) (List.mem_cons_self _ _)
    have hmore : ∀ e ∈ more, (∀ ch ∈ e.1, ¬ isSpace ch) ∧ isSpace e.2 :=
      fun x hx => h x (List.mem_cons_of_mem _ hx)
    simp only [streamOf, List.map_cons, loadTokens, List.append_assoc, List.cons_append]
    rw [loadLoop_step ops token space _ he.1 he.2]
    cases loadToken ops (t, num_field) token with
    | none => rfl
    | some state1 => exact ih state1.2 state1.1 hmore

/-- C25: a last token that no white space follows is handed to the rule compiler and to
`insert` whatever it is made of and however many margins have been read: the load of the
tokens before it, then `insertToken`.  So the stream `2 a1b` gives the margins 2 and 1 and
the rule of `a1b`, and `2 3 ` gives the margins 2 and 3.  On the stream `2 3` the margins are 2
and 1 when the last token `3` is compiled; the rule it compiles to has a `NULL` key, on which
`HyphenationTree::insert` calls `CFStringGetLength`: the load has no defined result, and no
rule is inserted. -/
theorem last_token_compiled :
    (∀ (ops : CharOps) (tokens : List (List Nat × Nat)) (last : List Nat) (t : HyphenationTree),
      (∀ e ∈ tokens, (∀ ch ∈ e.1, ¬ isSpace ch) ∧ isSpace e.2) →
      last ≠ [] → (∀ ch ∈ last, ¬ isSpace ch) →
      loadPatterns ops t (streamOf tokens ++ last)
        = (loadTokens ops (tokens.map Prod.fst) (t, 0)).bind
            (fun state => insertToken ops state.1 last)) ∧
    (loadPatterns asciiOps HyphenationTree.new (unichars "2 3 ")).bind
        (fun t => some (t.start_safe, t.end_safe)) = some (2, 3) ∧
    (loadPatterns asciiOps HyphenationTree.new (unichars "2 ")).bind
        (fun t => some (t.start_safe, t.end_safe)) = some (2, 1) ∧
    HyphenationRule.new (unichars "3") = some rule_3 ∧
    rule_3.key = none ∧
    (HyphenationTree.insert asciiOps ⟨HyphenationNode.empty, 2, 1⟩ rule_3).isNone = true ∧
    (loadPatterns asciiOps HyphenationTree.new (unichars "2 3")).isNone = true := by
  refine ⟨fun ops tokens last t h hne hns => ?_, by decide, by decide, by decide, by decide,
    by decide, by decide⟩
  unfold loadPatterns
  rw [loadLoop_streamOf_append ops last tokens 0 t h]
  cases loadTokens ops (tokens.map Prod.fst) (t, 0) with
  | none => rfl
  | some state1 =>
    have hl := loadLoop_token ops last hns [] [] true state1.2 state1.1
    rw [List.append_nil] at hl
    simp only [hl, loadLoop, List.nil_append, Option.bind]
    have hlen : last.length ≠ 0 := fun e => hne (List.length_eq_zero.mp e)
    simp [hlen]

/-- C25, instance: the stream `2 a1b` is the token `2` followed by a space and the last token
`a1b`; it gives the margins 2 and 1 and the rule of `a1b`. -/
theorem last_token_compiled_witness :
    loadPatterns asciiOps HyphenationTree.new (streamOf [(unichars "2", 32)] ++ unichars "a1b")
        = (loadTokens asciiOps ([(unichars "2", 32)].map Prod.fst) (HyphenationTree.new, 0)).bind
            (fun state => insertToken asciiOps state.1 (unichars "a1b")) ∧
      (loadPatterns asciiOps HyphenationTree.new (unichars "2 a1b")).bind
          (fun t => some (t.start_safe, t.end_safe, t.root.ruleAt (unichars "ab")))
        = some (2, 1, some rule_a1b) :=
  ⟨last_token_compiled.1 asciiOps [(unichars "2", 32)] (unichars "a1b") HyphenationTree.new
    (by decide) (by decide) (by decide), by decide⟩

/-! ## The scan as a row of applications -/

theorem applyAll_append (L1 L2 : List Application) (b : HyphenationNode.Buffers) :
    applyAll (L1 ++ L2) b = (applyAll L1 b).bind (applyAll L2) := by
  induction L1 generalizing b with
  | nil => rfl
  | cons e rest ih =>
    simp only [List.cons_append, applyAll]
    cases HyphenationNode.applyRule e.2.2 e.1 e.2.2.priorities 0 b with
    | none => rfl
    | some b1 => exact ih b1

/-- The path of an application plays no part in what it does to the buffers. -/
theorem applyAll_map_path (f : List Nat → List Nat) (L : List Application)
    (b : HyphenationNode.Buffers) :
    applyAll (L.map (fun e => (e.1, f e.2.1, e.2.2))) b = applyAll L b := by
  induction L generalizing b with
  | nil => rfl
  | cons e rest ih =>
    simp only [List.map_cons, applyAll]
    cases HyphenationNode.applyRule e.2.2 e.1 e.2.2.priorities 0 b with
    | none => rfl
    | some b1 => exact ih b1

namespace HyphenationNode

theorem applyHere_eq_applyAll (node : HyphenationNode) (base : Nat) (b : Buffers) :
    node.applyHere base b = applyAll (node.matchedHere.map (fun e => (base, e.1, e.2))) b := by
  unfold applyHere matchedHere
  cases node.hyphenation_pattern with
  | none => rfl
  | some R =>
    simp only [List.map_cons, List.map_nil, applyAll]
    cases applyRule R base R.priorities 0 b <;> rfl

/-- The member `apply_patterns` makes the applications of `matched`, in that order. -/
theorem apply_patterns_eq_applyAll (base : Nat) :
    ∀ (to_match : List Nat) (node : HyphenationNode) (b : Buffers),
      node.apply_patterns base to_match b
        = applyAll ((node.matched to_match).map (fun e => (base, e.1, e.2))) b := by
  intro to_match
  induction to_match with
  | nil =>
    intro node b
    simp only [apply_patterns, matched]
    exact applyHere_eq_applyAll node base b
  | cons key rest ih =>
    intro node b
    unfold apply_patterns matched
    by_cases hk : key ≠ 0
    · simp only [hk, ne_eq, not_false_eq_true, if_true]
      cases hf : node.find key with
      | none =>
        simp only [List.nil_append]
        exact applyHere_eq_applyAll node base b
      | some next =>
        simp only [List.map_append, List.map_map, applyAll_append]
        have h1 : applyAll
            (List.map ((fun e => (base, e.1, e.2)) ∘ fun e => (key :: e.1, e.2))
              (next.matched rest)) b
            = next.apply_patterns base rest b := by
          rw [ih next b]
          exact applyAll_map_path (fun p => key :: p)
            ((next.matched rest).map (fun e => (base, e.1, e.2))) b ▸ by
              simp only [List.map_map]
              rfl
        rw [h1]
        cases next.apply_patterns base rest b with
        | none => rfl
        | some b1 => exact applyHere_eq_applyAll node base b1
    · simp only [hk, if_false, List.nil_append]
      exact applyHere_eq_applyAll node base b

end HyphenationNode

/-- The scan loop makes the applications of `scanOrder`, in that order. -/
theorem scanLoop_eq_applyAll (root : HyphenationNode) (characters : List Nat)
    (w_size stop_at : Nat) :
    ∀ (n fuel i : Nat) (b : HyphenationNode.Buffers), n < fuel →
      i + n = max i (min (w_size - 1) (stop_at + 1)) →
      scanLoop root characters w_size stop_at fuel i b
        = applyAll (scanOrder root characters n i) b := by
  intro n
  induction n with
  | zero =>
    intro fuel i b hf hn
    cases fuel with
    | zero => omega
    | succ fuel =>
      unfold scanLoop
      have hc : ¬ (i < w_size - 1 ∧ i ≤ stop_at) := by omega
      simp only [hc, if_false, scanOrder, applyAll]
  | succ n ih =>
    intro fuel i b hf hn
    cases fuel with
    | zero => omega
    | succ fuel =>
      unfold scanLoop
      have hc : i < w_size - 1 ∧ i ≤ stop_at := by omega
      simp only [hc, and_self, if_true, scanOrder, applyAll_append]
      rw [← HyphenationNode.apply_patterns_eq_applyAll]
      cases root.apply_patterns i (characters.drop i) b with
      | none => rfl
      | some b1 => exact ih fuel (i + 1) b1 (by omega) (by omega)

/-! ## The first writer keeps its entry -/

namespace HyphenationNode

/-- The loop of lines 183-187 leaves the rule of every entry whose priority it leaves. -/
theorem applyRule_keep (R : HyphenationRule) (base : Nat) :
    ∀ (ps : List Int) (i : Nat) (b b1 : Buffers), applyRule R base ps i b = some b1 →
      ∀ k : Nat, b1.1.getD k 0 = b.1.getD k 0 → b1.2.getD k none = b.2.getD k none := by
  intro ps
  induction ps with
  | nil =>
    intro i b b1 h k _
    simp only [applyRule, Option.some.injEq] at h
    subst h
    rfl
  | cons p ps ih =>
    intro i b b1 h k hk
    obtain ⟨pri, rules⟩ := b
    unfold applyRule at h
    cases hcur : pri[base + i]? with
    | none => simp [hcur] at h
    | some cur =>
      simp only [hcur] at h
      have hlt : base + i < pri.length := by
        by_contra hn
        rw [List.getElem?_eq_none (Nat.le_of_not_lt hn)] at hcur
        simp at hcur
      have hcurD : pri.getD (base + i) 0 = cur := by
        rw [List.getD_eq_getElem?_getD, hcur]; rfl
      by_cases hc : cur < p
      · simp only [hc, if_true] at h
        by_cases hr : base + i < rules.length
        · simp only [hr, if_true] at h
          have hmono := (applyRule_step R base ps (i + 1) _ b1 h).2.2.1 k
          simp only at hmono hk
          by_cases e : k = base + i
          · subst e
            simp only [getD_set, hlt, and_self, if_true] at hmono
            rw [hk, hcurD] at hmono
            omega
          · have h1 := ih (i + 1) _ b1 h k
            simp only [getD_set, e, false_and, if_false] at h1
            exact h1 hk
        · simp [hr] at h
      · simp only [hc, if_false] at h
        exact ih (i + 1) _ b1 h k hk

end HyphenationNode

/-- What a row of applications does to the buffers, as a step of the scan. -/
theorem applyAll_step :
    ∀ (L : List Application) (b b1 : HyphenationNode.Buffers), applyAll L b = some b1 →
      Step (fun R k v => ∃ e ∈ L, e.2.2 = R ∧ e.priorityAt k = some v) b b1 := by
  intro L
  induction L with
  | nil =>
    intro b b1 h
    simp only [applyAll, Option.some.injEq] at h
    subst h
    exact Step.nothing _ _ (fun R k v hv => by simp at hv)
  | cons e rest ih =>
    intro b b1 h
    unfold applyAll at h
    cases h2 : HyphenationNode.applyRule e.2.2 e.1 e.2.2.priorities 0 b with
    | none => simp [h2] at h
    | some b2 =>
      simp only [h2] at h
      refine Step.weaken _ _ _ _
        (Step.followed _ _ _ _ _ (HyphenationNode.applyRule_step _ _ _ _ _ _ h2) (ih b2 b1 h))
        (fun R k v => ?_)
      have hpa : ∀ v : Int, (∃ j : Nat, k = e.1 + 0 + j ∧ e.2.2.priorities[j]? = some v)
          ↔ e.priorityAt k = some v := by
        intro v
        unfold Application.priorityAt
        constructor
        · rintro ⟨j, hj, hv⟩
          have h1 : e.1 ≤ k := by omega
          have h2 : k - e.1 = j := by omega
          simp only [h1, if_true, h2, hv]
        · intro hv
          by_cases h1 : e.1 ≤ k
          · simp only [h1, if_true] at hv
            exact ⟨k - e.1, by omega, hv⟩
          · simp [h1] at hv
      constructor
      · rintro (⟨e1, hj⟩ | ⟨e0, he0, e1, e2⟩)
        · exact ⟨e, List.mem_cons_self _ _, e1.symm, (hpa v).mp hj⟩
        · exact ⟨e0, List.mem_cons_of_mem _ he0, e1, e2⟩
      · rintro ⟨e0, he0, e1, e2⟩
        rcases List.mem_cons.mp he0 with h0 | h0
        · subst h0
          exact Or.inl ⟨e1.symm, (hpa v).mpr e2⟩
        · exact Or.inr ⟨e0, h0, e1, e2⟩

/-- A row of applications leaves the rule of every entry whose priority it leaves. -/
theorem applyAll_keep :
    ∀ (L : List Application) (b b1 : HyphenationNode.Buffers), applyAll L b = some b1 →
      ∀ k : Nat, b1.1.getD k 0 = b.1.getD k 0 → b1.2.getD k none = b.2.getD k none := by
  intro L
  induction L with
  | nil =>
    intro b b1 h k _
    simp only [applyAll, Option.some.injEq] at h
    subst h
    rfl
  | cons e rest ih =>
    intro b b1 h k hk
    unfold applyAll at h
    cases h2 : HyphenationNode.applyRule e.2.2 e.1 e.2.2.priorities 0 b with
    | none => simp [h2] at h
    | some b2 =>
      simp only [h2] at h
      have hm1 := (HyphenationNode.applyRule_step _ _ _ _ _ _ h2).2.2.1 k
      have hm2 := (applyAll_step rest b2 b1 h).2.2.1 k
      have e2 : b2.1.getD k 0 = b.1.getD k 0 := by omega
      have e1 : b1.1.getD k 0 = b2.1.getD k 0 := by omega
      rw [ih b2 b1 h k e1]
      exact HyphenationNode.applyRule_keep _ _ _ _ _ _ h2 k e2

/-- The first writer keeps its entry: when the priority stored at the gap `k` after a row of
applications is `v`, above the priority stored before, the rule stored there is that of the
first application of the row that gives `v` to the gap. -/
theorem applyAll_first (L1 L2 : List Application) (e : Application)
    (b b1 : HyphenationNode.Buffers) (h : applyAll (L1 ++ e :: L2) b = some b1) (k : Nat)
    (v : Int) (hv : e.priorityAt k = some v) (hfinal : b1.1.getD k 0 = v)
    (hinit : b.1.getD k 0 < v) (hfirst : ∀ e1 ∈ L1, e1.priorityAt k ≠ some v) :
    b1.2.getD k none = mark e.2.2 v := by
  rw [applyAll_append] at h
  cases h1 : applyAll L1 b with
  | none => simp [h1] at h
  | some b2 =>
    simp only [h1, Option.bind] at h
    have hcons : applyAll [e] b2 = HyphenationNode.applyRule e.2.2 e.1 e.2.2.priorities 0 b2 := by
      simp only [applyAll]
      cases HyphenationNode.applyRule e.2.2 e.1 e.2.2.priorities 0 b2 <;> rfl
    have happ : applyAll (e :: L2) b2 = (applyAll [e] b2).bind (applyAll L2) :=
      applyAll_append [e] L2 b2
    rw [happ] at h
    cases h3 : applyAll [e] b2 with
    | none => simp [h3] at h
    | some b3 =>
      simp only [h3, Option.bind] at h
      obtain ⟨_, _, m1, _, s1⟩ := applyAll_step L1 b b2 h1
      obtain ⟨_, _, m2, c2, s2⟩ := applyAll_step [e] b2 b3 h3
      obtain ⟨_, _, m3, _, _⟩ := applyAll_step L2 b3 b1 h
      have hb2 : b2.1.getD k 0 < v := by
        rcases s1 k with ⟨e1, _⟩ | ⟨R, ⟨e0, he0, _, hp⟩, _⟩
        · rw [e1]; exact hinit
        · have hle : b2.1.getD k 0 ≤ v := by
            have := m2 k
            have := m3 k
            omega
          rcases lt_or_eq_of_le hle with hlt | heq
          · exact hlt
          · rw [heq] at hp
            exact (hfirst e0 he0 hp).elim
      have hb3 : b3.1.getD k 0 = v := by
        have h4 := c2 e.2.2 k v ⟨e, List.mem_singleton_self _, rfl, hv⟩
        have := m3 k
        omega
      have hr3 : b3.2.getD k none = mark e.2.2 v := by
        rcases s2 k with ⟨e1, _⟩ | ⟨R, ⟨e0, he0, hR, _⟩, hm⟩
        · omega
        · rw [List.mem_singleton.mp he0] at hR
          rw [hm, hb3, hR]
      rw [applyAll_keep L2 b3 b1 h k (by omega), hr3]

/-! ## The order of the applications -/

namespace HyphenationNode

theorem mem_matchedHere (node : HyphenationNode) (p : List Nat) (R : HyphenationRule) :
    (p, R) ∈ node.matchedHere ↔ p = [] ∧ node.hyphenation_pattern = some R := by
  unfold matchedHere
  cases node.hyphenation_pattern with
  | none => simp
  | some R1 =>
    simp only [List.mem_singleton, Prod.mk.injEq, Option.some.injEq]
    constructor
    · rintro ⟨h1, h2⟩
      exact ⟨h1, h2.symm⟩
    · rintro ⟨h1, h2⟩
      exact ⟨h1, h2.symm⟩

/-- The applications of `apply_patterns` are the rules stored under the prefixes of `to_match`
that hold no code unit 0. -/
theorem mem_matched :
    ∀ (to_match : List Nat) (node : HyphenationNode) (p : List Nat) (R : HyphenationRule),
      (p, R) ∈ node.matched to_match ↔ p <+: to_match ∧ 0 ∉ p ∧ node.ruleAt p = some R := by
  intro to_match
  induction to_match with
  | nil =>
    intro node p R
    simp only [matched, mem_matchedHere, List.prefix_nil]
    constructor
    · rintro ⟨h1, h2⟩
      subst h1
      exact ⟨rfl, by simp, h2⟩
    · rintro ⟨h1, _, h2⟩
      subst h1
      exact ⟨rfl, h2⟩
  | cons key rest ih =>
    intro node p R
    unfold matched
    rw [List.mem_append, mem_matchedHere]
    cases p with
    | nil =>
      have hno : ¬ (([] : List Nat), R) ∈
          (if key ≠ 0 then
            match node.find key with
            | some next => (matched next rest).map (fun e => (key :: e.1, e.2))
            | none => []
          else []) := by
        intro hmem
        split at hmem
        · split at hmem
          · simp at hmem
          · simp at hmem
        · simp at hmem
      constructor
      · rintro (h | ⟨_, h⟩)
        · exact (hno h).elim
        · exact ⟨List.nil_prefix, by simp, h⟩
      · rintro ⟨_, _, h⟩
        exact Or.inr ⟨rfl, h⟩
    | cons c cs =>
      rw [ruleAt_cons]
      constructor
      · rintro (h | ⟨h, _⟩)
        · split at h
          · rename_i hk
            split at h
            · rename_i next hf
              simp only [List.mem_map, Prod.mk.injEq, List.cons.injEq, Prod.exists] at h
              obtain ⟨q, R1, hq, ⟨e1, e2⟩, e3⟩ := h
              subst e1 e2 e3
              obtain ⟨h1, h2, h3⟩ := (ih next q R1).mp hq
              refine ⟨List.cons_prefix_cons.mpr ⟨rfl, h1⟩, ?_, ?_⟩
              · intro hm
                rcases List.mem_cons.mp hm with e | e
                · exact hk e.symm
                · exact h2 e
              · rw [hf]
                exact h3
            · simp at h
          · simp at h
        · simp at h
      · rintro ⟨h1, h2, h3⟩
        obtain ⟨e1, hpre⟩ := List.cons_prefix_cons.mp h1
        subst e1
        have hk : c ≠ 0 := fun e => h2 (by simp [e])
        have h0 : 0 ∉ cs := fun hm => h2 (List.mem_cons_of_mem _ hm)
        left
        simp only [hk, ne_eq, not_false_eq_true, if_true]
        cases hf : node.find c with
        | none => simp [hf] at h3
        | some next =>
          simp only [hf] at h3
          rw [List.mem_map]
          exact ⟨(cs, R), (ih next cs R).mpr ⟨hpre, h0, h3⟩, rfl⟩

/-- The applications of `apply_patterns` come by decreasing length of the path. -/
theorem matched_sorted :
    ∀ (to_match : List Nat) (node : HyphenationNode),
      (node.matched to_match).Pairwise (fun a b => b.1.length < a.1.length) := by
  have hhere : ∀ node : HyphenationNode,
      node.matchedHere.Pairwise (fun a b => b.1.length < a.1.length) := by
    intro node
    unfold matchedHere
    cases node.hyphenation_pattern <;> simp
  intro to_match
  induction to_match with
  | nil => intro node; exact hhere node
  | cons key rest ih =>
    intro node
    unfold matched
    rw [List.pairwise_append]
    refine ⟨?_, hhere node, ?_⟩
    · split
      · split
        · rename_i next _
          rw [List.pairwise_map]
          exact (ih next).imp (fun h => by simpa using h)
        · exact List.Pairwise.nil
      · exact List.Pairwise.nil
    · intro a ha b hb
      obtain ⟨q, R⟩ := b
      rw [mem_matchedHere] at hb
      rw [hb.1]
      split at ha
      · split at ha
        · simp only [List.mem_map] at ha
          obtain ⟨x, _, hx⟩ := ha
          rw [← hx]
          simp
        · simp at ha
      · simp at ha

end HyphenationNode

/-- The applications of the scan loop are those of `apply_patterns` at the offsets that it
visits. -/
theorem mem_scanOrder (root : HyphenationNode) (characters : List Nat) :
    ∀ (n i o : Nat) (p : List Nat) (R : HyphenationRule),
      (o, p, R) ∈ scanOrder root characters n i
        ↔ i ≤ o ∧ o < i + n ∧ (p, R) ∈ root.matched (characters.drop o) := by
  intro n
  induction n with
  | zero =>
    intro i o p R
    simp only [scanOrder, List.not_mem_nil, false_iff]
    omega
  | succ n ih =>
    intro i o p R
    simp only [scanOrder, List.mem_append, List.mem_map, Prod.mk.injEq, Prod.exists, ih]
    constructor
    · rintro (⟨q, R1, hq, e1, e2, e3⟩ | ⟨h1, h2, h3⟩)
      · subst e1 e2 e3
        exact ⟨Nat.le_refl _, by omega, hq⟩
      · exact ⟨by omega, by omega, h3⟩
    · rintro ⟨h1, h2, h3⟩
      by_cases e : o = i
      · subst e
        exact Or.inl ⟨p, R, h3, rfl, rfl, rfl⟩
      · exact Or.inr ⟨by omega, by omega, h3⟩

/-- The applications of the scan loop come by increasing start offset and, at one offset, by
decreasing length of the path. -/
theorem scanOrder_sorted (root : HyphenationNode) (characters : List Nat) :
    ∀ (n i : Nat), (scanOrder root characters n i).Pairwise
      (fun a b => a.1 < b.1 ∨ (a.1 = b.1 ∧ b.2.1.length < a.2.1.length)) := by
  intro n
  induction n with
  | zero => intro i; exact List.Pairwise.nil
  | succ n ih =>
    intro i
    simp only [scanOrder]
    rw [List.pairwise_append]
    refine ⟨?_, ih (i + 1), ?_⟩
    · rw [List.pairwise_map]
      exact (HyphenationNode.matched_sorted _ root).imp (fun h => Or.inr ⟨rfl, h⟩)
    · intro a ha b hb
      simp only [List.mem_map] at ha
      obtain ⟨x, _, hx⟩ := ha
      obtain ⟨o, p, R⟩ := b
      have := ((mem_scanOrder root characters n (i + 1) o p R).mp hb).1
      rw [← hx]
      left
      simp only
      omega

/-! ## Ties between rules -/

/-- The scan of a word makes the applications of `scanOrder` on the buffers that `calloc`
returns. -/
theorem scan_eq_applyAll (ops : CharOps) (t : HyphenationTree) (word : List Nat)
    (stop_at : Nat) (b : HyphenationNode.Buffers) (h : scan ops t word stop_at = some b) :
    applyAll
        (scanOrder t.root (characters ops word) (min (word.length + 1) (stop_at + 1)) 0)
        (List.replicate (word.length + 2 + 2) 0, List.replicate (word.length + 2 + 3) none)
      = some b := by
  unfold scan at h
  by_cases hl : (lowerCased ops word).length < word.length
  · simp [hl] at h
  · simp only [hl, if_false] at h
    rw [← h]
    exact (scanLoop_eq_applyAll t.root (characters ops word) (word.length + 2) stop_at
      (min (word.length + 1) (stop_at + 1)) (word.length + 2) 0 _ (by omega) (by omega)).symm

/-- In C, `v % 2 == 1` holds for the positive odd `v` only. -/
theorem tmod_two_pos (v : Int) (h : Int.tmod v 2 = 1) : 0 < v := by
  cases v with
  | ofNat n =>
    cases n with
    | zero => simp at h
    | succ n => exact Int.ofNat_succ_pos n
  | negSucc n =>
    have h2 : Int.tmod (Int.negSucc n) 2 = -(((n + 1) % 2 : Nat) : Int) := rfl
    rw [h2] at h
    omega

/-- The applications of the scan of a word are the anchored rules. -/
theorem mem_scanOrder_anchored (ops : CharOps) (t : HyphenationTree) (word : List Nat)
    (stop_at : Nat) (R : HyphenationRule) (o : Nat) (p : List Nat) (k : Nat) (v : Int) :
    ((o, p, R) ∈ scanOrder t.root (characters ops word)
        (min (word.length + 1) (stop_at + 1)) 0 ∧
      Application.priorityAt (o, p, R) k = some v)
      ↔ Anchored ops t word stop_at R o p k v := by
  unfold Anchored Application.priorityAt
  rw [mem_scanOrder, HyphenationNode.mem_matched]
  constructor
  · rintro ⟨⟨_, h2, h3, h4, h5⟩, h6⟩
    by_cases hk : o ≤ k
    · simp only [hk, if_true] at h6
      exact ⟨by omega, by omega, h3, h4, h5, hk, h6⟩
    · simp [hk] at h6
  · rintro ⟨h1, h2, h3, h4, h5, h6, h7⟩
    refine ⟨⟨Nat.zero_le _, by omega, h3, h4, h5⟩, ?_⟩
    simp only [h6, if_true]
    exact h7

/-- C23: a rule whose priority at a gap equals the value already stored there changes neither
the stored priority nor the stored rule; and after the scan of a word, when the rule `R`,
anchored at the start offset `o` under the key `p`, has at the gap `k` a priority `v` that is
odd and maximal among the rules the scan applies there, and every rule that the scan applies
with the same priority at `k` is anchored at a larger start offset, or at `o` under a key that
is not longer, then the priority stored at `k` is `v` and the slot `k` holds `R`. -/
theorem first_writer_keeps_slot (ops : CharOps) (t : HyphenationTree) (word : List Nat)
    (stop_at : Nat) (pri : List Int) (rules : List (Option HyphenationRule))
    (hscan : scan ops t word stop_at = some (pri, rules)) :
    (∀ (R : HyphenationRule) (base j : Nat) (v : Int) (b b1 : HyphenationNode.Buffers),
      HyphenationNode.applyRule R base R.priorities 0 b = some b1 →
      R.priorities[j]? = some v → b.1.getD (base + j) 0 = v →
      b1.1.getD (base + j) 0 = v ∧ b1.2.getD (base + j) none = b.2.getD (base + j) none) ∧
    (∀ (R : HyphenationRule) (o : Nat) (p : List Nat) (k : Nat) (v : Int),
      Anchored ops t word stop_at R o p k v → Int.tmod v 2 = 1 →
      (∀ (R1 : HyphenationRule) (o1 : Nat) (p1 : List Nat) (v1 : Int),
        Anchored ops t word stop_at R1 o1 p1 k v1 → v1 ≤ v) →
      (∀ (R1 : HyphenationRule) (o1 : Nat) (p1 : List Nat),
        Anchored ops t word stop_at R1 o1 p1 k v →
        o < o1 ∨ (o = o1 ∧ p1.length ≤ p.length)) →
      pri.getD k 0 = v ∧ rules.getD k none = some R) := by
  constructor
  · intro R base j v b b1 h hj hb
    obtain ⟨_, _, _, _, s⟩ := HyphenationNode.applyRule_step R base R.priorities 0 b b1 h
    have hpri : b1.1.getD (base + j) 0 = v := by
      rcases s (base + j) with ⟨e1, _⟩ | ⟨R1, ⟨_, j1, e2, e3⟩, _⟩
      · rw [e1, hb]
      · have : j1 = j := by omega
        subst this
        rw [hj] at e3
        exact (Option.some.inj e3).symm
    exact ⟨hpri, HyphenationNode.applyRule_keep R base R.priorities 0 b b1 h (base + j)
      (by rw [hpri, hb])⟩
  · intro R o p k v hanch hodd hmax hfirst
    have hall := scan_eq_applyAll ops t word stop_at (pri, rules) hscan
    have hmem := (mem_scanOrder_anchored ops t word stop_at R o p k v).mpr hanch
    obtain ⟨L1, L2, hL⟩ := List.append_of_mem hmem.1
    have hsorted := scanOrder_sorted t.root (characters ops word)
      (min (word.length + 1) (stop_at + 1)) 0
    rw [hL] at hall hsorted
    have hbefore := (List.pairwise_append.mp hsorted).2.2
    obtain ⟨_, _, _, hcov, hsound⟩ := applyAll_step _ _ _ hall
    simp only at hcov hsound
    have hinit : (List.replicate (word.length + 2 + 2) (0 : Int)).getD k 0 = 0 := by
      rw [List.getD_eq_getElem?_getD, List.getElem?_replicate]
      split <;> rfl
    have hpos := tmod_two_pos v hodd
    have hge : v ≤ pri.getD k 0 :=
      hcov R k v ⟨(o, p, R), by simp, rfl, hmem.2⟩
    have hle : pri.getD k 0 ≤ v := by
      rcases hsound k with ⟨e1, _⟩ | ⟨R1, ⟨e0, he0, _, hp0⟩, _⟩
      · rw [e1, hinit]
        omega
      · obtain ⟨o1, p1, R2⟩ := e0
        rw [← hL] at he0
        exact hmax R2 o1 p1 _
          ((mem_scanOrder_anchored ops t word stop_at R2 o1 p1 k _).mp ⟨he0, hp0⟩)
    have hfinal : pri.getD k 0 = v := by omega
    refine ⟨hfinal, ?_⟩
    have hres := applyAll_first L1 L2 (o, p, R) _ (pri, rules) hall k v hmem.2 hfinal
      (by rw [hinit]; exact hpos)
      (fun e1 he1 hp1 => by
        obtain ⟨o1, p1, R1⟩ := e1
        have hin : (o1, p1, R1) ∈ scanOrder t.root (characters ops word)
            (min (word.length + 1) (stop_at + 1)) 0 := by
          rw [hL]
          exact List.mem_append_left _ he1
        have ha := (mem_scanOrder_anchored ops t word stop_at R1 o1 p1 k v).mp ⟨hin, hp1⟩
        have h1 := hfirst R1 o1 p1 ha
        have h2 := hbefore (o1, p1, R1) he1 (o, p, R) (List.mem_cons_self _ _)
        simp only at h2
        omega)
    rw [hres]
    simp only [mark, hodd, if_true]

/-- The rules of the dictionary `tree_tie`, with the keys under which they are stored. -/
theorem tree_tie_rules (p : List Nat) (R : HyphenationRule)
    (h : tree_tie.root.ruleAt p = some R) :
    (p = unichars "a" ∧ R = rule_a1) ∨ (p = unichars "ab" ∧ R = rule_a1b) ∨
      (p = unichars "b" ∧ R = rule_1b) := by
  unfold tree_tie at h
  simp only [HyphenationNode.ruleAt_insert, HyphenationNode.ruleAt_empty] at h
  split at h
  · rename_i hp
    exact Or.inl ⟨hp.trans (by decide), (Option.some.inj h).symm⟩
  · split at h
    · rename_i hp
      exact Or.inr (Or.inl ⟨hp.trans (by decide), (Option.some.inj h).symm⟩)
    · split at h
      · rename_i hp
        exact Or.inr (Or.inr ⟨hp.trans (by decide), (Option.some.inj h).symm⟩)
      · simp at h

/-- Witness of C23: in the word `ab` the rules `a1b`, `a1` and `1b` give the priority 1 to the
gap 2 of the padded word, the first two anchored at the offset 1 and the third at the offset
2; the slot holds the rule `a1b`, anchored at the smallest offset under the longest key,
though it was neither the first nor the last rule inserted. -/
theorem first_writer_keeps_slot_witness :
    scan asciiOps tree_tie (unichars "ab") 2147483647
        = some ([0, 0, 1, 0, 0, 0], [none, none, some rule_a1b, none, none, none, none]) ∧
      Anchored asciiOps tree_tie (unichars "ab") 2147483647 rule_a1b 1 (unichars "ab") 2 1 ∧
      Anchored asciiOps tree_tie (unichars "ab") 2147483647 rule_a1 1 (unichars "a") 2 1 ∧
      Anchored asciiOps tree_tie (unichars "ab") 2147483647 rule_1b 2 (unichars "b") 2 1 ∧
      (([0, 0, 1, 0, 0, 0] : List Int).getD 2 0 = 1 ∧
        ([none, none, some rule_a1b, none, none, none, none] :
          List (Option HyphenationRule)).getD 2 none = some rule_a1b) :=
  ⟨by decide, by unfold Anchored; decide, by unfold Anchored; decide,
    by unfold Anchored; decide,
    (first_writer_keeps_slot asciiOps tree_tie (unichars "ab") 2147483647 [0, 0, 1, 0, 0, 0]
      [none, none, some rule_a1b, none, none, none, none] (by decide)).2
      rule_a1b 1 (unichars "ab") 2 1 (by unfold Anchored; decide) (by decide)
      (fun R1 o1 p1 v1 h => by
        obtain ⟨_, _, _, _, hr, hk, hv⟩ := h
        have ho : o1 = 0 ∨ o1 = 1 ∨ o1 = 2 := by omega
        rcases tree_tie_rules p1 R1 hr with ⟨_, e⟩ | ⟨_, e⟩ | ⟨_, e⟩ <;> subst e <;>
          rcases ho with e | e | e <;> subst e <;>
          simp [rule_a1, rule_a1b, rule_1b] at hv <;> omega)
      (fun R1 o1 p1 h => by
        obtain ⟨_, _, hpre, _, hr, hk, hv⟩ := h
        have ho : o1 = 0 ∨ o1 = 1 ∨ o1 = 2 := by omega
        rcases tree_tie_rules p1 R1 hr with ⟨e1, _⟩ | ⟨e1, _⟩ | ⟨e1, _⟩ <;> subst e1 <;>
          rcases ho with e | e | e <;> subst e <;>
          first
            | exact Or.inl (by decide)
            | exact Or.inr ⟨rfl, by decide⟩
            | exact absurd hpre (by decide))⟩

/-! ## The scan stays in its arrays -/

namespace HyphenationNode

/-- The loop as it is written is the loop on the list of the priorities: the guard
`hasPriority(i)` keeps every read `priority(i)` inside the vector. -/
theorem applyRuleLoop_eq (R : HyphenationRule) (base : Nat) :
    ∀ (n fuel i : Nat) (b : Buffers), i + n = R.priorities.length → n < fuel →
      applyRuleLoop R base fuel i b = applyRule R base (R.priorities.drop i) i b := by
  intro n
  induction n with
  | zero =>
    intro fuel i b hn hf
    cases fuel with
    | zero => omega
    | succ fuel =>
      obtain ⟨pri, rules⟩ := b
      have hd : R.priorities.drop i = [] := List.drop_eq_nil_of_le (by omega)
      have hh : ¬ (R.hasPriority i = true) := by
        unfold HyphenationRule.hasPriority
        simp only [decide_eq_true_eq]
        omega
      rw [hd]
      simp only [applyRuleLoop, hh, if_false, applyRule, Bool.false_eq_true]
  | succ n ih =>
    intro fuel i b hn hf
    cases fuel with
    | zero => omega
    | succ fuel =>
      obtain ⟨pri, rules⟩ := b
      have hi : i < R.priorities.length := by omega
      have hd : R.priorities.drop i = R.priorities[i] :: R.priorities.drop (i + 1) :=
        List.drop_eq_getElem_cons hi
      have hh : R.hasPriority i = true := by
        unfold HyphenationRule.hasPriority
        simp only [decide_eq_true_eq]
        omega
      have hp : R.priority i = some R.priorities[i] := by
        unfold HyphenationRule.priority
        exact List.getElem?_eq_getElem hi
      rw [hd]
      simp only [applyRuleLoop, hh, if_true, hp, applyRule]
      cases pri[base + i]? with
      | none => rfl
      | some cur =>
        simp only
        split
        · split
          · exact ih fuel (i + 1) _ (by omega) (by omega)
          · rfl
        · exact ih fuel (i + 1) _ (by omega) (by omega)

/-- The loop of lines 183-187 completes when the arrays hold an entry for each priority. -/
theorem applyRule_isSome (R : HyphenationRule) (base : Nat) :
    ∀ (ps : List Int) (i : Nat) (b : Buffers), base + i + ps.length ≤ b.1.length →
      base + i + ps.length ≤ b.2.length → (applyRule R base ps i b).isSome = true := by
  intro ps
  induction ps with
  | nil => intro i b _ _; rfl
  | cons p ps ih =>
    intro i b h1 h2
    obtain ⟨pri, rules⟩ := b
    simp only [List.length_cons] at h1 h2
    have hlt : base + i < pri.length := by omega
    unfold applyRule
    rw [List.getElem?_eq_getElem hlt]
    simp only
    split
    · have hr : base + i < rules.length := by omega
      simp only [hr, if_true]
      exact ih (i + 1) _ (by simp only [List.length_set]; omega)
        (by simp only [List.length_set]; omega)
    · exact ih (i + 1) _ (by simp only; omega) (by simp only; omega)

end HyphenationNode

/-- A row of applications completes when the arrays hold an entry for each priority of each
application. -/
theorem applyAll_isSome (n : Nat) :
    ∀ (L : List Application) (b : HyphenationNode.Buffers),
      (∀ e ∈ L, e.1 + e.2.2.priorities.length ≤ n) → n ≤ b.1.length → n ≤ b.2.length →
      (applyAll L b).isSome = true := by
  intro L
  induction L with
  | nil => intro b _ _ _; rfl
  | cons e rest ih =>
    intro b hL h1 h2
    have he := hL e (List.mem_cons_self _ _)
    have hsome := HyphenationNode.applyRule_isSome e.2.2 e.1 e.2.2.priorities 0 b
      (by omega) (by omega)
    unfold applyAll
    cases h3 : HyphenationNode.applyRule e.2.2 e.1 e.2.2.priorities 0 b with
    | none => simp [h3] at hsome
    | some b1 =>
      obtain ⟨l1, l2, _⟩ := HyphenationNode.applyRule_step _ _ _ _ _ _ h3
      exact ih b1 (fun x hx => hL x (List.mem_cons_of_mem _ hx)) (by omega) (by omega)

/-- In a dictionary built from tokens whose key holds no code unit 0, a rule has at most one
priority more than the path under which it is stored has code units. -/
theorem Loaded.fits (ops : CharOps) (t : HyphenationTree) (h : Loaded ops t) :
    ∀ (p : List Nat) (R : HyphenationRule), t.root.ruleAt p = some R →
      R.priorities.length ≤ p.length + 1 := by
  induction h with
  | fresh s e =>
    intro p R hp
    simp [HyphenationNode.ruleAt_empty] at hp
  | insert t t1 token pattern key _ hnew hkey hnul hins ih =>
    intro p R hp
    unfold HyphenationTree.insert at hins
    simp only [hkey] at hins
    by_cases hlen : (ops.lowercase key).length < key.length
    · simp [hlen] at hins
    · simp only [hlen, if_false, Option.some.injEq] at hins
      subst hins
      simp only at hp
      rw [HyphenationNode.ruleAt_insert] at hp
      by_cases e : p = ((ops.lowercase key).take key.length).takeWhile (fun c => c ≠ 0)
      · simp only [e, if_true, Option.some.injEq] at hp
        subst hp
        have hall : ((ops.lowercase key).take key.length).takeWhile (fun c => c ≠ 0)
            = (ops.lowercase key).take key.length := by
          rw [List.takeWhile_eq_self_iff]
          intro x hx
          have : x ≠ 0 := fun e0 => hnul (e0 ▸ List.mem_of_mem_take hx)
          simpa using this
        have hprio := (new_priorities token pattern hnew).2.2
        rw [hkey] at hprio
        simp only [Option.getD_some] at hprio
        rw [e, hall, List.length_take]
        omega
      · simp only [e, if_false] at hp
        exact ih p R hp
  | margins t s e _ ih =>
    intro p R hp
    exact ih p R hp

/-- The scan loop completes on arrays that hold an entry for each priority of each rule
that it applies. -/
theorem scanLoop_isSome (ops : CharOps) (t : HyphenationTree) (word : List Nat)
    (stop_at : Nat)
    (hfit : ∀ (p : List Nat) (R : HyphenationRule), t.root.ruleAt p = some R →
      R.priorities.length ≤ p.length + 1)
    (b : HyphenationNode.Buffers) (h1 : word.length + 2 + 1 ≤ b.1.length)
    (h2 : word.length + 2 + 1 ≤ b.2.length) :
    (scanLoop t.root (characters ops word) (word.length + 2) stop_at (word.length + 2) 0
      b).isSome = true := by
  rw [scanLoop_eq_applyAll t.root (characters ops word) (word.length + 2) stop_at
    (min (word.length + 1) (stop_at + 1)) (word.length + 2) 0 b (by omega) (by omega)]
  refine applyAll_isSome (word.length + 2 + 1) _ b (fun e he => ?_) h1 h2
  obtain ⟨o, p, R⟩ := e
  obtain ⟨_, ho, hm⟩ := (mem_scanOrder _ _ _ _ _ _ _).mp he
  obtain ⟨hpre, _, hr⟩ := (HyphenationNode.mem_matched _ _ _ _).mp hm
  have hlenp := hpre.length_le
  have hfitR := hfit p R hr
  have hchars : (characters ops word).length ≤ word.length + 2 := by
    unfold characters
    simp only [List.length_cons, List.length_append, List.length_take, List.length_nil]
    omega
  simp only [List.length_drop] at hlenp
  simp only
  omega

/-- C22: for every dictionary built by compiling tokens whose key holds no code unit 0 and
inserting the rules, and for every word, the scan loop completes on arrays of
`paddedLength + 1` entries, where a read or a write outside an array has no result: every
index that it uses lies in `0..paddedLength`; so does the scan of `applyPatterns` on its own
arrays.  The loop of `apply_patterns` as it is written, in which `priority(i)` is read under
the guard `hasPriority(i)` only, makes no read outside the priorities.  A token whose key
holds the code unit 0 breaks the bound: the rule of the token `a`, 0, `b`, `c`, `1` has five
priorities and is stored under `a`, and the scan of the word `a` reads and writes `pri[5]` in
the array `pri` of five entries. -/
theorem scan_bounds :
    (∀ (ops : CharOps) (t : HyphenationTree) (word : List Nat) (stop_at : Nat), Loaded ops t →
      (scanLoop t.root (characters ops word) (word.length + 2) stop_at (word.length + 2) 0
        (List.replicate (word.length + 2 + 1) 0,
          List.replicate (word.length + 2 + 1) none)).isSome = true ∧
      (word.length ≤ (lowerCased ops word).length →
        (scan ops t word stop_at).isSome = true)) ∧
    (∀ (R : HyphenationRule) (base : Nat) (b : HyphenationNode.Buffers),
      HyphenationNode.applyRuleLoop R base (R.priorities.length + 1) 0 b
        = HyphenationNode.applyRule R base R.priorities 0 b) ∧
    HyphenationRule.new [97, 0, 98, 99, 49] = some rule_nul_long ∧
    HyphenationTree.insert asciiOps HyphenationTree.new rule_nul_long = some tree_nul_long ∧
    tree_nul_long.root.ruleAt [97] = some rule_nul_long ∧
    characters asciiOps (unichars "a") = unichars ".a." ∧
    (List.replicate (1 + 2 + 2) (0 : Int))[1 + 4]? = none ∧
    HyphenationNode.applyRule rule_nul_long 1 rule_nul_long.priorities 0
        (List.replicate (1 + 2 + 2) 0, List.replicate (1 + 2 + 3) none) = none ∧
    scan asciiOps tree_nul_long (unichars "a") 2147483647 = none ∧
    (loadPatterns asciiOps HyphenationTree.new [97, 0, 98, 99, 49, 32]).isSome = true ∧
    (loadPatterns asciiOps HyphenationTree.new [97, 0, 98, 99, 49, 32]).bind
        (fun t => applyHyphenationRules asciiOps t (unichars "a")) = none := by
  refine ⟨fun ops t word stop_at hl => ⟨?_, fun hlow => ?_⟩, fun R base b => ?_, by decide, rfl,
    by decide, by decide, by decide, by decide, by decide, by decide, by decide⟩
  · exact scanLoop_isSome ops t word stop_at (Loaded.fits ops t hl) _
      (by simp only [List.length_replicate]; omega)
      (by simp only [List.length_replicate]; omega)
  · unfold scan
    have hn : ¬ (lowerCased ops word).length < word.length := by omega
    simp only [hn, if_false]
    exact scanLoop_isSome ops t word stop_at (Loaded.fits ops t hl) _
      (by simp only [List.length_replicate]; omega)
      (by simp only [List.length_replicate]; omega)
  · have h := HyphenationNode.applyRuleLoop_eq R base R.priorities.length
      (R.priorities.length + 1) 0 b (by omega) (by omega)
    rw [List.drop_zero] at h
    exact h

/-- The dictionary `tree_hy1ph` is built from the token `hy1ph`. -/
theorem tree_hy1ph_loaded : Loaded asciiOps tree_hy1ph :=
  Loaded.insert ⟨HyphenationNode.empty, 1, 1⟩ tree_hy1ph (unichars "hy1ph") rule_hy1ph
    (unichars "hyph") (Loaded.fresh 1 1) (by decide) rfl (by decide) rfl

/-- Witness of C22: the scan of `hyphen` with the dictionary of `hy1ph` completes on arrays of
9 entries. -/
theorem scan_bounds_witness :
    Loaded asciiOps tree_hy1ph ∧
      (scanLoop tree_hy1ph.root (characters asciiOps (unichars "hyphen"))
        ((unichars "hyphen").length + 2) 2147483647 ((unichars "hyphen").length + 2) 0
        (List.replicate ((unichars "hyphen").length + 2 + 1) 0,
          List.replicate ((unichars "hyphen").length + 2 + 1) none)).isSome = true ∧
      (unichars "hyphen").length + 2 + 1 = 9 :=
  ⟨tree_hy1ph_loaded,
    (scan_bounds.1 asciiOps tree_hy1ph (unichars "hyphen") 2147483647 tree_hy1ph_loaded).1,
    by decide⟩

/-! ## The order of the insertions -/

namespace HyphenationNode

/-- A node under which no rule is stored gives no application. -/
theorem matched_eq_nil (to_match : List Nat) (node : HyphenationNode)
    (h : ∀ p : List Nat, node.ruleAt p = none) : node.matched to_match = [] := by
  rw [List.eq_nil_iff_forall_not_mem]
  intro e he
  obtain ⟨p, R⟩ := e
  have := ((mem_matched to_match node p R).mp he).2.2
  rw [h p] at this
  simp at this

/-- The applications of `apply_patterns` depend on the node through the rules stored under
the paths only. -/
theorem matched_congr :
    ∀ (to_match : List Nat) (node1 node2 : HyphenationNode),
      (∀ p : List Nat, node1.ruleAt p = node2.ruleAt p) →
      node1.matched to_match = node2.matched to_match := by
  have hhere : ∀ node1 node2 : HyphenationNode,
      (∀ p : List Nat, node1.ruleAt p = node2.ruleAt p) →
      node1.matchedHere = node2.matchedHere := by
    intro node1 node2 h
    have h0 := h []
    simp only [ruleAt_nil] at h0
    unfold matchedHere
    rw [h0]
  intro to_match
  induction to_match with
  | nil =>
    intro node1 node2 h
    simp only [matched]
    exact hhere node1 node2 h
  | cons key rest ih =>
    intro node1 node2 h
    unfold matched
    rw [hhere node1 node2 h]
    congr 1
    by_cases hk : key ≠ 0
    · simp only [hk, ne_eq, not_false_eq_true, if_true]
      have hsub : ∀ p : List Nat,
          (match node1.find key with
            | some next => next.ruleAt p
            | none => none)
          = (match node2.find key with
            | some next => next.ruleAt p
            | none => none) := by
        intro p
        have := h (key :: p)
        rw [ruleAt_cons, ruleAt_cons] at this
        exact this
      cases h1 : node1.find key with
      | none =>
        cases h2 : node2.find key with
        | none => rfl
        | some n2 =>
          simp only [h1, h2] at hsub
          simp only [matched_eq_nil rest n2 (fun p => (hsub p).symm), List.map_nil]
      | some n1 =>
        cases h2 : node2.find key with
        | none =>
          simp only [h1, h2] at hsub
          simp only [matched_eq_nil rest n1 hsub, List.map_nil]
        | some n2 =>
          simp only [h1, h2] at hsub
          simp only
          rw [ih n1 n2 hsub]
    · simp only [hk, if_false]

end HyphenationNode

theorem scanOrder_congr (root1 root2 : HyphenationNode) (characters : List Nat)
    (h : ∀ p : List Nat, root1.ruleAt p = root2.ruleAt p) :
    ∀ (n i : Nat), scanOrder root1 characters n i = scanOrder root2 characters n i := by
  intro n
  induction n with
  | zero => intro i; rfl
  | succ n ih =>
    intro i
    simp only [scanOrder]
    rw [HyphenationNode.matched_congr _ root1 root2 h, ih (i + 1)]

/-- The result of `applyPatterns` depends on the dictionary through its margins and the rules
stored under the paths only. -/
theorem applyPatternsUpTo_congr_tree (ops : CharOps) (t1 t2 : HyphenationTree)
    (word : List Nat) (stop_at : Nat) (hs : t1.start_safe = t2.start_safe)
    (he : t1.end_safe = t2.end_safe) (h : ∀ p : List Nat, t1.root.ruleAt p = t2.root.ruleAt p) :
    applyPatternsUpTo ops t1 word stop_at = applyPatternsUpTo ops t2 word stop_at := by
  have hscan : scan ops t1 word stop_at = scan ops t2 word stop_at := by
    unfold scan
    by_cases hl : (lowerCased ops word).length < word.length
    · simp only [hl, if_true]
    · simp only [hl, if_false]
      rw [scanLoop_eq_applyAll t1.root (characters ops word) (word.length + 2) stop_at
          (min (word.length + 1) (stop_at + 1)) (word.length + 2) 0 _ (by omega) (by omega),
        scanLoop_eq_applyAll t2.root (characters ops word) (word.length + 2) stop_at
          (min (word.length + 1) (stop_at + 1)) (word.length + 2) 0 _ (by omega) (by omega),
        scanOrder_congr t1.root t2.root _ h]
  unfold applyPatternsUpTo
  rw [hscan, hs, he]

/-- What `insert` does for a rule whose key it can walk: the rule is stored under the walked
key, the rules under the other paths and the margins stay. -/
theorem insert_of_loweredKey (ops : CharOps) (t : HyphenationTree) (r : HyphenationRule)
    (q : List Nat) (hq : loweredKey ops r = some q) :
    ∃ t1 : HyphenationTree, t.insert ops r = some t1 ∧ t1.start_safe = t.start_safe ∧
      t1.end_safe = t.end_safe ∧
      ∀ p : List Nat, t1.root.ruleAt p = if p = q then some r else t.root.ruleAt p := by
  unfold loweredKey at hq
  unfold HyphenationTree.insert
  cases hkey : r.key with
  | none => simp [hkey] at hq
  | some key =>
    simp only [hkey] at hq ⊢
    by_cases hlen : (ops.lowercase key).length < key.length
    · simp [hlen] at hq
    · simp only [hlen, if_false, Option.some.injEq] at hq ⊢
      refine ⟨_, rfl, rfl, rfl, fun p => ?_⟩
      simp only
      rw [HyphenationNode.ruleAt_insert, hq]

/-- The rules stored after a sequence of rules with pairwise distinct walked keys has been
inserted: each rule of the sequence under its key, and the old rules elsewhere. -/
theorem insertAll_spec (ops : CharOps) :
    ∀ (rs : List HyphenationRule) (t : HyphenationTree),
      (∀ r ∈ rs, (loweredKey ops r).isSome = true) → (rs.map (loweredKey ops)).Nodup →
      ∃ t1 : HyphenationTree, HyphenationTree.insertAll ops rs t = some t1 ∧
        t1.start_safe = t.start_safe ∧ t1.end_safe = t.end_safe ∧
        ∀ p : List Nat,
          (∀ r ∈ rs, loweredKey ops r = some p → t1.root.ruleAt p = some r) ∧
          ((∀ r ∈ rs, loweredKey ops r ≠ some p) → t1.root.ruleAt p = t.root.ruleAt p) := by
  intro rs
  induction rs with
  | nil =>
    intro t _ _
    exact ⟨t, rfl, rfl, rfl, fun p => ⟨fun r hr => by simp at hr, fun _ => rfl⟩⟩
  | cons r rs ih =>
    intro t hsome hnd
    have hr := hsome r (List.mem_cons_self _ _)
    obtain ⟨q, hq⟩ := Option.isSome_iff_exists.mp hr
    obtain ⟨t2, hins, hs2, he2, hrule2⟩ := insert_of_loweredKey ops t r q hq
    simp only [List.map_cons, List.nodup_cons] at hnd
    obtain ⟨t1, hall, hs1, he1, hrule1⟩ :=
      ih t2 (fun x hx => hsome x (List.mem_cons_of_mem _ hx)) hnd.2
    refine ⟨t1, ?_, hs1.trans hs2, he1.trans he2, fun p => ⟨fun r0 hr0 hk0 => ?_, fun hno => ?_⟩⟩
    · simp only [HyphenationTree.insertAll, hins]
      exact hall
    · rcases List.mem_cons.mp hr0 with e | hmem
      · subst e
        have hp : p = q := by
          rw [hq] at hk0
          exact (Option.some.inj hk0).symm
        subst hp
        have hnot : ∀ x ∈ rs, loweredKey ops x ≠ some p := by
          intro x hx hkx
          apply hnd.1
          rw [hq, ← hkx]
          exact List.mem_map_of_mem _ hx
        rw [(hrule1 p).2 hnot, hrule2 p]
        simp
      · exact (hrule1 p).1 r0 hmem hk0
    · have hne : p ≠ q := by
        intro e
        apply hno r (List.mem_cons_self _ _)
        rw [hq, e]
      rw [(hrule1 p).2 (fun x hx => hno x (List.mem_cons_of_mem _ hx)), hrule2 p]
      simp [hne]

/-- The key that `insert` walks is the lower-cased key, for a key that keeps its length when
lower-cased and holds no code unit 0 then. -/
theorem loweredKey_eq_lowercase (ops : CharOps) (r : HyphenationRule) (key : List Nat)
    (hkey : r.key = some key) (hlen : (ops.lowercase key).length = key.length)
    (hnul : 0 ∉ ops.lowercase key) : loweredKey ops r = some (ops.lowercase key) := by
  unfold loweredKey
  have hn : ¬ (ops.lowercase key).length < key.length := by omega
  simp only [hkey, hn, if_false, Option.some.injEq]
  rw [List.take_of_length_le (Nat.le_of_eq hlen), List.takeWhile_eq_self_iff]
  intro x hx
  have : x ≠ 0 := fun e => hnul (e ▸ hx)
  simpa using this

/-- C24, counterexample: the rules of the tokens `1a\0b` and `1a\0c` have the lower-cased keys
`a`, 0, `b` and `a`, 0, `c`, which are distinct, and both are stored under `a`, where the
later one replaces the earlier one: inserted in one order they break `ba` with the second
rule, in the other order with the first. -/
theorem insertion_order_counterexample :
    HyphenationRule.new [49, 97, 0, 98] = some rule_nul_b ∧
      HyphenationRule.new [49, 97, 0, 99] = some rule_nul_c ∧
      asciiOps.lowercase [97, 0, 98] ≠ asciiOps.lowercase [97, 0, 99] ∧
      List.Perm [rule_nul_b, rule_nul_c] [rule_nul_c, rule_nul_b] ∧
      (insertAll asciiOps [rule_nul_b, rule_nul_c] HyphenationTree.new).bind
          (fun t => applyHyphenationRules asciiOps t (unichars "ba"))
        = some [none, some rule_nul_c] ∧
      (insertAll asciiOps [rule_nul_c, rule_nul_b] HyphenationTree.new).bind
          (fun t => applyHyphenationRules asciiOps t (unichars "ba"))
        = some [none, some rule_nul_b] :=
  ⟨by decide, by decide, by decide, List.Perm.swap _ _ _, by decide, by decide⟩

/-- C24, as amended: for any two sequences of rules that are permutations of each other and
whose keys, lower-cased and read as the 0-terminated arrays that `insert` walks, exist and are
pairwise distinct, the insertions complete in both orders on any dictionary, and the two
dictionaries return the same result for every word.  The walked key of a rule is its
lower-cased key when this keeps the length of the key and holds no code unit 0. -/
theorem insertion_order_independent (ops : CharOps) (t : HyphenationTree)
    (rs1 rs2 : List HyphenationRule) (word : List Nat) (hperm : rs1.Perm rs2)
    (hkeys : ∀ r ∈ rs1, (loweredKey ops r).isSome = true)
    (hdistinct : (rs1.map (loweredKey ops)).Nodup) :
    (insertAll ops rs1 t).isSome = true ∧ (insertAll ops rs2 t).isSome = true ∧
    (insertAll ops rs1 t).bind (fun t1 => applyHyphenationRules ops t1 word)
      = (insertAll ops rs2 t).bind (fun t2 => applyHyphenationRules ops t2 word) ∧
    (∀ (r : HyphenationRule) (key : List Nat), r.key = some key →
      (ops.lowercase key).length = key.length → 0 ∉ ops.lowercase key →
      loweredKey ops r = some (ops.lowercase key)) := by
  obtain ⟨t1, h1, hs1, he1, hr1⟩ := insertAll_spec ops rs1 t hkeys hdistinct
  obtain ⟨t2, h2, hs2, he2, hr2⟩ := insertAll_spec ops rs2 t
    (fun r hr => hkeys r (hperm.mem_iff.mpr hr))
    ((hperm.map (loweredKey ops)).nodup_iff.mp hdistinct)
  refine ⟨by rw [h1]; rfl, by rw [h2]; rfl, ?_,
    fun r key hk hl hn => loweredKey_eq_lowercase ops r key hk hl hn⟩
  rw [h1, h2]
  simp only [Option.bind]
  unfold applyHyphenationRules applyPatterns
  refine applyPatternsUpTo_congr_tree ops t1 t2 word 2147483647 (hs1.trans hs2.symm)
    (he1.trans he2.symm) (fun p => ?_)
  by_cases hex : ∃ r ∈ rs1, loweredKey ops r = some p
  · obtain ⟨r, hr, hk⟩ := hex
    rw [(hr1 p).1 r hr hk, (hr2 p).1 r (hperm.mem_iff.mp hr) hk]
  · have hno : ∀ r ∈ rs1, loweredKey ops r ≠ some p := fun r hr hk => hex ⟨r, hr, hk⟩
    rw [(hr1 p).2 hno, (hr2 p).2 (fun r hr => hno r (hperm.mem_iff.mpr hr))]

/-- Witness of C24: the rules `1p` and `y3p`, inserted in either order into a fresh
dictionary, break `hyphen` before the `p` with the rule `y3p`. -/
theorem insertion_order_independent_witness :
    List.Perm [rule_1p, rule_y3p] [rule_y3p, rule_1p] ∧
      [rule_1p, rule_y3p].map (loweredKey asciiOps) = [some (unichars "p"), some (unichars "yp")] ∧
      (insertAll asciiOps [rule_1p, rule_y3p] HyphenationTree.new).bind
          (fun t1 => applyHyphenationRules asciiOps t1 (unichars "hyphen"))
        = some [none, none, some rule_y3p, none, none, none] ∧
      (insertAll asciiOps [rule_1p, rule_y3p] HyphenationTree.new).bind
          (fun t1 => applyHyphenationRules asciiOps t1 (unichars "hyphen"))
        = (insertAll asciiOps [rule_y3p, rule_1p] HyphenationTree.new).bind
          (fun t2 => applyHyphenationRules asciiOps t2 (unichars "hyphen")) :=
  ⟨List.Perm.swap _ _ _, by decide, by decide,
    (insertion_order_independent asciiOps HyphenationTree.new [rule_1p, rule_y3p]
      [rule_y3p, rule_1p] (unichars "hyphen") (List.Perm.swap _ _ _) (by decide)
      (by decide)).2.2.1⟩

/-! ## Building a dictionary from a file -/

end Hyphenate
